import Mathlib

/-!
# Incremental best-first grid search (`src/main.cpp`)

A shallow embedding of the `Box` / `Grid` classes of the visualiser and of
`Grid::Step`, followed by the properties proved about them.

Conventions of the embedding:

* `int` values are `Int`.  The two additions of `Grid::Step` that could
  leave the 32-bit range (`g = current->distance + 1` and `f = g + h`) are
  checked: a result outside `[INT_MIN, INT_MAX]` is undefined behaviour in
  the source and makes the embedded function return `none`.  The other
  arithmetic (differences of cell coordinates, `gx * size`) is on values
  bounded by the grid dimensions and is not checked.
* A `Box*` that points into `boxes` is the pair of indices `(i, j)` of
  `&boxes[i][j]`; a possibly-null pointer is an `Option BoxPtr`.  A null
  dereference makes the embedded function return `none`.
* The array `boxes[GRID_COLS][GRID_ROWS]` is a function from index pairs to
  `Box`; only in-bounds indices are ever read or written.
* The frontier is the list of its entries; `top` is a least entry for the
  order of `std::pair<int, Box*>` (priority, then address) and `pop`
  removes it.
* The compile-time configuration (`GRID_COLS`, `GRID_ROWS`, `startCoord`,
  `endCoord`, the list built by `InitWalls`) is the record `Config`; the
  values of the source are `programConfig`.

The proofs go through two invariants of `Step`, `Inv` (the search: costs,
predecessors, frontier) and `TraceInv` (the phases and the marked path), and
through `StepKind`, the case analysis of one call.  The run on the values of the
source is evaluated on a second implementation of `Step` over natural numbers
(`fastStep`), proved to pass through the same states (`sim_run`).
-/

namespace PathViz

/-! ## Data model -/

def INT_MAX : Int := 2147483647

def INT_MIN : Int := -2147483648

def WINDOW_WIDTH : Nat := 1920

def WINDOW_HEIGHT : Nat := 1080

def BOX_SIZE : Nat := 20

def GRID_COLS : Nat := WINDOW_WIDTH / BOX_SIZE

def GRID_ROWS : Nat := WINDOW_HEIGHT / BOX_SIZE

/-- The struct `Coordinate`. -/
structure Coordinate where
  x : Int
  y : Int
deriving DecidableEq, Repr

/-- Address of `boxes[i][j]`, as the index pair `(i, j)`. -/
abbrev BoxPtr := Nat × Nat

/-- The class `Box` (the drawing method is not part of the model). -/
structure Box where
  gridX : Int
  gridY : Int
  pixelX : Int
  pixelY : Int
  size : Int
  isStart : Bool
  isEnd : Bool
  isWall : Bool
  isVisited : Bool
  isPath : Bool
  distance : Int
  source : Option BoxPtr
deriving DecidableEq, Repr

/-- The constructor `Box(gx, gy, size)` with the member initialisers. -/
def Box.new (gx gy size : Int) : Box :=
  { gridX := gx, gridY := gy, pixelX := gx * size, pixelY := gy * size, size := size,
    isStart := false, isEnd := false, isWall := false, isVisited := false, isPath := false,
    distance := INT_MAX, source := none }

/-- The compile-time configuration of `Grid`. -/
structure Config where
  cols : Nat
  rows : Nat
  startCoord : Coordinate
  endCoord : Coordinate
  walls : List Coordinate
deriving DecidableEq, Repr

/-- An entry `std::pair<int, Box*>` of the frontier. -/
abbrev Entry := Int × BoxPtr

/-- The class `Grid`; `cols` and `rows` stand for the globals `GRID_COLS` and `GRID_ROWS`. -/
structure Grid where
  cols : Nat
  rows : Nat
  boxes : BoxPtr → Box
  startCoord : Coordinate
  endCoord : Coordinate
  pq : List Entry
  algorithmRunning : Bool
  tracingPath : Bool
  pathBox : Option BoxPtr
  walls : List Coordinate

/-! ## The frontier `std::priority_queue<..., std::greater<>>` -/

/-- Position of `&boxes[i][j]` in memory, in units of `sizeof(Box)`. -/
def addr (rows : Nat) (p : BoxPtr) : Nat := p.1 * rows + p.2

/-- The order `operator<` of `std::pair<int, Box*>`: first component, then address. -/
def entryLt (rows : Nat) (a b : Entry) : Bool :=
  decide (a.1 < b.1) || (decide (a.1 = b.1) && decide (addr rows a.2 < addr rows b.2))

/-- The member `top()`: with `std::greater<>` the least entry is on top. -/
def pqTop (rows : Nat) : List Entry → Option Entry
  | [] => none
  | e :: es =>
    match pqTop rows es with
    | none => some e
    | some m => if entryLt rows m e then some m else some e

/-- The member `pop()`: removes the entry that `top()` shows. -/
def pqPop (rows : Nat) (q : List Entry) : List Entry :=
  match pqTop rows q with
  | none => q
  | some m => q.erase m

/-- The member `emplace(f, box)`. -/
def pqEmplace (q : List Entry) (f : Int) (b : BoxPtr) : List Entry := (f, b) :: q

/-! ## `Grid` -/

/-- `Grid::InitWalls`. -/
def InitWalls : List Coordinate :=
  (List.range 30).foldl (fun walls y => walls ++ [⟨5, y⟩, ⟨15, y⟩]) []

/-- The values the source gives to the configuration. -/
def programConfig : Config :=
  { cols := GRID_COLS, rows := GRID_ROWS, startCoord := ⟨10, 10⟩, endCoord := ⟨30, 50⟩,
    walls := InitWalls }

/-- Bounds test of `Grid::GetBox`, on the globals only. -/
def getBoxAt (cols rows : Nat) (x y : Int) : Option BoxPtr :=
  if x < 0 ∨ x ≥ cols ∨ y < 0 ∨ y ≥ rows then none else some (x.toNat, y.toNat)

/-- `Grid::GetBox`. -/
def GetBox (g : Grid) (x y : Int) : Option BoxPtr := getBoxAt g.cols g.rows x y

/-- The loop of the constructor that sets `isWall`. -/
def markWalls (cols rows : Nat) (walls : List Coordinate) (boxes : BoxPtr → Box) : BoxPtr → Box :=
  walls.foldl
    (fun (bs : BoxPtr → Box) (wall : Coordinate) =>
      if wall.x ≥ 0 ∧ wall.x < (cols : Int) ∧ wall.y ≥ 0 ∧ wall.y < (rows : Int) then
        Function.update bs (wall.x.toNat, wall.y.toNat)
          { bs (wall.x.toNat, wall.y.toNat) with isWall := true }
      else bs)
    boxes

/-- The constructor `Grid::Grid`.  `none` stands for the null dereference of the
result of `GetBox` when `startCoord` or `endCoord` is out of bounds. -/
def Grid.new (cfg : Config) : Option Grid :=
  let boxes0 : BoxPtr → Box := fun p =>
    if p.1 < cfg.cols ∧ p.2 < cfg.rows then Box.new (p.1 : Nat) (p.2 : Nat) BOX_SIZE
    else Box.new 0 0 BOX_SIZE
  let boxes1 := markWalls cfg.cols cfg.rows cfg.walls boxes0
  match getBoxAt cfg.cols cfg.rows cfg.startCoord.x cfg.startCoord.y with
  | none => none
  | some s =>
    let boxes2 := Function.update boxes1 s { boxes1 s with isStart := true }
    match getBoxAt cfg.cols cfg.rows cfg.endCoord.x cfg.endCoord.y with
    | none => none
    | some e =>
      let boxes3 := Function.update boxes2 e { boxes2 e with isEnd := true }
      let boxes4 := Function.update boxes3 s { boxes3 s with distance := 0 }
      some
        { cols := cfg.cols, rows := cfg.rows, boxes := boxes4,
          startCoord := cfg.startCoord, endCoord := cfg.endCoord,
          pq := pqEmplace [] 0 s, algorithmRunning := true, tracingPath := false,
          pathBox := none, walls := cfg.walls }

/-- The function `abs` of the C library on `int`. -/
def c_abs (v : Int) : Int := if v < 0 then -v else v

/-- `Grid::CalculateHeuristic`; `none` is the null dereference of `end`. -/
def CalculateHeuristic (g : Grid) (current : BoxPtr) : Option Int :=
  match GetBox g g.endCoord.x g.endCoord.y with
  | none => none
  | some e =>
    some (c_abs ((g.boxes current).gridX - (g.boxes e).gridX)
      + c_abs ((g.boxes current).gridY - (g.boxes e).gridY))

/-- `Grid::GetNeighbors`: the offsets `dx`, `dy` in the order of the source. -/
def GetNeighbors (g : Grid) (box : BoxPtr) : List BoxPtr :=
  ([((0 : Int), (-1 : Int)), (0, 1), (-1, 0), (1, 0)]).filterMap fun d =>
    match GetBox g ((g.boxes box).gridX + d.1) ((g.boxes box).gridY + d.2) with
    | none => none
    | some neighbor => if (g.boxes neighbor).isWall then none else some neighbor

/-- Addition of two `int`s; `none` when the result is not an `int`. -/
def addInt (a b : Int) : Option Int :=
  if INT_MIN ≤ a + b ∧ a + b ≤ INT_MAX then some (a + b) else none

/-- One iteration of the relaxation loop of `Grid::Step`. -/
def relax (current : BoxPtr) (g : Grid) (neighbor : BoxPtr) : Option Grid :=
  match addInt (g.boxes current).distance 1 with
  | none => none
  | some gCost =>
    match CalculateHeuristic g neighbor with
    | none => none
    | some h =>
      match addInt gCost h with
      | none => none
      | some f =>
        if gCost < (g.boxes neighbor).distance then
          some { g with
            boxes := Function.update g.boxes neighbor
              { g.boxes neighbor with distance := gCost, source := some current },
            pq := pqEmplace g.pq f neighbor }
        else some g

/-- The relaxation loop of `Grid::Step` over the vector `GetNeighbors(current)` returned. -/
def relaxAll (current : BoxPtr) : List BoxPtr → Grid → Option Grid
  | [], g => some g
  | neighbor :: rest, g =>
    match relax current g neighbor with
    | none => none
    | some g1 => relaxAll current rest g1

/-- `Grid::Step`. -/
def Step (g : Grid) : Option Grid :=
  if g.algorithmRunning = true ∧ g.pq ≠ [] then
    match pqTop g.rows g.pq with
    | none => none
    | some top =>
      let current := top.2
      let g1 := { g with pq := pqPop g.rows g.pq }
      if (g1.boxes current).isVisited = true then some g1
      else
        let g2 := { g1 with
          boxes := Function.update g1.boxes current { g1.boxes current with isVisited := true } }
        if some current = GetBox g2 g2.endCoord.x g2.endCoord.y then
          some { g2 with
            algorithmRunning := false, tracingPath := true,
            pathBox := (g2.boxes current).source }
        else relaxAll current (GetNeighbors g2 current) g2
  else
    match g.pathBox with
    | some pb =>
      if g.tracingPath = true ∧ (g.boxes pb).isStart = false then
        some { g with
          boxes := Function.update g.boxes pb { g.boxes pb with isPath := true },
          pathBox := (g.boxes pb).source }
      else some { g with tracingPath := false }
    | none => some { g with tracingPath := false }

/-- `n` calls of `Grid::Step`. -/
def StepN : Nat → Grid → Option Grid
  | 0, g => some g
  | n + 1, g =>
    match Step g with
    | none => none
    | some g1 => StepN n g1

/-- The state after construction and `n` calls of `Grid::Step`. -/
def run (cfg : Config) (n : Nat) : Option Grid :=
  match Grid.new cfg with
  | none => none
  | some g => StepN n g

/-- The phase `Idle` of the state machine: not tracing, and not searching a non-empty frontier. -/
def Idle (g : Grid) : Prop :=
  g.tracingPath = false ∧ (g.algorithmRunning = false ∨ g.pq = [])

instance (g : Grid) : Decidable (Idle g) := by unfold Idle; infer_instance

/-! ## Vocabulary of the properties -/

/-- The cell a coordinate designates (meaningful for coordinates inside the grid). -/
def ptrOf (c : Coordinate) : BoxPtr := (c.x.toNat, c.y.toNat)

/-- The coordinate lies inside a grid of the given dimensions. -/
def CoordIn (cols rows : Nat) (c : Coordinate) : Prop :=
  0 ≤ c.x ∧ c.x < (cols : Int) ∧ 0 ≤ c.y ∧ c.y < (rows : Int)

instance (cols rows : Nat) (c : Coordinate) : Decidable (CoordIn cols rows c) := by
  unfold CoordIn; infer_instance

/-- The pointer designates an element of `boxes`. -/
def InB (cfg : Config) (p : BoxPtr) : Prop := p.1 < cfg.cols ∧ p.2 < cfg.rows

instance (cfg : Config) (p : BoxPtr) : Decidable (InB cfg p) := by unfold InB; infer_instance

/-- The cell is one of the walls of the configuration. -/
def WallAt (cfg : Config) (p : BoxPtr) : Prop := (⟨(p.1 : Nat), (p.2 : Nat)⟩ : Coordinate) ∈ cfg.walls

instance (cfg : Config) (p : BoxPtr) : Decidable (WallAt cfg p) := by unfold WallAt; infer_instance

/-- A cell a path may use: inside the grid and not a wall. -/
def Walkable (cfg : Config) (p : BoxPtr) : Prop := InB cfg p ∧ ¬ WallAt cfg p

instance (cfg : Config) (p : BoxPtr) : Decidable (Walkable cfg p) := by
  unfold Walkable; infer_instance

/-- The two cells are 4-neighbours: one column or one row apart. -/
def Adj (p q : BoxPtr) : Prop :=
  (p.1 = q.1 ∧ (p.2 + 1 = q.2 ∨ q.2 + 1 = p.2)) ∨ (p.2 = q.2 ∧ (p.1 + 1 = q.1 ∨ q.1 + 1 = p.1))

instance (p q : BoxPtr) : Decidable (Adj p q) := by unfold Adj; infer_instance

/-- Manhattan distance between two cells. -/
def manhattan (p e : BoxPtr) : Int :=
  c_abs ((p.1 : Int) - (e.1 : Int)) + c_abs ((p.2 : Int) - (e.2 : Int))

/-- `Walk cfg a l b`: starting on `a` and moving to the cells of `l` in turn ends on `b`;
every move goes to a 4-neighbour and every cell is inside the grid and not a wall.  The
number of moves is `l.length`. -/
def Walk (cfg : Config) : BoxPtr → List BoxPtr → BoxPtr → Prop
  | a, [], b => a = b ∧ Walkable cfg a
  | a, c :: rest, b => Walkable cfg a ∧ Adj a c ∧ Walk cfg c rest b

instance instDecidableWalk (cfg : Config) :
    ∀ (a : BoxPtr) (l : List BoxPtr) (b : BoxPtr), Decidable (Walk cfg a l b)
  | a, [], b => by unfold Walk; infer_instance
  | a, c :: rest, b => by
    unfold Walk
    have := instDecidableWalk cfg c rest b
    infer_instance

/-- `k` is the length of a shortest wall-avoiding 4-connected path from `a` to `b`. -/
def ShortestLen (cfg : Config) (a b : BoxPtr) (k : Int) : Prop :=
  (∃ l, Walk cfg a l b ∧ (l.length : Int) = k) ∧ ∀ l, Walk cfg a l b → k ≤ (l.length : Int)

/-- `SourceChain g p l`: following `source` from `p` passes through the cells of `l` in turn
and stops there, on a cell whose `source` is null. -/
def SourceChain (g : Grid) : BoxPtr → List BoxPtr → Prop
  | p, [] => (g.boxes p).source = none
  | p, s :: rest => (g.boxes p).source = some s ∧ SourceChain g s rest

/-- The configurations the search is meant for: start and end inside the grid, distinct, and
neither on a wall. -/
def Valid (cfg : Config) : Prop :=
  CoordIn cfg.cols cfg.rows cfg.startCoord ∧ CoordIn cfg.cols cfg.rows cfg.endCoord ∧
    cfg.startCoord ≠ cfg.endCoord ∧ cfg.startCoord ∉ cfg.walls ∧ cfg.endCoord ∉ cfg.walls

instance (cfg : Config) : Decidable (Valid cfg) := by unfold Valid; infer_instance

/-- The grid is small enough for every cost and priority to be an `int`. -/
def Small (cfg : Config) : Prop :=
  (cfg.cols : Int) * cfg.rows + cfg.cols + cfg.rows ≤ INT_MAX

instance (cfg : Config) : Decidable (Small cfg) := by unfold Small; infer_instance

/-- The cell has been reached by the search: it is the start cell or has a predecessor. -/
def Discovered (cfg : Config) (g : Grid) (p : BoxPtr) : Prop :=
  p = ptrOf cfg.startCoord ∨ (g.boxes p).source ≠ none

/-- Number of cells of the grid not yet visited. -/
def unvisitedCount (g : Grid) : Nat :=
  ((Finset.range g.cols ×ˢ Finset.range g.rows).filter
    (fun p => (g.boxes p).isVisited = false)).card

/-- The facts about a state that `Step` never touches: the configuration, the coordinates
stored in the cells and the role flags. -/
structure Static (cfg : Config) (g : Grid) : Prop where
  coord_start : CoordIn cfg.cols cfg.rows cfg.startCoord
  coord_end : CoordIn cfg.cols cfg.rows cfg.endCoord
  start_ok : Walkable cfg (ptrOf cfg.startCoord)
  small : Small cfg
  cols_eq : g.cols = cfg.cols
  rows_eq : g.rows = cfg.rows
  start_eq : g.startCoord = cfg.startCoord
  end_eq : g.endCoord = cfg.endCoord
  walls_eq : g.walls = cfg.walls
  grid_xy : ∀ p, InB cfg p → (g.boxes p).gridX = (p.1 : Nat) ∧ (g.boxes p).gridY = (p.2 : Nat)
  wall_iff : ∀ p, InB cfg p → ((g.boxes p).isWall = true ↔ WallAt cfg p)
  start_iff : ∀ p, InB cfg p → ((g.boxes p).isStart = true ↔ p = ptrOf cfg.startCoord)
  end_iff : ∀ p, InB cfg p → ((g.boxes p).isEnd = true ↔ p = ptrOf cfg.endCoord)

/-- The two cells agree on the coordinates and the role flags. -/
def SameRoles (b b' : Box) : Prop :=
  b'.gridX = b.gridX ∧ b'.gridY = b.gridY ∧ b'.isWall = b.isWall ∧ b'.isStart = b.isStart ∧
    b'.isEnd = b.isEnd

/-- The facts about the search that every call of `Step` keeps, for the configuration `cfg`. -/
structure Inv (cfg : Config) (g : Grid) extends Static cfg g : Prop where
  start_dist : (g.boxes (ptrOf cfg.startCoord)).distance = 0
  start_source : (g.boxes (ptrOf cfg.startCoord)).source = none
  nonneg : ∀ p, 0 ≤ (g.boxes p).distance
  undiscovered : ∀ p, ¬ Discovered cfg g p →
    (g.boxes p).distance = INT_MAX ∧ (g.boxes p).isVisited = false
  src : ∀ p s, (g.boxes p).source = some s →
    Walkable cfg p ∧ Walkable cfg s ∧ (g.boxes s).isVisited = true ∧ s ≠ ptrOf cfg.endCoord ∧
      Adj s p ∧ (g.boxes p).distance = (g.boxes s).distance + 1
  visited_ok : ∀ p, (g.boxes p).isVisited = true → Walkable cfg p
  relaxed : ∀ u, (g.boxes u).isVisited = true → u ≠ ptrOf cfg.endCoord →
    ∀ n, Adj u n → Walkable cfg n → (g.boxes n).distance ≤ (g.boxes u).distance + 1
  optimal : ∀ p, (g.boxes p).isVisited = true →
    ∀ l, Walk cfg (ptrOf cfg.startCoord) l p → (g.boxes p).distance ≤ (l.length : Int)
  pq_ok : ∀ e ∈ g.pq, Walkable cfg e.2 ∧ Discovered cfg g e.2 ∧
    (e.2 = ptrOf cfg.startCoord ∨
      (g.boxes e.2).distance + manhattan e.2 (ptrOf cfg.endCoord) ≤ e.1)
  fresh : g.algorithmRunning = true → ∀ p, Walkable cfg p → (g.boxes p).isVisited = false →
    Discovered cfg g p →
    ∃ f, (f, p) ∈ g.pq ∧ f ≤ (g.boxes p).distance + manhattan p (ptrOf cfg.endCoord)
  end_unvisited : g.algorithmRunning = true →
    (g.boxes (ptrOf cfg.endCoord)).isVisited = false

/-- The facts about the phase flags, `pathBox` and `isPath` that every call of `Step` keeps:
while searching nothing is marked; afterwards the predecessor chain of the end cell splits into
the cells already marked (`done`) and the cells still to walk (`todo`, `pathBox` first). -/
structure TraceInv (cfg : Config) (g : Grid) : Prop where
  ne : ptrOf cfg.startCoord ≠ ptrOf cfg.endCoord
  searching : g.algorithmRunning = true →
    g.tracingPath = false ∧ g.pathBox = none ∧ ∀ p, (g.boxes p).isPath = false
  found : g.algorithmRunning = false →
    (g.boxes (ptrOf cfg.endCoord)).isVisited = true ∧
    ∃ done todo, SourceChain g (ptrOf cfg.endCoord) (done ++ todo) ∧
      (done ++ todo).getLast? = some (ptrOf cfg.startCoord) ∧
      (∀ p, (g.boxes p).isPath = true ↔ p ∈ done) ∧ g.pathBox = todo.head? ∧
      (g.tracingPath = false → todo = [ptrOf cfg.startCoord]) ∧ todo ≠ []

/-- The state the constructor builds, written out. -/
def initGrid (cfg : Config) : Grid :=
  { cols := cfg.cols, rows := cfg.rows,
    boxes := fun p =>
      { gridX := if p.1 < cfg.cols ∧ p.2 < cfg.rows then (p.1 : Nat) else 0,
        gridY := if p.1 < cfg.cols ∧ p.2 < cfg.rows then (p.2 : Nat) else 0,
        pixelX := (if p.1 < cfg.cols ∧ p.2 < cfg.rows then (p.1 : Nat) else 0) * BOX_SIZE,
        pixelY := (if p.1 < cfg.cols ∧ p.2 < cfg.rows then (p.2 : Nat) else 0) * BOX_SIZE,
        size := BOX_SIZE,
        isStart := decide (p = ptrOf cfg.startCoord),
        isEnd := decide (p = ptrOf cfg.endCoord),
        isWall := decide (∃ w ∈ cfg.walls, CoordIn cfg.cols cfg.rows w ∧ ptrOf w = p),
        isVisited := false, isPath := false,
        distance := if p = ptrOf cfg.startCoord then 0 else INT_MAX,
        source := none },
    startCoord := cfg.startCoord, endCoord := cfg.endCoord,
    pq := [(0, ptrOf cfg.startCoord)], algorithmRunning := true, tracingPath := false,
    pathBox := none, walls := cfg.walls }

/-- The part of the invariant that `CalculateHeuristic` and `GetNeighbors` read. -/
structure Geom (cfg : Config) (g : Grid) : Prop where
  coord_end : CoordIn cfg.cols cfg.rows cfg.endCoord
  cols_eq : g.cols = cfg.cols
  rows_eq : g.rows = cfg.rows
  end_eq : g.endCoord = cfg.endCoord
  grid_xy : ∀ p, InB cfg p → (g.boxes p).gridX = (p.1 : Nat) ∧ (g.boxes p).gridY = (p.2 : Nat)
  wall_iff : ∀ p, InB cfg p → ((g.boxes p).isWall = true ↔ WallAt cfg p)

/-- The cell `p` after the relaxation loop of `current` over the neighbours `l`, from `g`. -/
def relaxedBox (g : Grid) (current : BoxPtr) (l : List BoxPtr) (p : BoxPtr) : Box :=
  if p ∈ l ∧ (g.boxes current).distance + 1 < (g.boxes p).distance then
    { g.boxes p with distance := (g.boxes current).distance + 1, source := some current }
  else g.boxes p
/-- The state after a successful relaxation of `n` from `current`: new cost, new predecessor,
one more frontier entry. -/
def setCost (g : Grid) (n : BoxPtr) (cost : Int) (current : BoxPtr) (f : Int) : Grid :=
  { g with
    boxes := Function.update g.boxes n { g.boxes n with distance := cost, source := some current },
    pq := (f, n) :: g.pq }

/-- The two states agree on everything but `boxes` and `pq`. -/
def SameFrame (g g' : Grid) : Prop :=
  g'.cols = g.cols ∧ g'.rows = g.rows ∧ g'.startCoord = g.startCoord ∧
    g'.endCoord = g.endCoord ∧ g'.algorithmRunning = g.algorithmRunning ∧
    g'.tracingPath = g.tracingPath ∧ g'.pathBox = g.pathBox ∧ g'.walls = g.walls

/-- The cell `p` after the call of `Step` that expands `current`: a 4-neighbour that is
inside the grid, not a wall and strictly improved gets the new cost and predecessor,
`current` becomes visited, every other cell is as before. -/
def expandedBox (cfg : Config) (g : Grid) (current p : BoxPtr) : Box :=
  if Adj current p ∧ Walkable cfg p ∧ (g.boxes current).distance + 1 < (g.boxes p).distance then
    { g.boxes p with distance := (g.boxes current).distance + 1, source := some current }
  else if p = current then { g.boxes p with isVisited := true }
  else g.boxes p

/-- The state after the call of `Step` that pops the unvisited end cell `current`. -/
def goalState (g : Grid) (top : Entry) : Grid :=
  { g with
    pq := g.pq.erase top,
    boxes := Function.update g.boxes top.2 { g.boxes top.2 with isVisited := true },
    algorithmRunning := false, tracingPath := true, pathBox := (g.boxes top.2).source }

/-- The state after the call of `Step` that marks `pb` as part of the path. -/
def tracedState (g : Grid) (pb : BoxPtr) : Grid :=
  { g with
    boxes := Function.update g.boxes pb { g.boxes pb with isPath := true },
    pathBox := (g.boxes pb).source }

/-- The five things a call of `Step` can do, each with the state it produces. -/
inductive StepKind (cfg : Config) (g g' : Grid) : Prop
  /-- The popped entry refers to a visited cell and is dropped. -/
  | stale (top : Entry) (hr : g.algorithmRunning = true) (ht : pqTop g.rows g.pq = some top)
      (hv : (g.boxes top.2).isVisited = true) (hg : g' = { g with pq := g.pq.erase top })
  /-- The popped entry refers to the unvisited end cell. -/
  | goal (top : Entry) (hr : g.algorithmRunning = true) (ht : pqTop g.rows g.pq = some top)
      (hv : (g.boxes top.2).isVisited = false) (he : top.2 = ptrOf cfg.endCoord)
      (hg : g' = goalState g top)
  /-- The popped entry refers to an unvisited cell other than the end cell. -/
  | expand (top : Entry) (hr : g.algorithmRunning = true) (ht : pqTop g.rows g.pq = some top)
      (hv : (g.boxes top.2).isVisited = false) (he : top.2 ≠ ptrOf cfg.endCoord)
      (hfr : SameFrame g g') (hbx : ∀ p, g'.boxes p = expandedBox cfg g top.2 p)
      (hpq : ∀ e, e ∈ g'.pq ↔ e ∈ g.pq.erase top ∨ ∃ n, Adj top.2 n ∧ Walkable cfg n ∧
        (g.boxes top.2).distance + 1 < (g.boxes n).distance ∧
        e = ((g.boxes top.2).distance + 1 + manhattan n (ptrOf cfg.endCoord), n))
      (hlen : g'.pq.length ≤ (g.pq.erase top).length + 4)
  /-- The cell under `pathBox` is marked and `pathBox` moves to its predecessor. -/
  | trace (pb : BoxPtr) (hs : ¬ (g.algorithmRunning = true ∧ g.pq ≠ []))
      (ht : g.tracingPath = true) (hp : g.pathBox = some pb)
      (hb : (g.boxes pb).isStart = false) (hg : g' = tracedState g pb)
  /-- Nothing is left to do: `tracingPath` is cleared. -/
  | rest (hs : ¬ (g.algorithmRunning = true ∧ g.pq ≠ []))
      (hn : ∀ pb, g.pathBox = some pb → ¬ (g.tracingPath = true ∧ (g.boxes pb).isStart = false))
      (hg : g' = { g with tracingPath := false })

/-- The two cells agree on everything the search reads or writes. -/
def SameSearch (b b' : Box) : Prop :=
  SameRoles b b' ∧ b'.isVisited = b.isVisited ∧ b'.distance = b.distance ∧ b'.source = b.source

/-- The measure that every searching call of `Step` decreases: frontier entries plus four
for every cell not yet visited. -/
def searchMeasure (g : Grid) : Nat := g.pq.length + 4 * unvisitedCount g

/-- A 3 × 6 grid with two walls on which the search pops more entries than there are cells. -/
def detour : Config := ⟨3, 6, ⟨2, 0⟩, ⟨0, 4⟩, [⟨0, 3⟩, ⟨1, 4⟩]⟩

/-- A 2 × 2 grid whose start and end coordinates coincide. -/
def sameCell : Config := ⟨2, 2, ⟨0, 0⟩, ⟨0, 0⟩, []⟩

/-- A 2 × 2 grid whose start coordinate is a wall. -/
def startOnWall : Config := ⟨2, 2, ⟨0, 0⟩, ⟨1, 1⟩, [⟨0, 0⟩]⟩

/-- The cell `b'` is `b` after some progress: still visited if it was, still on the path if
it was, and with a cost that is not larger. -/
def BoxMono (b b' : Box) : Prop :=
  (b.isVisited = true → b'.isVisited = true) ∧ (b.isPath = true → b'.isPath = true) ∧
    b'.distance ≤ b.distance

/-- A one-column grid of two cells: the end cell is the neighbour of the start cell. -/
def adjacent : Config := ⟨1, 2, ⟨0, 0⟩, ⟨0, 1⟩, []⟩

/-- A one-column grid of three cells whose middle cell is a wall: the end cell cannot be
reached. -/
def blocked : Config := ⟨1, 3, ⟨0, 0⟩, ⟨0, 2⟩, [⟨0, 1⟩]⟩

/-! ## A second implementation of the run, for evaluation

`Step` on the function-based `Grid` is costly to evaluate over hundreds of calls.  `fastStep`
does the same work on natural numbers only: every cell is a code, the cells are kept in a
binary trie indexed by the bits of the address, and the frontier is a list of keys in
increasing order.  `Sim` relates the two kinds of state, and `sim_run` shows that the states
of `run` are the states of `fastRun`. -/

/-- A binary trie of cell codes, indexed by the bits of an address, lowest bit first; a cell
that is absent has the code 0. -/
inductive Trie where
  | empty : Trie
  | leaf : Nat → Trie
  | node : Trie → Trie → Trie

/-- The left subtrie. -/
def Trie.left : Trie → Trie
  | .node l _ => l
  | _ => .empty

/-- The right subtrie. -/
def Trie.right : Trie → Trie
  | .node _ r => r
  | _ => .empty

/-- The code stored in a leaf. -/
def Trie.val : Trie → Nat
  | .leaf c => c
  | _ => 0

/-- One more address bit for a lookup `g`. -/
def getStep (g : Trie → Nat → Nat) (t : Trie) (a : Nat) : Nat :=
  g (bif Nat.beq (a % 2) 1 then t.right else t.left) (a / 2)

/-- One more address bit for an update `s`. -/
def setStep (s : Trie → Nat → Nat → Trie) (t : Trie) (a c : Nat) : Trie :=
  bif Nat.beq (a % 2) 1 then .node t.left (s t.right (a / 2) c)
  else .node (s t.left (a / 2) c) t.right

/-- Lookup with no address bit left. -/
def get0 (t : Trie) (_ : Nat) : Nat := t.val

/-- Update with no address bit left. -/
def set0 (_ : Trie) (_ : Nat) (c : Nat) : Trie := .leaf c

/-- The code at a 13-bit address. -/
def tget : Trie → Nat → Nat :=
  getStep (getStep (getStep (getStep (getStep (getStep (getStep (getStep (getStep (getStep
    (getStep (getStep (getStep get0))))))))))))

/-- The trie with a new code at a 13-bit address. -/
def tset : Trie → Nat → Nat → Trie :=
  setStep (setStep (setStep (setStep (setStep (setStep (setStep (setStep (setStep (setStep
    (setStep (setStep (setStep set0))))))))))))

/-- The cell at the address `a`. -/
def ptrAt (cfg : Config) (a : Nat) : BoxPtr := (a / cfg.rows, a % cfg.rows)

/-- The member `distance` that a code stands for: bits 3 to 16 hold the distance plus one, or 0
for `INT_MAX`. -/
def distOf (c : Nat) : Int :=
  if c / 8 % 16384 = 0 then INT_MAX else ((c / 8 % 16384 - 1 : Nat) : Int)

/-- The pointer that a number stands for: 0 is null, `a + 1` the cell at the address `a`. -/
def srcOf (cfg : Config) (s : Nat) : Option BoxPtr :=
  if s = 0 then none else some (ptrAt cfg (s - 1))

/-- The code `c` stands for the cell `b`: bit 0 is `isWall`, bit 1 `isVisited`, bit 2 `isPath`,
bits 3 to 16 the distance, the bits from 17 on the member `source`. -/
structure Cell (cfg : Config) (b : Box) (c : Nat) : Prop where
  wall : b.isWall = true ↔ c % 2 = 1
  visited : b.isVisited = true ↔ c / 2 % 2 = 1
  path : b.isPath = true ↔ c / 4 % 2 = 1
  dist : b.distance = distOf c
  src : b.source = srcOf cfg (c / 131072)

/-- The numeric key of a frontier entry: priority first, then address. -/
def keyOf (cfg : Config) (e : Entry) : Nat :=
  e.1.toNat * (cfg.cols * cfg.rows) + addr cfg.rows e.2

/-- Insertion into a list of keys in increasing order. -/
def ins (k : Nat) : List Nat → List Nat
  | [] => [k]
  | h :: t => bif Nat.ble k h then k :: h :: t else h :: ins k t

/-- Manhattan distance between `(x, y)` and `(ex, ey)` on natural numbers. -/
def natManhattan (x y ex ey : Nat) : Nat := (x - ex) + (ex - x) + ((y - ey) + (ey - y))

/-- The state of the second implementation: the trie of cell codes, the frontier as a list of
keys in increasing order, the members `algorithmRunning` and `tracingPath`, and `pathBox` as
a number (0 for null, the address plus one otherwise). -/
structure Fast where
  tbl : Trie
  pq : List Nat
  running : Bool
  tracing : Bool
  pathBox : Nat

/-- One iteration of the relaxation loop, from the cell at the address `cur` whose distance
plus one is `G`, for the candidate `(n.2.1, n.2.2)`; `n.1` tells whether the candidate is
inside the grid. -/
def fastRelax (cfg : Config) (cur G : Nat) (f : Fast) (n : Bool × Nat × Nat) : Fast :=
  bif n.1 then
    bif Nat.beq (tget f.tbl (n.2.1 * cfg.rows + n.2.2) % 2) 0 &&
        (Nat.beq (tget f.tbl (n.2.1 * cfg.rows + n.2.2) / 8 % 16384) 0 ||
          Nat.blt (G + 1) (tget f.tbl (n.2.1 * cfg.rows + n.2.2) / 8 % 16384)) then
      { f with
        tbl := tset f.tbl (n.2.1 * cfg.rows + n.2.2)
          (tget f.tbl (n.2.1 * cfg.rows + n.2.2) % 8 + 8 * (G + 1 + 16384 * (cur + 1))),
        pq := ins ((G + natManhattan n.2.1 n.2.2 (ptrOf cfg.endCoord).1 (ptrOf cfg.endCoord).2)
          * (cfg.cols * cfg.rows) + (n.2.1 * cfg.rows + n.2.2)) f.pq }
    else f
  else f

/-- `Grid::Step` on the codes: the first key is the top of the heap, the popped cell is
decoded from it, and the four candidates are relaxed in the order of `GetNeighbors`. -/
def fastStep (cfg : Config) (f : Fast) : Fast :=
  match f.running, f.pq with
  | true, k :: rest =>
    bif Nat.beq (tget f.tbl (k % (cfg.cols * cfg.rows)) / 2 % 2) 1 then
      { tbl := f.tbl, pq := rest, running := true, tracing := f.tracing, pathBox := f.pathBox }
    else
      bif Nat.beq (k % (cfg.cols * cfg.rows)) (addr cfg.rows (ptrOf cfg.endCoord)) then
        { tbl := tset f.tbl (k % (cfg.cols * cfg.rows))
            (tget f.tbl (k % (cfg.cols * cfg.rows)) + 2),
          pq := rest, running := false, tracing := true,
          pathBox := tget f.tbl (k % (cfg.cols * cfg.rows)) / 131072 }
      else
        ([(Nat.ble 1 (k % (cfg.cols * cfg.rows) % cfg.rows),
            k % (cfg.cols * cfg.rows) / cfg.rows, k % (cfg.cols * cfg.rows) % cfg.rows - 1),
          (Nat.blt (k % (cfg.cols * cfg.rows) % cfg.rows + 1) cfg.rows,
            k % (cfg.cols * cfg.rows) / cfg.rows, k % (cfg.cols * cfg.rows) % cfg.rows + 1),
          (Nat.ble 1 (k % (cfg.cols * cfg.rows) / cfg.rows),
            k % (cfg.cols * cfg.rows) / cfg.rows - 1, k % (cfg.cols * cfg.rows) % cfg.rows),
          (Nat.blt (k % (cfg.cols * cfg.rows) / cfg.rows + 1) cfg.cols,
            k % (cfg.cols * cfg.rows) / cfg.rows + 1, k % (cfg.cols * cfg.rows) % cfg.rows)]
          : List (Bool × Nat × Nat)).foldl
          (fastRelax cfg (k % (cfg.cols * cfg.rows))
            (tget f.tbl (k % (cfg.cols * cfg.rows)) / 8 % 16384))
          { tbl := tset f.tbl (k % (cfg.cols * cfg.rows))
              (tget f.tbl (k % (cfg.cols * cfg.rows)) + 2),
            pq := rest, running := true, tracing := f.tracing, pathBox := f.pathBox }
  | _, _ =>
    bif f.tracing && !(Nat.beq f.pathBox 0) &&
        !(Nat.beq (f.pathBox - 1) (addr cfg.rows (ptrOf cfg.startCoord))) then
      { f with
        tbl := tset f.tbl (f.pathBox - 1)
          (bif Nat.beq (tget f.tbl (f.pathBox - 1) / 4 % 2) 1 then tget f.tbl (f.pathBox - 1)
            else tget f.tbl (f.pathBox - 1) + 4),
        pathBox := tget f.tbl (f.pathBox - 1) / 131072 }
    else { f with tracing := false }

/-- The constructor `Grid::Grid` on the codes: the walls get the code 1, then the start cell
gets the code 8 (distance 0). -/
def fastInit (cfg : Config) : Fast :=
  { tbl := tset
      (cfg.walls.foldl
        (fun (t : Trie) (wall : Coordinate) =>
          if wall.x ≥ 0 ∧ wall.x < (cfg.cols : Int) ∧ wall.y ≥ 0 ∧ wall.y < (cfg.rows : Int) then
            tset t (addr cfg.rows (ptrOf wall)) 1
          else t)
        Trie.empty)
      (addr cfg.rows (ptrOf cfg.startCoord)) 8,
    pq := [addr cfg.rows (ptrOf cfg.startCoord)], running := true, tracing := false,
    pathBox := 0 }

/-- `n` calls of `fastStep`. -/
def fastStepN (cfg : Config) : Nat → Fast → Fast
  | 0, f => f
  | n + 1, f => fastStep cfg (fastStepN cfg n f)

/-- The state of the second implementation after construction and `n` calls. -/
def fastRun (cfg : Config) (n : Nat) : Fast := fastStepN cfg n (fastInit cfg)

/-- The state `f` of the second implementation stands for the state `g` of `Grid`: the codes
of the cells inside the grid, the keys of the frontier entries in increasing order, the same
flags and `pathBox`. -/
structure Sim (cfg : Config) (f : Fast) (g : Grid) : Prop where
  cells : ∀ p, InB cfg p → Cell cfg (g.boxes p) (tget f.tbl (addr cfg.rows p))
  pq : List.Perm f.pq (g.pq.map (keyOf cfg))
  sorted : f.pq.Pairwise (· ≤ ·)
  nonneg : ∀ e ∈ g.pq, 0 ≤ e.1
  inb : ∀ e ∈ g.pq, InB cfg e.2
  running : f.running = g.algorithmRunning
  tracing : f.tracing = g.tracingPath
  pathBox : g.pathBox = srcOf cfg f.pathBox

/-- The cells that the built-in run marks, in the order in which the predecessor chain of the
end cell passes them: row 50 from column 29 down to column 11, then column 10 from row 50 up
to row 11. -/
def builtInPath : List BoxPtr :=
  (List.range 19).map (fun i => (29 - i, 50)) ++ (List.range 40).map (fun i => (10, 50 - i))

/-- Following the `source` codes from the cell `p` passes through the cells of the list in
turn and stops there, on a cell whose `source` code is 0. -/
def chainOk (cfg : Config) (t : Trie) : BoxPtr → List BoxPtr → Bool
  | p, [] => Nat.beq (tget t (addr cfg.rows p) / 131072) 0
  | p, s :: rest =>
    Nat.beq (tget t (addr cfg.rows p) / 131072) (addr cfg.rows s + 1) && chainOk cfg t s rest

/-- The facts of the built-in run, read off the second implementation: the end cell after 540
and after 541 calls, the flags after 600 and after 601 calls, and the predecessor chain of the
end cell after 601 calls. -/
def builtInCheck : Bool :=
  Nat.beq (tget (fastRun programConfig 540).tbl (addr programConfig.rows (30, 50)) / 2 % 2) 0 &&
  Nat.beq (tget (fastRun programConfig 541).tbl (addr programConfig.rows (30, 50)) / 2 % 2) 1 &&
  Nat.beq (tget (fastRun programConfig 541).tbl (addr programConfig.rows (30, 50)) / 8 % 16384)
    61 &&
  (fastRun programConfig 600).tracing &&
  !(fastRun programConfig 601).tracing &&
  !(fastRun programConfig 601).running &&
  chainOk programConfig (fastRun programConfig 601).tbl (30, 50) (builtInPath ++ [(10, 10)])

/-- A one-column grid of three cells without walls. -/
def tiny : Config := ⟨1, 3, ⟨0, 0⟩, ⟨0, 2⟩, []⟩

/-! ## The terminal phase -/

theorem Step_of_Idle (g : Grid) (h : Idle g) : Step g = some g := by
  obtain ⟨c, r, b, sc, ec, q, ar, tp, pb, w⟩ := g
  obtain ⟨ht, hs⟩ := h
  simp only at ht hs
  subst ht
  have h1 : ¬ (ar = true ∧ q ≠ []) := by
    rintro ⟨ha, hq⟩
    rcases hs with hs | hs
    · rw [hs] at ha; exact Bool.noConfusion ha
    · exact hq hs
  unfold Step
  simp only [if_neg h1]
  cases pb <;> simp

/-- C6: in the Idle phase (`tracingPath = false` and either `algorithmRunning = false` or an
empty frontier) `Step` returns the state it was given, cells, frontier, flags and `pathBox`
included; hence any number of `Step` calls in Idle returns that same state. -/
theorem idle_is_terminal (g : Grid) (h : Idle g) :
    Step g = some g ∧ ∀ n : Nat, StepN n g = some g := by
  have h1 := Step_of_Idle g h
  refine ⟨h1, fun n => ?_⟩
  induction n with
  | zero => rfl
  | succ k ih => simp only [StepN, h1, ih]

/-- An Idle state exists (five calls on a one-column grid) and `Step` fixes it. -/
theorem idle_is_terminal_witness :
    ∃ g, run tiny 5 = some g ∧ Idle g ∧ (Step g = some g ∧ ∀ n : Nat, StepN n g = some g) := by
  have h : (run tiny 5).map (fun g => decide (Idle g)) = some true := by decide
  cases hg : run tiny 5 with
  | none => rw [hg] at h; exact absurd h (by simp)
  | some g =>
    rw [hg] at h
    have hi : Idle g := by simpa using h
    exact ⟨g, rfl, hi, idle_is_terminal g hi⟩

/-! ## The frontier -/

theorem pqTop_eq_none {rows : Nat} {q : List Entry} (h : pqTop rows q = none) : q = [] := by
  cases q with
  | nil => rfl
  | cons e es =>
    unfold pqTop at h
    split at h
    · exact Option.noConfusion h
    · split at h <;> exact Option.noConfusion h

theorem pqTop_mem {rows : Nat} : ∀ {q : List Entry} {top : Entry},
    pqTop rows q = some top → top ∈ q
  | [], top, h => by simp [pqTop] at h
  | e :: es, top, h => by
    unfold pqTop at h
    split at h
    · cases h; exact List.mem_cons_self _ _
    · rename_i m hm
      split at h
      · cases h; exact List.mem_cons_of_mem _ (pqTop_mem hm)
      · cases h; exact List.mem_cons_self _ _

theorem entryLt_le {rows : Nat} {a b : Entry} (h : entryLt rows a b = true) : a.1 ≤ b.1 := by
  unfold entryLt at h
  simp only [Bool.or_eq_true, Bool.and_eq_true, decide_eq_true_eq] at h
  omega

theorem le_of_not_entryLt {rows : Nat} {a b : Entry} (h : ¬ entryLt rows a b = true) :
    b.1 ≤ a.1 := by
  unfold entryLt at h
  simp only [Bool.or_eq_true, Bool.and_eq_true, decide_eq_true_eq, not_or] at h
  omega

theorem pqTop_le {rows : Nat} : ∀ {q : List Entry} {top : Entry},
    pqTop rows q = some top → ∀ e ∈ q, top.1 ≤ e.1
  | [], top, h => by simp [pqTop] at h
  | e :: es, top, h => by
    intro x hx
    unfold pqTop at h
    split at h
    · rename_i hn
      cases h
      have := pqTop_eq_none hn
      subst this
      simp only [List.mem_singleton] at hx
      subst hx
      exact le_refl _
    · rename_i m hm
      have ih := pqTop_le hm
      rcases List.mem_cons.mp hx with hx | hx
      · subst hx
        split at h
        · rename_i hlt; cases h; exact entryLt_le hlt
        · cases h; exact le_refl _
      · split at h
        · cases h; exact ih x hx
        · rename_i hlt; cases h
          exact le_trans (le_of_not_entryLt hlt) (ih x hx)

theorem pqTop_of_ne_nil (rows : Nat) {q : List Entry} (h : q ≠ []) :
    ∃ top, pqTop rows q = some top := by
  cases hq : pqTop rows q with
  | none => exact absurd (pqTop_eq_none hq) h
  | some top => exact ⟨top, rfl⟩

theorem pqPop_eq {rows : Nat} {q : List Entry} {top : Entry} (h : pqTop rows q = some top) :
    pqPop rows q = q.erase top := by
  unfold pqPop; rw [h]

/-! ## `GetBox` -/

theorem getBoxAt_eq_some {cols rows : Nat} {x y : Int} {p : BoxPtr}
    (h : getBoxAt cols rows x y = some p) :
    0 ≤ x ∧ x < cols ∧ 0 ≤ y ∧ y < rows ∧ p = (x.toNat, y.toNat) := by
  unfold getBoxAt at h
  split at h
  · exact Option.noConfusion h
  · rename_i hn
    cases h
    simp only [ge_iff_le, not_or, not_lt, not_le] at hn
    exact ⟨hn.1, hn.2.1, hn.2.2.1, hn.2.2.2, rfl⟩

theorem getBoxAt_of_in {cols rows : Nat} {x y : Int}
    (h : 0 ≤ x ∧ x < cols ∧ 0 ≤ y ∧ y < rows) :
    getBoxAt cols rows x y = some (x.toNat, y.toNat) := by
  unfold getBoxAt
  rw [if_neg]
  simp only [ge_iff_le, not_or, not_lt, not_le]
  exact h

theorem getBoxAt_coord {cols rows : Nat} {c : Coordinate} (h : CoordIn cols rows c) :
    getBoxAt cols rows c.x c.y = some (ptrOf c) := getBoxAt_of_in h

theorem getBoxAt_ptr {cols rows : Nat} {p : BoxPtr} (h : p.1 < cols ∧ p.2 < rows) :
    getBoxAt cols rows (p.1 : Nat) (p.2 : Nat) = some p := by
  rw [getBoxAt_of_in (by omega)]
  simp

theorem ptrOf_inB {cfg : Config} {c : Coordinate} (h : CoordIn cfg.cols cfg.rows c) :
    InB cfg (ptrOf c) := by
  unfold CoordIn at h
  unfold InB ptrOf
  simp only
  omega

theorem ptrOf_injective {cols rows : Nat} {c d : Coordinate} (hc : CoordIn cols rows c)
    (hd : CoordIn cols rows d) (h : ptrOf c = ptrOf d) : c = d := by
  unfold CoordIn at hc hd
  unfold ptrOf at h
  obtain ⟨cx, cy⟩ := c
  obtain ⟨dx, dy⟩ := d
  simp only [Prod.mk.injEq] at h
  simp only at hc hd
  simp only [Coordinate.mk.injEq]
  omega

theorem wallAt_ptrOf {cfg : Config} {c : Coordinate} (hc : CoordIn cfg.cols cfg.rows c) :
    WallAt cfg (ptrOf c) ↔ c ∈ cfg.walls := by
  unfold CoordIn at hc
  unfold WallAt ptrOf
  obtain ⟨cx, cy⟩ := c
  simp only at hc
  have h1 : ((cx.toNat : Nat) : Int) = cx := by omega
  have h2 : ((cy.toNat : Nat) : Int) = cy := by omega
  simp only [h1, h2]

theorem markWalls_apply (cols rows : Nat) : ∀ (ws : List Coordinate) (bs : BoxPtr → Box)
    (p : BoxPtr), markWalls cols rows ws bs p =
      if ∃ w ∈ ws, CoordIn cols rows w ∧ ptrOf w = p then { bs p with isWall := true } else bs p
  | [], bs, p => by simp [markWalls]
  | w :: ws, bs, p => by
    have ih := markWalls_apply cols rows ws
    unfold markWalls at ih ⊢
    rw [List.foldl_cons, ih]
    by_cases hw : w.x ≥ 0 ∧ w.x < (cols : Int) ∧ w.y ≥ 0 ∧ w.y < (rows : Int)
    · have hc : CoordIn cols rows w := hw
      rw [if_pos hw]
      by_cases hp : ptrOf w = p
      · have h1 : ∃ w' ∈ w :: ws, CoordIn cols rows w' ∧ ptrOf w' = p :=
          ⟨w, List.mem_cons_self _ _, hc, hp⟩
        rw [if_pos h1]
        have hp' : p = (w.x.toNat, w.y.toNat) := hp.symm
        subst hp'
        simp only [Function.update_same]
        split <;> rfl
      · have hp' : p ≠ (w.x.toNat, w.y.toNat) := fun h => hp h.symm
        simp only [Function.update_noteq hp']
        have h2 : (∃ w' ∈ w :: ws, CoordIn cols rows w' ∧ ptrOf w' = p) ↔
            ∃ w' ∈ ws, CoordIn cols rows w' ∧ ptrOf w' = p := by
          constructor
          · rintro ⟨w', hm, hc', hq⟩
            rcases List.mem_cons.mp hm with h | h
            · subst h; exact absurd hq hp
            · exact ⟨w', h, hc', hq⟩
          · rintro ⟨w', hm, hc', hq⟩
            exact ⟨w', List.mem_cons_of_mem _ hm, hc', hq⟩
        simp only [h2]
    · rw [if_neg hw]
      have h2 : (∃ w' ∈ w :: ws, CoordIn cols rows w' ∧ ptrOf w' = p) ↔
          ∃ w' ∈ ws, CoordIn cols rows w' ∧ ptrOf w' = p := by
        constructor
        · rintro ⟨w', hm, hc', hq⟩
          rcases List.mem_cons.mp hm with h | h
          · subst h; exact absurd hc' hw
          · exact ⟨w', h, hc', hq⟩
        · rintro ⟨w', hm, hc', hq⟩
          exact ⟨w', List.mem_cons_of_mem _ hm, hc', hq⟩
      simp only [h2]

theorem wall_exists_iff {cfg : Config} {p : BoxPtr} (hp : InB cfg p) :
    (∃ w ∈ cfg.walls, CoordIn cfg.cols cfg.rows w ∧ ptrOf w = p) ↔ WallAt cfg p := by
  have hcp : CoordIn cfg.cols cfg.rows ⟨(p.1 : Nat), (p.2 : Nat)⟩ := by
    unfold InB at hp; unfold CoordIn; simp only; omega
  have hpp : ptrOf ⟨(p.1 : Nat), (p.2 : Nat)⟩ = p := by simp [ptrOf]
  constructor
  · rintro ⟨w, hm, hc, hq⟩
    have : w = ⟨(p.1 : Nat), (p.2 : Nat)⟩ := ptrOf_injective hc hcp (hq.trans hpp.symm)
    unfold WallAt
    rw [← this]; exact hm
  · intro h
    exact ⟨_, h, hcp, hpp⟩


theorem Grid.new_eq {cfg : Config} (hs : CoordIn cfg.cols cfg.rows cfg.startCoord)
    (he : CoordIn cfg.cols cfg.rows cfg.endCoord) : Grid.new cfg = some (initGrid cfg) := by
  unfold Grid.new
  simp only [getBoxAt_coord hs, getBoxAt_coord he]
  unfold initGrid pqEmplace
  simp only [Option.some.injEq, Grid.mk.injEq, true_and, and_true]
  funext p
  simp only [Function.update_apply, markWalls_apply]
  by_cases hse : ptrOf cfg.startCoord = ptrOf cfg.endCoord
  · by_cases h1 : p = ptrOf cfg.endCoord
    · subst h1
      by_cases h3 : (∃ w ∈ cfg.walls, CoordIn cfg.cols cfg.rows w ∧ ptrOf w = ptrOf cfg.endCoord) <;>
        by_cases h4 : (ptrOf cfg.endCoord).1 < cfg.cols ∧ (ptrOf cfg.endCoord).2 < cfg.rows <;>
        simp [hse, h3, h4, Box.new]
    · by_cases h3 : (∃ w ∈ cfg.walls, CoordIn cfg.cols cfg.rows w ∧ ptrOf w = p) <;>
        by_cases h4 : p.1 < cfg.cols ∧ p.2 < cfg.rows <;>
        simp [hse, h1, h3, h4, Box.new]
  · have hes : ¬ ptrOf cfg.endCoord = ptrOf cfg.startCoord := fun h => hse h.symm
    by_cases h1 : p = ptrOf cfg.startCoord
    · subst h1
      by_cases h3 : (∃ w ∈ cfg.walls, CoordIn cfg.cols cfg.rows w ∧ ptrOf w = ptrOf cfg.startCoord) <;>
        by_cases h4 : (ptrOf cfg.startCoord).1 < cfg.cols ∧ (ptrOf cfg.startCoord).2 < cfg.rows <;>
        simp [hse, hes, h3, h4, Box.new]
    · by_cases h2 : p = ptrOf cfg.endCoord
      · subst h2
        by_cases h3 : (∃ w ∈ cfg.walls, CoordIn cfg.cols cfg.rows w ∧ ptrOf w = ptrOf cfg.endCoord) <;>
          by_cases h4 : (ptrOf cfg.endCoord).1 < cfg.cols ∧ (ptrOf cfg.endCoord).2 < cfg.rows <;>
          simp [hse, hes, h3, h4, Box.new]
      · by_cases h3 : (∃ w ∈ cfg.walls, CoordIn cfg.cols cfg.rows w ∧ ptrOf w = p) <;>
          by_cases h4 : p.1 < cfg.cols ∧ p.2 < cfg.rows <;>
          simp [h1, h2, h3, h4, Box.new]

/-! ## Arithmetic of the heuristic and paths -/

theorem manhattan_nonneg (p e : BoxPtr) : 0 ≤ manhattan p e := by
  unfold manhattan c_abs
  split <;> split <;> omega

theorem manhattan_self (e : BoxPtr) : manhattan e e = 0 := by
  unfold manhattan c_abs
  simp

theorem manhattan_adj {a b : BoxPtr} (e : BoxPtr) (h : Adj a b) :
    manhattan a e ≤ manhattan b e + 1 := by
  unfold Adj at h
  unfold manhattan c_abs
  split <;> split <;> split <;> split <;> omega

theorem manhattan_le (cfg : Config) {p e : BoxPtr} (hp : InB cfg p) (he : InB cfg e) :
    manhattan p e + 2 ≤ (cfg.cols : Int) + cfg.rows := by
  unfold InB at hp he
  unfold manhattan c_abs
  split <;> split <;> omega

theorem Adj.symm {a b : BoxPtr} (h : Adj a b) : Adj b a := by
  unfold Adj at h ⊢
  omega

theorem Adj.ne {a b : BoxPtr} (h : Adj a b) : a ≠ b := by
  intro hab
  subst hab
  unfold Adj at h
  omega

theorem Walk.start_ok {cfg : Config} : ∀ {a : BoxPtr} {l : List BoxPtr} {b : BoxPtr},
    Walk cfg a l b → Walkable cfg a
  | _, [], _, h => h.2
  | _, _ :: _, _, h => h.1

theorem Walk.end_ok {cfg : Config} : ∀ {a : BoxPtr} {l : List BoxPtr} {b : BoxPtr},
    Walk cfg a l b → Walkable cfg b
  | _, [], _, h => h.1 ▸ h.2
  | _, _ :: _, _, h => Walk.end_ok h.2.2

theorem Walk.snoc {cfg : Config} : ∀ {a : BoxPtr} {l : List BoxPtr} {b n : BoxPtr},
    Walk cfg a l b → Adj b n → Walkable cfg n → Walk cfg a (l ++ [n]) n
  | a, [], b, n, h, hadj, hn => by
    obtain ⟨hab, ha⟩ := h
    subst hab
    exact ⟨ha, hadj, rfl, hn⟩
  | a, c :: rest, b, n, h, hadj, hn => by
    obtain ⟨ha, hac, hrest⟩ := h
    exact ⟨ha, hac, Walk.snoc hrest hadj hn⟩

theorem Walk.heuristic_le {cfg : Config} (e : BoxPtr) : ∀ {a : BoxPtr} {l : List BoxPtr}
    {b : BoxPtr}, Walk cfg a l b → manhattan a e ≤ (l.length : Int) + manhattan b e
  | a, [], b, h => by
    obtain ⟨hab, _⟩ := h
    subst hab
    simp
  | a, c :: rest, b, h => by
    obtain ⟨_, hac, hrest⟩ := h
    have h1 := manhattan_adj e hac
    have h2 := Walk.heuristic_le e hrest
    simp only [List.length_cons, Nat.cast_add, Nat.cast_one]
    omega

/-! ## The constructed state -/

theorem Inv_init {cfg : Config} (hs : CoordIn cfg.cols cfg.rows cfg.startCoord)
    (he : CoordIn cfg.cols cfg.rows cfg.endCoord) (hw : cfg.startCoord ∉ cfg.walls)
    (hsm : Small cfg) : Inv cfg (initGrid cfg) where
  coord_start := hs
  coord_end := he
  start_ok := ⟨ptrOf_inB hs, fun h => hw ((wallAt_ptrOf hs).mp h)⟩
  small := hsm
  cols_eq := rfl
  rows_eq := rfl
  start_eq := rfl
  end_eq := rfl
  walls_eq := rfl
  grid_xy := by
    intro p hp
    have hp' : p.1 < cfg.cols ∧ p.2 < cfg.rows := hp
    simp [initGrid, hp']
  wall_iff := by
    intro p hp
    simp only [initGrid, decide_eq_true_eq]
    exact wall_exists_iff hp
  start_iff := by intro p _; simp [initGrid]
  end_iff := by intro p _; simp [initGrid]
  start_dist := by simp [initGrid]
  start_source := rfl
  nonneg := by
    intro p
    simp only [initGrid]
    split
    · exact le_refl _
    · unfold INT_MAX; omega
  undiscovered := by
    intro p hp
    have : p ≠ ptrOf cfg.startCoord := fun h => hp (Or.inl h)
    simp [initGrid, this]
  src := by intro p s h; simp [initGrid] at h
  visited_ok := by intro p h; simp [initGrid] at h
  relaxed := by intro u h; simp [initGrid] at h
  optimal := by intro p h; simp [initGrid] at h
  pq_ok := by
    intro e he
    simp only [initGrid, List.mem_singleton] at he
    subst he
    exact ⟨⟨ptrOf_inB hs, fun h => hw ((wallAt_ptrOf hs).mp h)⟩, Or.inl rfl, Or.inl rfl⟩
  fresh := by
    intro _ p _ _ hd
    rcases hd with hd | hd
    · subst hd
      refine ⟨0, by simp [initGrid], ?_⟩
      have := manhattan_nonneg (ptrOf cfg.startCoord) (ptrOf cfg.endCoord)
      simp only [initGrid, if_true]
      omega
    · simp [initGrid] at hd
  end_unvisited := by intro _; rfl

theorem TraceInv_init (cfg : Config) (hne : ptrOf cfg.startCoord ≠ ptrOf cfg.endCoord) :
    TraceInv cfg (initGrid cfg) where
  ne := hne
  searching := by intro _; exact ⟨rfl, rfl, fun _ => rfl⟩
  found := by intro h; simp [initGrid] at h

/-! ## Consequences of the invariant: predecessor chains and cost bounds -/

theorem Inv.discovered_of_visited {cfg : Config} {g : Grid} (hI : Inv cfg g) {p : BoxPtr}
    (hv : (g.boxes p).isVisited = true) : Discovered cfg g p := by
  by_contra h
  have := (hI.undiscovered p h).2
  rw [hv] at this
  exact Bool.noConfusion this

theorem Inv.walkable_of_discovered {cfg : Config} {g : Grid} (hI : Inv cfg g) {p : BoxPtr}
    (hd : Discovered cfg g p) : Walkable cfg p := by
  rcases hd with hd | hd
  · rw [hd]; exact hI.start_ok
  · cases hs : (g.boxes p).source with
    | none => exact absurd hs hd
    | some s => exact (hI.src p s hs).1

theorem Inv.source_ne_start {cfg : Config} {g : Grid} (hI : Inv cfg g) {p s : BoxPtr}
    (hs : (g.boxes p).source = some s) : p ≠ ptrOf cfg.startCoord := by
  intro h
  rw [h, hI.start_source] at hs
  exact Option.noConfusion hs

theorem Inv.walk_exists {cfg : Config} {g : Grid} (hI : Inv cfg g) :
    ∀ (k : Nat) (p : BoxPtr), Discovered cfg g p → (g.boxes p).distance = (k : Int) →
      ∃ l, Walk cfg (ptrOf cfg.startCoord) l p ∧ l.length = k
  | k, p, hd, hk => by
    cases hs : (g.boxes p).source with
    | none =>
      have hp : p = ptrOf cfg.startCoord := by
        rcases hd with hd | hd
        · exact hd
        · exact absurd hs hd
      subst hp
      have h0 := hI.start_dist
      refine ⟨[], ⟨rfl, hI.start_ok⟩, ?_⟩
      simp only [List.length_nil]
      omega
    | some s =>
      obtain ⟨hwp, _, hvs, _, hadj, hdist⟩ := hI.src p s hs
      have hn := hI.nonneg s
      cases k with
      | zero => simp only [Nat.cast_zero] at hk; omega
      | succ k =>
        have hk' : (g.boxes s).distance = (k : Int) := by
          simp only [Nat.cast_add, Nat.cast_one] at hk; omega
        obtain ⟨l, hl, hlen⟩ := Inv.walk_exists hI k s (hI.discovered_of_visited hvs) hk'
        exact ⟨l ++ [p], Walk.snoc hl hadj hwp, by simp [hlen]⟩

theorem Inv.chain_exists {cfg : Config} {g : Grid} (hI : Inv cfg g) :
    ∀ (k : Nat) (p : BoxPtr), Discovered cfg g p → (g.boxes p).distance = (k : Int) →
      ∃ l, SourceChain g p l ∧ l.length = k ∧
        (∀ q ∈ l, (g.boxes q).distance < (g.boxes p).distance ∧ Walkable cfg q ∧
          (g.boxes q).isVisited = true) ∧
        (p :: l).getLast? = some (ptrOf cfg.startCoord) ∧ List.Chain' Adj (p :: l) ∧
        (p :: l).Nodup
  | k, p, hd, hk => by
    cases hs : (g.boxes p).source with
    | none =>
      have hp : p = ptrOf cfg.startCoord := by
        rcases hd with hd | hd
        · exact hd
        · exact absurd hs hd
      subst hp
      have h0 := hI.start_dist
      refine ⟨[], hs, ?_, ?_, rfl, List.chain'_singleton _, List.nodup_singleton _⟩
      · simp only [List.length_nil]; omega
      · intro q hq; simp at hq
    | some s =>
      obtain ⟨_, hws, hvs, _, hadj, hdist⟩ := hI.src p s hs
      have hn := hI.nonneg s
      cases k with
      | zero => simp only [Nat.cast_zero] at hk; omega
      | succ k =>
        have hk' : (g.boxes s).distance = (k : Int) := by
          simp only [Nat.cast_add, Nat.cast_one] at hk; omega
        obtain ⟨l, hl, hlen, hall, hlast, hch, hnd⟩ :=
          Inv.chain_exists hI k s (hI.discovered_of_visited hvs) hk'
        have hall' : ∀ q ∈ s :: l, (g.boxes q).distance < (g.boxes p).distance ∧
            Walkable cfg q ∧ (g.boxes q).isVisited = true := by
          intro q hq
          rcases List.mem_cons.mp hq with h | h
          · subst h; exact ⟨by omega, hws, hvs⟩
          · obtain ⟨h1, h2, h3⟩ := hall q h
            exact ⟨by omega, h2, h3⟩
        refine ⟨s :: l, ⟨hs, hl⟩, by simp [hlen], hall', ?_, ?_, ?_⟩
        · rw [List.getLast?_cons_cons]; exact hlast
        · exact List.Chain'.cons hadj.symm hch
        · refine List.nodup_cons.mpr ⟨?_, hnd⟩
          intro hp
          have := (hall' p hp).1
          omega

theorem length_le_cells (cfg : Config) (l : List BoxPtr) (hnd : l.Nodup)
    (hin : ∀ q ∈ l, InB cfg q) : l.length ≤ cfg.cols * cfg.rows := by
  have hsub : l.toFinset ⊆ Finset.range cfg.cols ×ˢ Finset.range cfg.rows := by
    intro q hq
    have := hin q (List.mem_toFinset.mp hq)
    simp only [Finset.mem_product, Finset.mem_range]
    exact this
  have h1 := Finset.card_le_card hsub
  rw [List.toFinset_card_of_nodup hnd, Finset.card_product, Finset.card_range,
    Finset.card_range] at h1
  exact h1

theorem Inv.dist_bound {cfg : Config} {g : Grid} (hI : Inv cfg g) {p : BoxPtr}
    (hd : Discovered cfg g p) : (g.boxes p).distance + 1 ≤ (cfg.cols : Int) * cfg.rows := by
  have hn := hI.nonneg p
  obtain ⟨k, hk⟩ := Int.eq_ofNat_of_zero_le hn
  obtain ⟨l, _, hlen, hall, _, _, hnd⟩ := hI.chain_exists k p hd hk
  have hin : ∀ q ∈ p :: l, InB cfg q := by
    intro q hq
    rcases List.mem_cons.mp hq with h | h
    · subst h; exact (hI.walkable_of_discovered hd).1
    · exact (hall q h).2.1.1
  have := length_le_cells cfg (p :: l) hnd hin
  simp only [List.length_cons, hlen] at this
  rw [hk]
  exact_mod_cast this

/-! ## The relaxation loop -/

theorem Inv.geom {cfg : Config} {g : Grid} (hI : Inv cfg g) : Geom cfg g :=
  ⟨hI.coord_end, hI.cols_eq, hI.rows_eq, hI.end_eq, hI.grid_xy, hI.wall_iff⟩

theorem Geom.getBox_end {cfg : Config} {g : Grid} (hG : Geom cfg g) :
    GetBox g g.endCoord.x g.endCoord.y = some (ptrOf cfg.endCoord) := by
  unfold GetBox
  rw [hG.cols_eq, hG.rows_eq, hG.end_eq]
  exact getBoxAt_coord hG.coord_end

theorem Geom.heuristic {cfg : Config} {g : Grid} (hG : Geom cfg g) {n : BoxPtr}
    (hn : InB cfg n) :
    CalculateHeuristic g n = some (manhattan n (ptrOf cfg.endCoord)) := by
  unfold CalculateHeuristic
  rw [hG.getBox_end]
  have h1 := hG.grid_xy n hn
  have h2 := hG.grid_xy _ (ptrOf_inB hG.coord_end)
  simp only [h1.1, h1.2, h2.1, h2.2]
  rfl

theorem addInt_eq {a b : Int} (h1 : INT_MIN ≤ a + b) (h2 : a + b ≤ INT_MAX) :
    addInt a b = some (a + b) := by
  unfold addInt
  rw [if_pos ⟨h1, h2⟩]

theorem relax_eq {cfg : Config} {g : Grid} (hG : Geom cfg g) {cur n : BoxPtr}
    (hn : InB cfg n) (h0 : 0 ≤ (g.boxes cur).distance)
    (hb : (g.boxes cur).distance + 1 + cfg.cols + cfg.rows ≤ INT_MAX) :
    relax cur g n =
      if (g.boxes cur).distance + 1 < (g.boxes n).distance then
        some (setCost g n ((g.boxes cur).distance + 1) cur
          ((g.boxes cur).distance + 1 + manhattan n (ptrOf cfg.endCoord)))
      else some g := by
  have hm := manhattan_nonneg n (ptrOf cfg.endCoord)
  have hm2 := manhattan_le cfg hn (ptrOf_inB hG.coord_end)
  unfold relax
  rw [addInt_eq (by unfold INT_MIN; omega) (by omega), hG.heuristic hn]
  simp only
  rw [addInt_eq (by unfold INT_MIN; omega) (by omega)]
  rfl

theorem setCost_boxes (g : Grid) (n : BoxPtr) (c : Int) (cur : BoxPtr) (f : Int) (p : BoxPtr) :
    (setCost g n c cur f).boxes p =
      if p = n then { g.boxes n with distance := c, source := some cur } else g.boxes p := by
  unfold setCost
  simp only [Function.update_apply]

theorem setCost_pq (g : Grid) (n : BoxPtr) (c : Int) (cur : BoxPtr) (f : Int) :
    (setCost g n c cur f).pq = (f, n) :: g.pq := rfl

theorem setCost_frame (g : Grid) (n : BoxPtr) (c : Int) (cur : BoxPtr) (f : Int) :
    SameFrame g (setCost g n c cur f) := ⟨rfl, rfl, rfl, rfl, rfl, rfl, rfl, rfl⟩

theorem sameFrame_refl (g : Grid) : SameFrame g g := ⟨rfl, rfl, rfl, rfl, rfl, rfl, rfl, rfl⟩

theorem SameFrame.trans {a b c : Grid} (h1 : SameFrame a b) (h2 : SameFrame b c) :
    SameFrame a c := by
  obtain ⟨a1, a2, a3, a4, a5, a6, a7, a8⟩ := h1
  obtain ⟨b1, b2, b3, b4, b5, b6, b7, b8⟩ := h2
  exact ⟨b1.trans a1, b2.trans a2, b3.trans a3, b4.trans a4, b5.trans a5, b6.trans a6,
    b7.trans a7, b8.trans a8⟩

theorem setCost_geom {cfg : Config} {g : Grid} (hG : Geom cfg g) (n : BoxPtr) (c : Int)
    (cur : BoxPtr) (f : Int) : Geom cfg (setCost g n c cur f) := by
  refine ⟨hG.coord_end, hG.cols_eq, hG.rows_eq, hG.end_eq, ?_, ?_⟩
  · intro p hp
    rw [setCost_boxes]
    split
    · rename_i h; subst h; exact hG.grid_xy _ hp
    · exact hG.grid_xy p hp
  · intro p hp
    rw [setCost_boxes]
    split
    · rename_i h; subst h; exact hG.wall_iff _ hp
    · exact hG.wall_iff p hp

theorem relaxAll_spec {cfg : Config} (cur : BoxPtr) : ∀ (l : List BoxPtr) (g : Grid),
    Geom cfg g → cur ∉ l → (∀ n ∈ l, InB cfg n) → 0 ≤ (g.boxes cur).distance →
    (g.boxes cur).distance + 1 + cfg.cols + cfg.rows ≤ INT_MAX →
    ∃ g', relaxAll cur l g = some g' ∧ SameFrame g g' ∧
      (∀ p, g'.boxes p = relaxedBox g cur l p) ∧
      (∀ e, e ∈ g'.pq ↔ e ∈ g.pq ∨ ∃ n ∈ l,
        (g.boxes cur).distance + 1 < (g.boxes n).distance ∧
        e = ((g.boxes cur).distance + 1 + manhattan n (ptrOf cfg.endCoord), n)) ∧
      g'.pq.length ≤ g.pq.length + l.length
  | [], g, _, _, _, _, _ => by
    refine ⟨g, rfl, sameFrame_refl g, ?_, ?_, ?_⟩
    · intro p; simp [relaxedBox]
    · intro e; simp
    · simp
  | n :: rest, g, hG, hcur, hin, h0, hb => by
    have hn : InB cfg n := hin n (List.mem_cons_self _ _)
    have hne : cur ≠ n := fun h => hcur (h ▸ List.mem_cons_self _ _)
    have hcur' : cur ∉ rest := fun h => hcur (List.mem_cons_of_mem _ h)
    have hin' : ∀ m ∈ rest, InB cfg m := fun m hm => hin m (List.mem_cons_of_mem _ hm)
    unfold relaxAll
    rw [relax_eq hG hn h0 hb]
    by_cases hlt : (g.boxes cur).distance + 1 < (g.boxes n).distance
    · rw [if_pos hlt]
      simp only
      have hd1 : ((setCost g n ((g.boxes cur).distance + 1) cur
          ((g.boxes cur).distance + 1 + manhattan n (ptrOf cfg.endCoord))).boxes cur).distance
            = (g.boxes cur).distance := by
        rw [setCost_boxes, if_neg hne]
      obtain ⟨g', hrun, hfr, hbx, hpq, hlen⟩ := relaxAll_spec cur rest _
        (setCost_geom hG n _ cur _) hcur' hin' (by rw [hd1]; exact h0) (by rw [hd1]; exact hb)
      rw [hd1] at hpq
      refine ⟨g', hrun, (setCost_frame g n _ cur _).trans hfr, ?_, ?_, ?_⟩
      · intro p
        rw [hbx p]
        unfold relaxedBox
        rw [hd1]
        simp only [setCost_boxes, List.mem_cons]
        by_cases hpn : p = n
        · subst hpn
          simp [hlt]
        · simp [hpn]
      · intro e
        rw [hpq e]
        simp only [setCost_boxes, setCost_pq, List.mem_cons]
        constructor
        · rintro (h | ⟨m, hm, hlt', he⟩)
          · rcases h with h | h
            · exact Or.inr ⟨n, Or.inl rfl, hlt, h⟩
            · exact Or.inl h
          · by_cases hmn : m = n
            · subst hmn; simp at hlt'
            · simp only [hmn, if_false] at hlt'
              exact Or.inr ⟨m, Or.inr hm, hlt', he⟩
        · rintro (h | ⟨m, hm, hlt', he⟩)
          · exact Or.inl (Or.inr h)
          · by_cases hmn : m = n
            · subst hmn; exact Or.inl (Or.inl he)
            · rcases hm with hm | hm
              · exact absurd hm hmn
              · refine Or.inr ⟨m, hm, ?_, he⟩
                simp only [hmn, if_false]; exact hlt'
      · rw [setCost_pq] at hlen
        simp only [List.length_cons] at hlen ⊢
        omega
    · rw [if_neg hlt]
      simp only
      obtain ⟨g', hrun, hfr, hbx, hpq, hlen⟩ := relaxAll_spec cur rest g hG hcur' hin' h0 hb
      refine ⟨g', hrun, hfr, ?_, ?_, ?_⟩
      · intro p
        rw [hbx p]
        unfold relaxedBox
        simp only [List.mem_cons]
        by_cases hpn : p = n
        · subst hpn
          simp [hlt]
        · simp [hpn]
      · intro e
        rw [hpq e]
        simp only [List.mem_cons]
        constructor
        · rintro (h | ⟨m, hm, hlt', he⟩)
          · exact Or.inl h
          · exact Or.inr ⟨m, Or.inr hm, hlt', he⟩
        · rintro (h | ⟨m, hm, hlt', he⟩)
          · exact Or.inl h
          · rcases hm with hm | hm
            · subst hm; exact absurd hlt' hlt
            · exact Or.inr ⟨m, hm, hlt', he⟩
      · simp only [List.length_cons]
        omega

/-! ## `GetNeighbors` -/

theorem GetNeighbors_length (g : Grid) (cur : BoxPtr) : (GetNeighbors g cur).length ≤ 4 := by
  unfold GetNeighbors
  exact le_trans (List.length_filterMap_le _ _) (by simp)

theorem Geom.mem_neighbors {cfg : Config} {g : Grid} (hG : Geom cfg g) {cur n : BoxPtr}
    (hc : InB cfg cur) :
    n ∈ GetNeighbors g cur ↔ Adj cur n ∧ Walkable cfg n := by
  have hxy := hG.grid_xy cur hc
  unfold GetNeighbors GetBox
  rw [hG.cols_eq, hG.rows_eq, hxy.1, hxy.2]
  simp only [List.mem_filterMap, List.mem_cons, List.mem_singleton, List.not_mem_nil, or_false]
  constructor
  · rintro ⟨d, hd, hf⟩
    split at hf
    · exact Option.noConfusion hf
    · rename_i nb hnb
      obtain ⟨h1, h2, h3, h4, h5⟩ := getBoxAt_eq_some hnb
      split at hf
      · exact Option.noConfusion hf
      · rename_i hw
        cases hf
        have hin : InB cfg n := by
          rw [h5]; unfold InB; simp only; omega
        refine ⟨?_, hin, fun h => hw ((hG.wall_iff n hin).mpr h)⟩
        rw [h5]
        unfold Adj InB at *
        simp only
        rcases hd with hd | hd | hd | hd <;> subst hd <;> simp only at h1 h2 h3 h4 ⊢ <;> omega
  · rintro ⟨hadj, hin, hw⟩
    have hw' : ¬ (g.boxes n).isWall = true := fun h => hw ((hG.wall_iff n hin).mp h)
    have key : ∀ d : Int × Int, ((cur.1 : Nat) : Int) + d.1 = (n.1 : Nat) →
        ((cur.2 : Nat) : Int) + d.2 = (n.2 : Nat) →
        (match getBoxAt cfg.cols cfg.rows (((cur.1 : Nat) : Int) + d.1)
            (((cur.2 : Nat) : Int) + d.2) with
          | none => none
          | some neighbor => if (g.boxes neighbor).isWall = true then none else some neighbor)
          = some n := by
      intro d h1 h2
      rw [h1, h2, getBoxAt_ptr hin]
      simp only [if_neg hw']
    unfold Adj at hadj
    rcases hadj with ⟨h1, h2 | h2⟩ | ⟨h1, h2 | h2⟩
    · exact ⟨(0, 1), by simp, key (0, 1) (by simp only; omega) (by simp only; omega)⟩
    · exact ⟨(0, -1), by simp, key (0, -1) (by simp only; omega) (by simp only; omega)⟩
    · exact ⟨(1, 0), by simp, key (1, 0) (by simp only; omega) (by simp only; omega)⟩
    · exact ⟨(-1, 0), by simp, key (-1, 0) (by simp only; omega) (by simp only; omega)⟩

/-! ## The frontier always holds a cell of every path that leaves the visited region -/

theorem Inv.dist_lt_max {cfg : Config} {g : Grid} (hI : Inv cfg g) {p : BoxPtr}
    (hd : Discovered cfg g p) :
    (g.boxes p).distance + 1 + cfg.cols + cfg.rows ≤ INT_MAX := by
  have h1 := hI.dist_bound hd
  have h2 := hI.small
  unfold Small at h2
  omega

theorem Inv.frontier {cfg : Config} {g : Grid} (hI : Inv cfg g)
    (hr : g.algorithmRunning = true) (c : BoxPtr) (hc : (g.boxes c).isVisited = false) :
    ∀ (l : List BoxPtr) (u : BoxPtr), Walk cfg u l c → Discovered cfg g u →
      ∃ f x, (f, x) ∈ g.pq ∧ (g.boxes x).isVisited = false ∧
        f ≤ (g.boxes u).distance + (l.length : Int) + manhattan c (ptrOf cfg.endCoord)
  | l, u, hw, hd => by
    cases hv : (g.boxes u).isVisited with
    | false =>
      obtain ⟨f, hf, hle⟩ := hI.fresh hr u (Walk.start_ok hw) hv hd
      have := Walk.heuristic_le (ptrOf cfg.endCoord) hw
      exact ⟨f, u, hf, hv, by omega⟩
    | true =>
      match l, hw with
      | [], hw =>
        obtain ⟨huc, _⟩ := hw
        subst huc
        rw [hv] at hc
        exact Bool.noConfusion hc
      | n :: rest, hw =>
        obtain ⟨_, hadj, hrest⟩ := hw
        have hue : u ≠ ptrOf cfg.endCoord := by
          intro h
          have := hI.end_unvisited hr
          rw [← h, hv] at this
          exact Bool.noConfusion this
        have hrel := hI.relaxed u hv hue n hadj (Walk.start_ok hrest)
        have hdn : Discovered cfg g n := by
          by_contra hnd
          have h1 := (hI.undiscovered n hnd).1
          have h2 := hI.dist_lt_max hd
          have h3 : (0 : Int) ≤ (cfg.cols : Int) := Int.natCast_nonneg _
          have h4 : (0 : Int) ≤ (cfg.rows : Int) := Int.natCast_nonneg _
          have h5 : 0 < cfg.cols := by have := hI.start_ok.1.1; omega
          omega
        obtain ⟨f, x, hf, hx, hle⟩ := Inv.frontier hI hr c hc rest n hrest hdn
        refine ⟨f, x, hf, hx, ?_⟩
        simp only [List.length_cons, Nat.cast_add, Nat.cast_one]
        omega

theorem Inv.top_optimal {cfg : Config} {g : Grid} (hI : Inv cfg g)
    (hr : g.algorithmRunning = true) {top : Entry} (ht : pqTop g.rows g.pq = some top)
    (hv : (g.boxes top.2).isVisited = false) :
    ∀ l, Walk cfg (ptrOf cfg.startCoord) l top.2 → (g.boxes top.2).distance ≤ (l.length : Int) := by
  intro l hl
  obtain ⟨f, x, hf, _, hle⟩ := hI.frontier hr top.2 hv l _ hl (Or.inl rfl)
  have h1 := pqTop_le ht _ hf
  simp only at h1
  rw [hI.start_dist] at hle
  rcases (hI.pq_ok top (pqTop_mem ht)).2.2 with h | h
  · rw [h, hI.start_dist]; omega
  · omega

/-! ## The cases of `Step` -/

theorem Step_searching {g : Grid} (hr : g.algorithmRunning = true) (hq : g.pq ≠ [])
    {top : Entry} (ht : pqTop g.rows g.pq = some top) :
    Step g =
      if (g.boxes top.2).isVisited = true then some { g with pq := g.pq.erase top }
      else if some top.2 = GetBox g g.endCoord.x g.endCoord.y then some (goalState g top)
      else relaxAll top.2
        (GetNeighbors { g with
          pq := g.pq.erase top,
          boxes := Function.update g.boxes top.2 { g.boxes top.2 with isVisited := true } } top.2)
        { g with
          pq := g.pq.erase top,
          boxes := Function.update g.boxes top.2 { g.boxes top.2 with isVisited := true } } := by
  unfold Step
  rw [if_pos ⟨hr, hq⟩, ht]
  simp only [pqPop_eq ht, Function.update_same]
  rfl

theorem Step_stale {g : Grid} (hr : g.algorithmRunning = true) {top : Entry}
    (ht : pqTop g.rows g.pq = some top) (hv : (g.boxes top.2).isVisited = true) :
    Step g = some { g with pq := g.pq.erase top } := by
  have hq : g.pq ≠ [] := by
    intro h; rw [h] at ht; simp [pqTop] at ht
  rw [Step_searching hr hq ht, if_pos hv]

theorem Step_goal {cfg : Config} {g : Grid} (hG : Geom cfg g) (hr : g.algorithmRunning = true)
    {top : Entry} (ht : pqTop g.rows g.pq = some top) (hv : (g.boxes top.2).isVisited = false)
    (he : top.2 = ptrOf cfg.endCoord) : Step g = some (goalState g top) := by
  have hq : g.pq ≠ [] := by
    intro h; rw [h] at ht; simp [pqTop] at ht
  have hv' : ¬ (g.boxes top.2).isVisited = true := by rw [hv]; exact Bool.noConfusion
  rw [Step_searching hr hq ht, if_neg hv', hG.getBox_end, he, if_pos rfl]

theorem Step_expand {cfg : Config} {g : Grid} (hI : Inv cfg g) (hr : g.algorithmRunning = true)
    {top : Entry} (ht : pqTop g.rows g.pq = some top) (hv : (g.boxes top.2).isVisited = false)
    (he : top.2 ≠ ptrOf cfg.endCoord) :
    ∃ g', Step g = some g' ∧ SameFrame g g' ∧
      (∀ p, g'.boxes p = expandedBox cfg g top.2 p) ∧
      (∀ e, e ∈ g'.pq ↔ e ∈ g.pq.erase top ∨ ∃ n, Adj top.2 n ∧ Walkable cfg n ∧
        (g.boxes top.2).distance + 1 < (g.boxes n).distance ∧
        e = ((g.boxes top.2).distance + 1 + manhattan n (ptrOf cfg.endCoord), n)) ∧
      g'.pq.length ≤ (g.pq.erase top).length + 4 := by
  have hq : g.pq ≠ [] := by
    intro h; rw [h] at ht; simp [pqTop] at ht
  have hv' : ¬ (g.boxes top.2).isVisited = true := by rw [hv]; exact Bool.noConfusion
  have hG := hI.geom
  have he' : ¬ some top.2 = some (ptrOf cfg.endCoord) := fun h => he (Option.some.inj h)
  rw [Step_searching hr hq ht, if_neg hv', hG.getBox_end, if_neg he']
  obtain ⟨hwk, hdisc, _⟩ := hI.pq_ok top (pqTop_mem ht)
  obtain ⟨g2, hg2⟩ : ∃ g2 : Grid, g2 = { g with
          pq := g.pq.erase top,
          boxes := Function.update g.boxes top.2 { g.boxes top.2 with isVisited := true } } :=
    ⟨_, rfl⟩
  rw [← hg2]
  have hb2 : ∀ p, g2.boxes p =
      if p = top.2 then { g.boxes top.2 with isVisited := true } else g.boxes p := by
    intro p; rw [hg2]; simp only [Function.update_apply]
  have hd2 : ∀ p, (g2.boxes p).distance = (g.boxes p).distance := by
    intro p; rw [hb2]; split
    · rename_i h; rw [h]
    · rfl
  have hpq2 : g2.pq = g.pq.erase top := by rw [hg2]
  have hfr2 : SameFrame g g2 := by rw [hg2]; exact ⟨rfl, rfl, rfl, rfl, rfl, rfl, rfl, rfl⟩
  have hG2 : Geom cfg g2 := by
    refine ⟨hG.coord_end, hfr2.1.trans hG.cols_eq, hfr2.2.1.trans hG.rows_eq,
      hfr2.2.2.2.1.trans hG.end_eq, ?_, ?_⟩
    · intro p hp; rw [hb2]; split
      · rename_i h; subst h; exact hG.grid_xy _ hp
      · exact hG.grid_xy p hp
    · intro p hp; rw [hb2]; split
      · rename_i h; subst h; exact hG.wall_iff _ hp
      · exact hG.wall_iff p hp
  have hmem : ∀ n, n ∈ GetNeighbors g2 top.2 ↔ Adj top.2 n ∧ Walkable cfg n :=
    fun n => hG2.mem_neighbors hwk.1
  obtain ⟨g', hrun, hfr, hbx, hpq, hlen⟩ := relaxAll_spec top.2 (GetNeighbors g2 top.2) g2 hG2
    (fun h => ((hmem _).mp h).1.ne rfl) (fun n hn => ((hmem n).mp hn).2.1)
    (by rw [hd2]; exact hI.nonneg _) (by rw [hd2]; exact hI.dist_lt_max hdisc)
  refine ⟨g', hrun, hfr2.trans hfr, ?_, ?_, ?_⟩
  · intro p
    rw [hbx p]
    unfold relaxedBox expandedBox
    simp only [hmem, hd2, and_assoc]
    by_cases hc : Adj top.2 p ∧ Walkable cfg p ∧
        (g.boxes top.2).distance + 1 < (g.boxes p).distance
    · have hne : p ≠ top.2 := fun h => hc.1.ne h.symm
      rw [if_pos hc, if_pos hc, hb2, if_neg hne]
    · rw [if_neg hc, if_neg hc, hb2]
      split
      · rename_i h; rw [h]
      · rfl
  · intro e
    rw [hpq e, hpq2]
    simp only [hmem, hd2, and_assoc]
  · have := GetNeighbors_length g2 top.2
    rw [hpq2] at hlen
    omega

theorem Step_not_searching {g : Grid} (h : ¬ (g.algorithmRunning = true ∧ g.pq ≠ [])) :
    Step g =
      match g.pathBox with
      | some pb =>
        if g.tracingPath = true ∧ (g.boxes pb).isStart = false then some (tracedState g pb)
        else some { g with tracingPath := false }
      | none => some { g with tracingPath := false } := by
  unfold Step
  rw [if_neg h]
  rfl

/-! ## `Step` keeps the invariant -/

theorem sameRoles_refl (b : Box) : SameRoles b b := ⟨rfl, rfl, rfl, rfl, rfl⟩

theorem Static.transfer {cfg : Config} {g g' : Grid} (hS : Static cfg g)
    (hf : g'.cols = g.cols ∧ g'.rows = g.rows ∧ g'.startCoord = g.startCoord ∧
      g'.endCoord = g.endCoord ∧ g'.walls = g.walls)
    (hb : ∀ p, SameRoles (g.boxes p) (g'.boxes p)) : Static cfg g' where
  coord_start := hS.coord_start
  coord_end := hS.coord_end
  start_ok := hS.start_ok
  small := hS.small
  cols_eq := hf.1.trans hS.cols_eq
  rows_eq := hf.2.1.trans hS.rows_eq
  start_eq := hf.2.2.1.trans hS.start_eq
  end_eq := hf.2.2.2.1.trans hS.end_eq
  walls_eq := hf.2.2.2.2.trans hS.walls_eq
  grid_xy := by
    intro p hp
    obtain ⟨h1, h2, _, _, _⟩ := hb p
    rw [h1, h2]; exact hS.grid_xy p hp
  wall_iff := by
    intro p hp
    obtain ⟨_, _, h3, _, _⟩ := hb p
    rw [h3]; exact hS.wall_iff p hp
  start_iff := by
    intro p hp
    obtain ⟨_, _, _, h4, _⟩ := hb p
    rw [h4]; exact hS.start_iff p hp
  end_iff := by
    intro p hp
    obtain ⟨_, _, _, _, h5⟩ := hb p
    rw [h5]; exact hS.end_iff p hp

theorem SameFrame.config {g g' : Grid} (h : SameFrame g g') :
    g'.cols = g.cols ∧ g'.rows = g.rows ∧ g'.startCoord = g.startCoord ∧
      g'.endCoord = g.endCoord ∧ g'.walls = g.walls :=
  ⟨h.1, h.2.1, h.2.2.1, h.2.2.2.1, h.2.2.2.2.2.2.2⟩

theorem Inv.stale {cfg : Config} {g : Grid} (hI : Inv cfg g) {top : Entry}
    (hv : (g.boxes top.2).isVisited = true) : Inv cfg { g with pq := g.pq.erase top } where
  toStatic := hI.toStatic.transfer ⟨rfl, rfl, rfl, rfl, rfl⟩
    (fun p => sameRoles_refl _)
  start_dist := hI.start_dist
  start_source := hI.start_source
  nonneg := hI.nonneg
  undiscovered := hI.undiscovered
  src := hI.src
  visited_ok := hI.visited_ok
  relaxed := hI.relaxed
  optimal := hI.optimal
  pq_ok := fun e he => hI.pq_ok e (List.mem_of_mem_erase he)
  fresh := by
    intro hr p hw hp hd
    obtain ⟨f, hf, hle⟩ := hI.fresh hr p hw hp hd
    refine ⟨f, ?_, hle⟩
    have hne : (f, p) ≠ top := by
      intro h
      rw [← h] at hv
      have hv' : (g.boxes p).isVisited = true := hv
      rw [hp] at hv'
      exact Bool.noConfusion hv'
    exact (List.mem_erase_of_ne hne).mpr hf
  end_unvisited := hI.end_unvisited

theorem goalState_boxes (g : Grid) (top : Entry) (p : BoxPtr) :
    (goalState g top).boxes p =
      if p = top.2 then { g.boxes p with isVisited := true } else g.boxes p := by
  unfold goalState
  simp only [Function.update_apply]
  split
  · rename_i h; rw [h]
  · rfl

theorem goalState_distance (g : Grid) (top : Entry) (p : BoxPtr) :
    ((goalState g top).boxes p).distance = (g.boxes p).distance := by
  rw [goalState_boxes]; split <;> rfl

theorem goalState_source (g : Grid) (top : Entry) (p : BoxPtr) :
    ((goalState g top).boxes p).source = (g.boxes p).source := by
  rw [goalState_boxes]; split <;> rfl

theorem goalState_visited (g : Grid) (top : Entry) (p : BoxPtr) :
    ((goalState g top).boxes p).isVisited = true ↔ (g.boxes p).isVisited = true ∨ p = top.2 := by
  rw [goalState_boxes]
  split
  · rename_i h; simp [h]
  · rename_i h; simp [h]

theorem goalState_roles (g : Grid) (top : Entry) (p : BoxPtr) :
    SameRoles (g.boxes p) ((goalState g top).boxes p) := by
  rw [goalState_boxes]; split <;> exact ⟨rfl, rfl, rfl, rfl, rfl⟩

theorem goalState_discovered {cfg : Config} (g : Grid) (top : Entry) (p : BoxPtr) :
    Discovered cfg (goalState g top) p ↔ Discovered cfg g p := by
  unfold Discovered
  rw [goalState_source]

theorem Inv.goal {cfg : Config} {g : Grid} (hI : Inv cfg g) (hr : g.algorithmRunning = true)
    {top : Entry} (ht : pqTop g.rows g.pq = some top) (hv : (g.boxes top.2).isVisited = false)
    (he : top.2 = ptrOf cfg.endCoord) : Inv cfg (goalState g top) where
  toStatic := show Static cfg (goalState g top) from
    hI.toStatic.transfer ⟨rfl, rfl, rfl, rfl, rfl⟩ (fun p => goalState_roles g top p)
  start_dist := by rw [goalState_distance]; exact hI.start_dist
  start_source := by rw [goalState_source]; exact hI.start_source
  nonneg := by intro p; rw [goalState_distance]; exact hI.nonneg p
  undiscovered := by
    intro p hp
    rw [goalState_discovered] at hp
    obtain ⟨h1, h2⟩ := hI.undiscovered p hp
    rw [goalState_distance]
    refine ⟨h1, ?_⟩
    have hne : p ≠ top.2 := fun h => hp (h ▸ (hI.pq_ok top (pqTop_mem ht)).2.1)
    rw [goalState_boxes, if_neg hne]; exact h2
  src := by
    intro p s hs
    rw [goalState_source] at hs
    obtain ⟨h1, h2, h3, h4, h5, h6⟩ := hI.src p s hs
    refine ⟨h1, h2, (goalState_visited g top s).mpr (Or.inl h3), h4, h5, ?_⟩
    rw [goalState_distance, goalState_distance]; exact h6
  visited_ok := by
    intro p hp
    rcases (goalState_visited g top p).mp hp with h | h
    · exact hI.visited_ok p h
    · rw [h]; exact (hI.pq_ok top (pqTop_mem ht)).1
  relaxed := by
    intro u hu hue n hadj hn
    rw [goalState_distance, goalState_distance]
    rcases (goalState_visited g top u).mp hu with h | h
    · exact hI.relaxed u h hue n hadj hn
    · exact absurd (h.trans he) hue
  optimal := by
    intro p hp l hl
    rw [goalState_distance]
    rcases (goalState_visited g top p).mp hp with h | h
    · exact hI.optimal p h l hl
    · subst h; exact hI.top_optimal hr ht hv l hl
  pq_ok := by
    intro e hm
    have hm' : e ∈ g.pq := List.mem_of_mem_erase hm
    obtain ⟨h1, h2, h3⟩ := hI.pq_ok e hm'
    refine ⟨h1, (goalState_discovered g top e.2).mpr h2, ?_⟩
    rw [goalState_distance]; exact h3
  fresh := by intro h; exact Bool.noConfusion h
  end_unvisited := by intro h; exact Bool.noConfusion h

theorem Inv.visited_neighbor_le {cfg : Config} {g : Grid} (hI : Inv cfg g) {cur p : BoxPtr}
    (hd : Discovered cfg g cur) (hv : (g.boxes p).isVisited = true) (hadj : Adj cur p)
    (hw : Walkable cfg p) : (g.boxes p).distance ≤ (g.boxes cur).distance + 1 := by
  obtain ⟨k, hk⟩ := Int.eq_ofNat_of_zero_le (hI.nonneg cur)
  obtain ⟨l, hl, hlen⟩ := hI.walk_exists k cur hd hk
  have := hI.optimal p hv (l ++ [p]) (Walk.snoc hl hadj hw)
  simp only [List.length_append, List.length_singleton, hlen, Nat.cast_add, Nat.cast_one] at this
  omega

theorem expandedBox_roles (cfg : Config) (g : Grid) (cur p : BoxPtr) :
    SameRoles (g.boxes p) (expandedBox cfg g cur p) := by
  unfold expandedBox
  split
  · exact ⟨rfl, rfl, rfl, rfl, rfl⟩
  · split <;> exact ⟨rfl, rfl, rfl, rfl, rfl⟩

theorem expandedBox_distance (cfg : Config) (g : Grid) (cur p : BoxPtr) :
    (expandedBox cfg g cur p).distance =
      if Adj cur p ∧ Walkable cfg p ∧ (g.boxes cur).distance + 1 < (g.boxes p).distance then
        (g.boxes cur).distance + 1
      else (g.boxes p).distance := by
  unfold expandedBox
  split
  · rfl
  · split <;> rfl

theorem expandedBox_source (cfg : Config) (g : Grid) (cur p : BoxPtr) :
    (expandedBox cfg g cur p).source =
      if Adj cur p ∧ Walkable cfg p ∧ (g.boxes cur).distance + 1 < (g.boxes p).distance then
        some cur
      else (g.boxes p).source := by
  unfold expandedBox
  split
  · rfl
  · split <;> rfl

theorem expandedBox_visited (cfg : Config) (g : Grid) (cur p : BoxPtr) :
    (expandedBox cfg g cur p).isVisited = true ↔ (g.boxes p).isVisited = true ∨ p = cur := by
  unfold expandedBox
  split
  · rename_i h
    have hne : p ≠ cur := fun hp => h.1.ne hp.symm
    simp [hne]
  · split
    · rename_i h; simp [h]
    · rename_i h; simp [h]

theorem expandedBox_isPath (cfg : Config) (g : Grid) (cur p : BoxPtr) :
    (expandedBox cfg g cur p).isPath = (g.boxes p).isPath := by
  unfold expandedBox
  split
  · rfl
  · split <;> rfl

theorem expandedBox_distance_le (cfg : Config) (g : Grid) (cur p : BoxPtr) :
    (expandedBox cfg g cur p).distance ≤ (g.boxes p).distance := by
  rw [expandedBox_distance]
  split
  · rename_i h; omega
  · exact le_refl _

theorem Inv.expand {cfg : Config} {g g' : Grid} (hI : Inv cfg g)
    (hr : g.algorithmRunning = true) {top : Entry} (ht : pqTop g.rows g.pq = some top)
    (hv : (g.boxes top.2).isVisited = false) (he : top.2 ≠ ptrOf cfg.endCoord)
    (hfr : SameFrame g g') (hbx : ∀ p, g'.boxes p = expandedBox cfg g top.2 p)
    (hpq : ∀ e, e ∈ g'.pq ↔ e ∈ g.pq.erase top ∨ ∃ n, Adj top.2 n ∧ Walkable cfg n ∧
        (g.boxes top.2).distance + 1 < (g.boxes n).distance ∧
        e = ((g.boxes top.2).distance + 1 + manhattan n (ptrOf cfg.endCoord), n)) :
    Inv cfg g' := by
  obtain ⟨hwk, hdisc, _⟩ := hI.pq_ok top (pqTop_mem ht)
  have hcur0 := hI.nonneg top.2
  -- a visited cell is never improved
  have hnv : ∀ p, (g.boxes p).isVisited = true →
      ¬ (Adj top.2 p ∧ Walkable cfg p ∧ (g.boxes top.2).distance + 1 < (g.boxes p).distance) := by
    rintro p hp ⟨h1, h2, h3⟩
    have := hI.visited_neighbor_le hdisc hp h1 h2
    omega
  have hncur : ¬ (Adj top.2 top.2 ∧ Walkable cfg top.2 ∧
      (g.boxes top.2).distance + 1 < (g.boxes top.2).distance) := fun h => h.1.ne rfl
  have hdv : ∀ p, (g'.boxes p).isVisited = true → (g'.boxes p).distance = (g.boxes p).distance := by
    intro p hp
    rw [hbx] at hp ⊢
    rw [expandedBox_distance]
    rcases (expandedBox_visited cfg g top.2 p).mp hp with h | h
    · rw [if_neg (hnv p h)]
    · subst h; rw [if_neg hncur]
  have hdisc' : ∀ p, Discovered cfg g p → Discovered cfg g' p := by
    intro p hp
    rcases hp with hp | hp
    · exact Or.inl hp
    · right
      rw [hbx, expandedBox_source]
      split
      · exact Option.noConfusion
      · exact hp
  refine
    { toStatic := hI.toStatic.transfer hfr.config
        (fun p => by rw [hbx]; exact expandedBox_roles cfg g top.2 p)
      start_dist := ?_, start_source := ?_, nonneg := ?_, undiscovered := ?_, src := ?_,
      visited_ok := ?_, relaxed := ?_, optimal := ?_, pq_ok := ?_, fresh := ?_,
      end_unvisited := ?_ }
  · rw [hbx, expandedBox_distance, if_neg, hI.start_dist]
    rintro ⟨_, _, h⟩
    rw [hI.start_dist] at h
    omega
  · rw [hbx, expandedBox_source, if_neg, hI.start_source]
    rintro ⟨_, _, h⟩
    rw [hI.start_dist] at h
    omega
  · intro p
    rw [hbx, expandedBox_distance]
    split
    · omega
    · exact hI.nonneg p
  · intro p hp
    have hp0 : ¬ Discovered cfg g p := fun h => hp (hdisc' p h)
    have hnr : ¬ (Adj top.2 p ∧ Walkable cfg p ∧
        (g.boxes top.2).distance + 1 < (g.boxes p).distance) := by
      intro h
      apply hp
      right
      rw [hbx, expandedBox_source, if_pos h]
      exact Option.noConfusion
    have hne : p ≠ top.2 := fun h => hp0 (h ▸ hdisc)
    obtain ⟨h1, h2⟩ := hI.undiscovered p hp0
    rw [hbx]
    unfold expandedBox
    rw [if_neg hnr, if_neg hne]
    exact ⟨h1, h2⟩
  · intro p s hs
    rw [hbx, expandedBox_source] at hs
    by_cases hR : Adj top.2 p ∧ Walkable cfg p ∧
        (g.boxes top.2).distance + 1 < (g.boxes p).distance
    · rw [if_pos hR] at hs
      cases hs
      have hvc : (g'.boxes top.2).isVisited = true := by
        rw [hbx]; exact (expandedBox_visited cfg g top.2 top.2).mpr (Or.inr rfl)
      refine ⟨hR.2.1, hwk, hvc, he, hR.1, ?_⟩
      rw [hdv _ hvc, hbx, expandedBox_distance, if_pos hR]
    · rw [if_neg hR] at hs
      obtain ⟨h1, h2, h3, h4, h5, h6⟩ := hI.src p s hs
      have hvs : (g'.boxes s).isVisited = true := by
        rw [hbx]; exact (expandedBox_visited cfg g top.2 s).mpr (Or.inl h3)
      refine ⟨h1, h2, hvs, h4, h5, ?_⟩
      rw [hdv _ hvs, hbx, expandedBox_distance, if_neg hR]
      exact h6
  · intro p hp
    rw [hbx] at hp
    rcases (expandedBox_visited cfg g top.2 p).mp hp with h | h
    · exact hI.visited_ok p h
    · rw [h]; exact hwk
  · intro u hu hue n hadj hn
    rw [hdv u hu]
    rw [hbx] at hu
    rw [hbx n, expandedBox_distance]
    rcases (expandedBox_visited cfg g top.2 u).mp hu with h | h
    · have := hI.relaxed u h hue n hadj hn
      split
      · omega
      · exact this
    · subst h
      by_cases hlt : (g.boxes top.2).distance + 1 < (g.boxes n).distance
      · rw [if_pos ⟨hadj, hn, hlt⟩]
      · rw [if_neg (fun h => hlt h.2.2)]
        omega
  · intro p hp l hl
    rw [hdv p hp]
    rw [hbx] at hp
    rcases (expandedBox_visited cfg g top.2 p).mp hp with h | h
    · exact hI.optimal p h l hl
    · subst h; exact hI.top_optimal hr ht hv l hl
  · intro e hm
    rcases (hpq e).mp hm with h | ⟨n, h1, h2, h3, h4⟩
    · obtain ⟨a, b, c⟩ := hI.pq_ok e (List.mem_of_mem_erase h)
      refine ⟨a, hdisc' _ b, ?_⟩
      rcases c with c | c
      · exact Or.inl c
      · right
        have := expandedBox_distance_le cfg g top.2 e.2
        rw [hbx]
        omega
    · subst h4
      refine ⟨h2, ?_, Or.inr ?_⟩
      · right
        rw [hbx, expandedBox_source, if_pos ⟨h1, h2, h3⟩]
        exact Option.noConfusion
      · rw [hbx, expandedBox_distance, if_pos ⟨h1, h2, h3⟩]
  · intro _ p hw hp hd
    by_cases hR : Adj top.2 p ∧ Walkable cfg p ∧
        (g.boxes top.2).distance + 1 < (g.boxes p).distance
    · refine ⟨_, (hpq _).mpr (Or.inr ⟨p, hR.1, hR.2.1, hR.2.2, rfl⟩), ?_⟩
      rw [hbx, expandedBox_distance, if_pos hR]
    · have hne : p ≠ top.2 := by
        intro h
        have : (g'.boxes p).isVisited = true := by
          rw [hbx]; exact (expandedBox_visited cfg g top.2 p).mpr (Or.inr h)
        rw [hp] at this
        exact Bool.noConfusion this
      have hb : g'.boxes p = g.boxes p := by
        rw [hbx]; unfold expandedBox; rw [if_neg hR, if_neg hne]
      rw [hb] at hp ⊢
      have hd0 : Discovered cfg g p := by
        rcases hd with hd | hd
        · exact Or.inl hd
        · right; rw [hb] at hd; exact hd
      obtain ⟨f, hf, hle⟩ := hI.fresh hr p hw hp hd0
      refine ⟨f, (hpq _).mpr (Or.inl ?_), hle⟩
      have hne' : (f, p) ≠ top := fun h => hne (by rw [← h])
      exact (List.mem_erase_of_ne hne').mpr hf
  · intro _
    have h0 := hI.end_unvisited hr
    cases hc : (g'.boxes (ptrOf cfg.endCoord)).isVisited with
    | false => rfl
    | true =>
      rw [hbx] at hc
      rcases (expandedBox_visited cfg g top.2 _).mp hc with h | h
      · rw [h0] at h; exact Bool.noConfusion h
      · exact absurd h.symm he

theorem Step_trace {g : Grid} (hs : ¬ (g.algorithmRunning = true ∧ g.pq ≠ [])) {pb : BoxPtr}
    (hp : g.pathBox = some pb) (hc : g.tracingPath = true ∧ (g.boxes pb).isStart = false) :
    Step g = some (tracedState g pb) := by
  rw [Step_not_searching hs]
  split
  · rename_i pb' hp'
    rw [hp] at hp'
    cases hp'
    rw [if_pos hc]
  · rename_i hp'
    rw [hp] at hp'
    exact Option.noConfusion hp'

theorem Step_rest {g : Grid} (hs : ¬ (g.algorithmRunning = true ∧ g.pq ≠ []))
    (hn : ∀ pb, g.pathBox = some pb → ¬ (g.tracingPath = true ∧ (g.boxes pb).isStart = false)) :
    Step g = some { g with tracingPath := false } := by
  rw [Step_not_searching hs]
  split
  · rename_i pb hp
    rw [if_neg (hn pb hp)]
  · rfl

theorem Step_cases {cfg : Config} {g : Grid} (hI : Inv cfg g) :
    ∃ g', Step g = some g' ∧ StepKind cfg g g' := by
  by_cases hs : g.algorithmRunning = true ∧ g.pq ≠ []
  · obtain ⟨hr, hq⟩ := hs
    obtain ⟨top, ht⟩ := pqTop_of_ne_nil g.rows hq
    cases hv : (g.boxes top.2).isVisited with
    | true => exact ⟨_, Step_stale hr ht hv, StepKind.stale top hr ht hv rfl⟩
    | false =>
      by_cases he : top.2 = ptrOf cfg.endCoord
      · exact ⟨_, Step_goal hI.geom hr ht hv he, StepKind.goal top hr ht hv he rfl⟩
      · obtain ⟨g', h1, h2, h3, h4, h5⟩ := Step_expand hI hr ht hv he
        exact ⟨g', h1, StepKind.expand top hr ht hv he h2 h3 h4 h5⟩
  · by_cases hc : ∃ pb, g.pathBox = some pb ∧ g.tracingPath = true ∧
        (g.boxes pb).isStart = false
    · obtain ⟨pb, hp, hc⟩ := hc
      exact ⟨_, Step_trace hs hp hc, StepKind.trace pb hs hc.1 hp hc.2 rfl⟩
    · have hn : ∀ pb, g.pathBox = some pb →
          ¬ (g.tracingPath = true ∧ (g.boxes pb).isStart = false) :=
        fun pb hp h => hc ⟨pb, hp, h⟩
      exact ⟨_, Step_rest hs hn, StepKind.rest hs hn rfl⟩

theorem Inv.transfer_inv {cfg : Config} {g g' : Grid} (hI : Inv cfg g)
    (hf : g'.cols = g.cols ∧ g'.rows = g.rows ∧ g'.startCoord = g.startCoord ∧
      g'.endCoord = g.endCoord ∧ g'.walls = g.walls)
    (hq : g'.pq = g.pq) (hr : g'.algorithmRunning = true → g.algorithmRunning = true)
    (hb : ∀ p, SameSearch (g.boxes p) (g'.boxes p)) : Inv cfg g' := by
  have hv : ∀ p, (g'.boxes p).isVisited = (g.boxes p).isVisited := fun p => (hb p).2.1
  have hd : ∀ p, (g'.boxes p).distance = (g.boxes p).distance := fun p => (hb p).2.2.1
  have hs : ∀ p, (g'.boxes p).source = (g.boxes p).source := fun p => (hb p).2.2.2
  have hdisc : ∀ p, Discovered cfg g' p ↔ Discovered cfg g p := by
    intro p; unfold Discovered; rw [hs]
  refine
    { toStatic := hI.toStatic.transfer hf (fun p => (hb p).1)
      start_dist := ?_, start_source := ?_, nonneg := ?_, undiscovered := ?_, src := ?_,
      visited_ok := ?_, relaxed := ?_, optimal := ?_, pq_ok := ?_, fresh := ?_,
      end_unvisited := ?_ }
  · rw [hd]; exact hI.start_dist
  · rw [hs]; exact hI.start_source
  · intro p; rw [hd]; exact hI.nonneg p
  · intro p hp; rw [hd, hv]; exact hI.undiscovered p (fun h => hp ((hdisc p).mpr h))
  · intro p s h; rw [hs] at h; rw [hv, hd, hd]; exact hI.src p s h
  · intro p h; rw [hv] at h; exact hI.visited_ok p h
  · intro u hu; rw [hv] at hu; intro hue n hadj hn; rw [hd, hd]
    exact hI.relaxed u hu hue n hadj hn
  · intro p hp; rw [hv] at hp; rw [hd]; exact hI.optimal p hp
  · intro e he; rw [hq] at he; rw [hdisc, hd]; exact hI.pq_ok e he
  · intro h p hw hp hdp
    rw [hv] at hp; rw [hq, hd]
    exact hI.fresh (hr h) p hw hp ((hdisc p).mp hdp)
  · intro h; rw [hv]; exact hI.end_unvisited (hr h)

theorem tracedState_boxes (g : Grid) (pb p : BoxPtr) :
    (tracedState g pb).boxes p =
      if p = pb then { g.boxes p with isPath := true } else g.boxes p := by
  unfold tracedState
  simp only [Function.update_apply]
  split
  · rename_i h; rw [h]
  · rfl

theorem tracedState_same (g : Grid) (pb p : BoxPtr) :
    SameSearch (g.boxes p) ((tracedState g pb).boxes p) := by
  rw [tracedState_boxes]
  split <;> exact ⟨⟨rfl, rfl, rfl, rfl, rfl⟩, rfl, rfl, rfl⟩

theorem sameSearch_refl (b : Box) : SameSearch b b := ⟨sameRoles_refl b, rfl, rfl, rfl⟩

theorem StepKind.inv {cfg : Config} {g g' : Grid} (hK : StepKind cfg g g') (hI : Inv cfg g) :
    Inv cfg g' := by
  cases hK with
  | stale top hr ht hv hg => rw [hg]; exact hI.stale hv
  | goal top hr ht hv he hg => rw [hg]; exact hI.goal hr ht hv he
  | expand top hr ht hv he hfr hbx hpq hlen => exact hI.expand hr ht hv he hfr hbx hpq
  | trace pb hs ht hp hb hg =>
    rw [hg]
    exact hI.transfer_inv ⟨rfl, rfl, rfl, rfl, rfl⟩ rfl (fun h => h) (tracedState_same g pb)
  | rest hs hn hg =>
    rw [hg]
    exact hI.transfer_inv ⟨rfl, rfl, rfl, rfl, rfl⟩ rfl (fun h => h) (fun p => sameSearch_refl _)

/-! ## Predecessor chains as lists -/

theorem SourceChain.transfer_chain {g g' : Grid}
    (hs : ∀ p, (g'.boxes p).source = (g.boxes p).source) :
    ∀ {p : BoxPtr} {l : List BoxPtr}, SourceChain g p l → SourceChain g' p l
  | p, [], h => by
    unfold SourceChain at h ⊢
    rw [hs]; exact h
  | p, s :: rest, h => by
    unfold SourceChain at h ⊢
    rw [hs]
    exact ⟨h.1, SourceChain.transfer_chain hs h.2⟩

theorem SourceChain.unique {g : Grid} : ∀ {p : BoxPtr} {l1 l2 : List BoxPtr},
    SourceChain g p l1 → SourceChain g p l2 → l1 = l2
  | _, [], [], _, _ => rfl
  | p, [], s :: rest, h1, h2 => by
    unfold SourceChain at h1 h2
    rw [h1] at h2
    exact Option.noConfusion h2.1
  | p, s :: rest, [], h1, h2 => by
    unfold SourceChain at h1 h2
    rw [h2] at h1
    exact Option.noConfusion h1.1
  | p, s1 :: r1, s2 :: r2, h1, h2 => by
    unfold SourceChain at h1 h2
    have : s1 = s2 := Option.some.inj (h1.1.symm.trans h2.1)
    subst this
    rw [SourceChain.unique h1.2 h2.2]

theorem SourceChain.suffix {g : Grid} : ∀ {p : BoxPtr} (l1 : List BoxPtr) {q : BoxPtr}
    {l2 : List BoxPtr}, SourceChain g p (l1 ++ q :: l2) → SourceChain g q l2
  | _, [], _, _, h => by
    simp only [List.nil_append] at h
    unfold SourceChain at h
    exact h.2
  | _, s :: rest, _, _, h => by
    simp only [List.cons_append] at h
    unfold SourceChain at h
    exact SourceChain.suffix rest h.2

theorem SourceChain.head {g : Grid} {p : BoxPtr} {l : List BoxPtr} (h : SourceChain g p l) :
    (g.boxes p).source = l.head? := by
  cases l with
  | nil => exact h
  | cons s rest => exact h.1

theorem SourceChain.mem_source {g : Grid} : ∀ {p : BoxPtr} {l : List BoxPtr},
    SourceChain g p l → ∀ q ∈ l, ∃ r, (g.boxes r).source = some q
  | _, [], _, q, hq => by simp at hq
  | p, s :: rest, h, q, hq => by
    unfold SourceChain at h
    rcases List.mem_cons.mp hq with hq | hq
    · subst hq; exact ⟨p, h.1⟩
    · exact SourceChain.mem_source h.2 q hq

/-! ## `Step` keeps the facts about the phases -/

theorem TraceInv.transfer_trace {cfg : Config} {g g' : Grid} (hT : TraceInv cfg g)
    (hr : g'.algorithmRunning = g.algorithmRunning) (ht : g'.tracingPath = g.tracingPath)
    (hp : g'.pathBox = g.pathBox) (hb : ∀ p, g'.boxes p = g.boxes p) : TraceInv cfg g' := by
  refine ⟨hT.ne, fun h => ?_, fun h => ?_⟩
  · rw [hr] at h
    obtain ⟨a, b, c⟩ := hT.searching h
    exact ⟨ht.trans a, hp.trans b, fun p => by rw [hb]; exact c p⟩
  · rw [hr] at h
    obtain ⟨hve, done, todo, hch, hlast, hpath, hpb, hidle, hne⟩ := hT.found h
    refine ⟨by rw [hb]; exact hve, done, todo,
      SourceChain.transfer_chain (fun p => by rw [hb]) hch, hlast, fun p => by rw [hb]; exact hpath p,
      hp.trans hpb, fun h' => hidle (ht ▸ h'), hne⟩

theorem StepKind.traceInv {cfg : Config} {g g' : Grid} (hK : StepKind cfg g g')
    (hI : Inv cfg g) (hT : TraceInv cfg g) : TraceInv cfg g' := by
  have hI' := hK.inv hI
  cases hK with
  | stale top hr ht hv hg =>
    subst hg
    exact hT.transfer_trace rfl rfl rfl (fun _ => rfl)
  | goal top hr ht hv he hg =>
    subst hg
    refine ⟨hT.ne, fun h => Bool.noConfusion h, fun _ => ?_⟩
    have hve : ((goalState g top).boxes (ptrOf cfg.endCoord)).isVisited = true :=
      (goalState_visited g top _).mpr (Or.inr he.symm)
    refine ⟨hve, ?_⟩
    obtain ⟨k, hk⟩ := Int.eq_ofNat_of_zero_le (hI'.nonneg (ptrOf cfg.endCoord))
    obtain ⟨l, hl, _, _, hlast, _, _⟩ :=
      hI'.chain_exists k _ (hI'.discovered_of_visited hve) hk
    have hlne : l ≠ [] := by
      intro h
      subst h
      simp only [List.getLast?_singleton, Option.some.injEq] at hlast
      exact hT.ne hlast.symm
    refine ⟨[], l, by simpa using hl, ?_, ?_, ?_, fun h => Bool.noConfusion h, hlne⟩
    · cases l with
      | nil => exact absurd rfl hlne
      | cons s rest => rw [List.getLast?_cons_cons] at hlast; simpa using hlast
    · intro p
      have h1 : ((goalState g top).boxes p).isPath = (g.boxes p).isPath := by
        rw [goalState_boxes]; split <;> rfl
      rw [h1, (hT.searching hr).2.2 p]
      simp
    · have h1 := hl.head
      rw [goalState_source] at h1
      rw [← h1, ← he]
      rfl
  | expand top hr ht hv he hfr hbx hpq hlen =>
    obtain ⟨_, _, _, _, h5, h6, h7, _⟩ := hfr
    refine ⟨hT.ne, fun _ => ?_, fun h => ?_⟩
    · obtain ⟨a, b, c⟩ := hT.searching hr
      refine ⟨h6.trans a, h7.trans b, fun p => ?_⟩
      rw [hbx, expandedBox_isPath]; exact c p
    · rw [h5, hr] at h; exact Bool.noConfusion h
  | trace pb hs ht hp hb hg =>
    subst hg
    have hr : g.algorithmRunning = false := by
      cases h : g.algorithmRunning with
      | false => rfl
      | true =>
        have := (hT.searching h).1
        rw [ht] at this
        exact Bool.noConfusion this
    obtain ⟨hve, done, todo, hch, hlast, hpath, hpb, _, hne⟩ := hT.found hr
    cases todo with
    | nil => exact absurd rfl hne
    | cons x todo' =>
      rw [hp] at hpb
      simp only [List.head?_cons, Option.some.injEq] at hpb
      subst hpb
      have hsrc : ∀ p, ((tracedState g pb).boxes p).source = (g.boxes p).source :=
        fun p => (tracedState_same g pb p).2.2.2
      refine ⟨hT.ne, fun h => ?_, fun _ => ⟨?_, done ++ [pb], todo', ?_, ?_, ?_, ?_, ?_, ?_⟩⟩
      · have : g.algorithmRunning = true := h
        rw [hr] at this; exact Bool.noConfusion this
      · rw [(tracedState_same g pb _).2.1]; exact hve
      · rw [List.append_assoc]
        exact SourceChain.transfer_chain hsrc hch
      · rw [List.append_assoc]; exact hlast
      · intro p
        rw [tracedState_boxes]
        by_cases hpp : p = pb
        · simp [hpp]
        · rw [if_neg hpp, hpath]
          simp only [List.mem_append, List.mem_singleton, hpp, or_false]
      · exact (SourceChain.suffix done hch).head
      · intro h
        have : g.tracingPath = false := h
        rw [ht] at this; exact Bool.noConfusion this
      · intro h
        subst h
        rw [List.getLast?_append_cons, List.getLast?_singleton] at hlast
        have hps : pb = ptrOf cfg.startCoord := Option.some.inj hlast
        have := (hI.start_iff pb (hps ▸ hI.start_ok.1)).mpr hps
        rw [hb] at this
        exact Bool.noConfusion this
  | rest hs hn hg =>
    subst hg
    refine ⟨hT.ne, fun h => ?_, fun h => ?_⟩
    · obtain ⟨_, b, c⟩ := hT.searching h
      exact ⟨rfl, b, c⟩
    · obtain ⟨hve, done, todo, hch, hlast, hpath, hpb, hidle, hne⟩ := hT.found h
      have hch' : SourceChain { g with tracingPath := false } (ptrOf cfg.endCoord)
          (done ++ todo) := @SourceChain.transfer_chain g { g with tracingPath := false } (fun _ => rfl) _ _ hch
      refine ⟨hve, done, todo, hch', hlast, hpath, hpb, fun _ => ?_, hne⟩
      cases htp : g.tracingPath with
      | false => exact hidle htp
      | true =>
        cases todo with
        | nil => exact absurd rfl hne
        | cons x todo' =>
          have hpx : g.pathBox = some x := hpb
          have hxs : (g.boxes x).isStart = true := by
            cases hx : (g.boxes x).isStart with
            | true => rfl
            | false => exact absurd ⟨htp, hx⟩ (hn x hpx)
          obtain ⟨r, hr⟩ := SourceChain.mem_source hch x (by simp)
          have hx : x = ptrOf cfg.startCoord :=
            (hI.start_iff x (hI.src r x hr).2.1.1).mp hxs
          subst hx
          have h2 := (SourceChain.suffix done hch).head
          rw [hI.start_source] at h2
          cases todo' with
          | nil => rfl
          | cons y r' => simp at h2

/-! ## Runs -/

theorem StepN_add (a : Nat) : ∀ (b : Nat) (g g1 : Grid), StepN a g = some g1 →
    StepN (a + b) g = StepN b g1 := by
  induction a with
  | zero =>
    intro b g g1 h
    simp only [StepN, Option.some.injEq] at h
    subst h
    simp
  | succ a ih =>
    intro b g g1 h
    unfold StepN at h
    have hab : a + 1 + b = (a + b) + 1 := by omega
    rw [hab]
    cases hs : Step g with
    | none => rw [hs] at h; exact Option.noConfusion h
    | some g2 =>
      rw [hs] at h
      simp only at h
      have h3 : StepN (a + b + 1) g = StepN (a + b) g2 := by simp only [StepN, hs]
      rw [h3]
      exact ih b g2 g1 h

theorem StepN_succ_last {n : Nat} {g g1 g2 : Grid} (h1 : StepN n g = some g1)
    (h2 : Step g1 = some g2) : StepN (n + 1) g = some g2 := by
  rw [StepN_add n 1 g g1 h1]
  simp only [StepN, h2]

theorem StepN_one {g g1 : Grid} (h : Step g = some g1) : StepN 1 g = some g1 := by
  simp only [StepN, h]

theorem StepN_succ_first {n : Nat} {g g1 : Grid} (h : Step g = some g1) :
    StepN (n + 1) g = StepN n g1 := by
  rw [show n + 1 = 1 + n by omega, StepN_add 1 n g g1 (StepN_one h)]

theorem Valid.ptr_ne {cfg : Config} (hv : Valid cfg) :
    ptrOf cfg.startCoord ≠ ptrOf cfg.endCoord := by
  obtain ⟨h1, h2, h3, _, _⟩ := hv
  exact fun h => h3 (ptrOf_injective h1 h2 h)

theorem run_zero {cfg : Config} (hv : Valid cfg) : run cfg 0 = some (initGrid cfg) := by
  unfold run
  rw [Grid.new_eq hv.1 hv.2.1]
  rfl

theorem run_succ {cfg : Config} {n : Nat} {g g' : Grid} (h1 : run cfg n = some g)
    (h2 : Step g = some g') : run cfg (n + 1) = some g' := by
  unfold run at h1 ⊢
  cases hn : Grid.new cfg with
  | none => rw [hn] at h1; exact Option.noConfusion h1
  | some g0 =>
    rw [hn] at h1
    simp only at h1 ⊢
    exact StepN_succ_last h1 h2

theorem run_add {cfg : Config} {n : Nat} {g : Grid} (h1 : run cfg n = some g) (m : Nat) :
    run cfg (n + m) = StepN m g := by
  unfold run at h1 ⊢
  cases hn : Grid.new cfg with
  | none => rw [hn] at h1; exact Option.noConfusion h1
  | some g0 =>
    rw [hn] at h1
    simp only at h1 ⊢
    exact StepN_add n m g0 g h1

/-- Every state of a run from a valid, small configuration satisfies the invariants, and
every call of `Step` in the run returns. -/
theorem run_inv {cfg : Config} (hv : Valid cfg) (hs : Small cfg) :
    ∀ n, ∃ g, run cfg n = some g ∧ Inv cfg g ∧ TraceInv cfg g := by
  intro n
  induction n with
  | zero =>
    exact ⟨_, run_zero hv, Inv_init hv.1 hv.2.1 hv.2.2.2.1 hs, TraceInv_init cfg hv.ptr_ne⟩
  | succ n ih =>
    obtain ⟨g, hg, hI, hT⟩ := ih
    obtain ⟨g', hstep, hK⟩ := Step_cases hI
    exact ⟨g', run_succ hg hstep, hK.inv hI, hK.traceInv hI hT⟩

theorem StepN_inv {cfg : Config} : ∀ (n : Nat) (g : Grid), Inv cfg g → TraceInv cfg g →
    ∃ g', StepN n g = some g' ∧ Inv cfg g' ∧ TraceInv cfg g'
  | 0, g, hI, hT => ⟨g, rfl, hI, hT⟩
  | n + 1, g, hI, hT => by
    obtain ⟨g1, hstep, hK⟩ := Step_cases hI
    obtain ⟨g', h1, h2, h3⟩ := StepN_inv n g1 (hK.inv hI) (hK.traceInv hI hT)
    exact ⟨g', by rw [StepN_succ_first hstep]; exact h1, h2, h3⟩

/-! ## What one call changes -/

theorem StepKind.roles {cfg : Config} {g g' : Grid} (hK : StepKind cfg g g') :
    (g'.cols = g.cols ∧ g'.rows = g.rows ∧ g'.startCoord = g.startCoord ∧
      g'.endCoord = g.endCoord ∧ g'.walls = g.walls) ∧
    ∀ p, SameRoles (g.boxes p) (g'.boxes p) := by
  cases hK with
  | stale top hr ht hv hg => subst hg; exact ⟨⟨rfl, rfl, rfl, rfl, rfl⟩, fun p => sameRoles_refl _⟩
  | goal top hr ht hv he hg =>
    subst hg; exact ⟨⟨rfl, rfl, rfl, rfl, rfl⟩, fun p => goalState_roles g top p⟩
  | expand top hr ht hv he hfr hbx hpq hlen =>
    exact ⟨hfr.config, fun p => by rw [hbx]; exact expandedBox_roles cfg g top.2 p⟩
  | trace pb hs ht hp hb hg =>
    subst hg; exact ⟨⟨rfl, rfl, rfl, rfl, rfl⟩, fun p => (tracedState_same g pb p).1⟩
  | rest hs hn hg => subst hg; exact ⟨⟨rfl, rfl, rfl, rfl, rfl⟩, fun p => sameRoles_refl _⟩

theorem StepKind.visited_final {cfg : Config} {g g' : Grid} (hK : StepKind cfg g g')
    (hI : Inv cfg g) (p : BoxPtr) (hp : (g.boxes p).isVisited = true) :
    (g'.boxes p).isVisited = true ∧ (g'.boxes p).distance = (g.boxes p).distance ∧
      (g'.boxes p).source = (g.boxes p).source := by
  cases hK with
  | stale top hr ht hv hg => subst hg; exact ⟨hp, rfl, rfl⟩
  | goal top hr ht hv he hg =>
    subst hg
    exact ⟨(goalState_visited g top p).mpr (Or.inl hp), goalState_distance g top p,
      goalState_source g top p⟩
  | expand top hr ht hv he hfr hbx hpq hlen =>
    have hdisc := (hI.pq_ok top (pqTop_mem ht)).2.1
    have hnr : ¬ (Adj top.2 p ∧ Walkable cfg p ∧
        (g.boxes top.2).distance + 1 < (g.boxes p).distance) := by
      rintro ⟨h1, h2, h3⟩
      have := hI.visited_neighbor_le hdisc hp h1 h2
      omega
    refine ⟨?_, ?_, ?_⟩
    · rw [hbx]; exact (expandedBox_visited cfg g top.2 p).mpr (Or.inl hp)
    · rw [hbx, expandedBox_distance, if_neg hnr]
    · rw [hbx, expandedBox_source, if_neg hnr]
  | trace pb hs ht hp' hb hg =>
    subst hg
    obtain ⟨_, h1, h2, h3⟩ := tracedState_same g pb p
    exact ⟨h1.trans hp, h2, h3⟩
  | rest hs hn hg => subst hg; exact ⟨hp, rfl, rfl⟩

/-! ## The search phase ends -/

theorem unvisitedCount_mark {g g' : Grid} (hc : g'.cols = g.cols) (hr : g'.rows = g.rows)
    {cur : BoxPtr} (hin : cur.1 < g.cols ∧ cur.2 < g.rows)
    (hv : (g.boxes cur).isVisited = false)
    (hb : ∀ p, (g'.boxes p).isVisited = true ↔ (g.boxes p).isVisited = true ∨ p = cur) :
    unvisitedCount g' + 1 = unvisitedCount g := by
  unfold unvisitedCount
  rw [hc, hr]
  have hmem : cur ∈ (Finset.range g.cols ×ˢ Finset.range g.rows).filter
      (fun p => (g.boxes p).isVisited = false) := by
    simp only [Finset.mem_filter, Finset.mem_product, Finset.mem_range]
    exact ⟨hin, hv⟩
  have heq : (Finset.range g.cols ×ˢ Finset.range g.rows).filter
      (fun p => (g'.boxes p).isVisited = false) =
      ((Finset.range g.cols ×ˢ Finset.range g.rows).filter
        (fun p => (g.boxes p).isVisited = false)).erase cur := by
    ext p
    simp only [Finset.mem_filter, Finset.mem_product, Finset.mem_range, Finset.mem_erase]
    have h1 : (g'.boxes p).isVisited = false ↔ ¬ (g'.boxes p).isVisited = true := by
      cases (g'.boxes p).isVisited <;> simp
    have h2 : (g.boxes p).isVisited = false ↔ ¬ (g.boxes p).isVisited = true := by
      cases (g.boxes p).isVisited <;> simp
    rw [h1, h2, hb p]
    tauto
  rw [heq, Finset.card_erase_of_mem hmem]
  have := Finset.card_pos.mpr ⟨cur, hmem⟩
  omega

theorem unvisitedCount_same {g g' : Grid} (hc : g'.cols = g.cols) (hr : g'.rows = g.rows)
    (hb : ∀ p, (g'.boxes p).isVisited = (g.boxes p).isVisited) :
    unvisitedCount g' = unvisitedCount g := by
  unfold unvisitedCount
  rw [hc, hr]
  congr 1
  ext p
  simp only [Finset.mem_filter, hb]

theorem unvisitedCount_init (cfg : Config) :
    unvisitedCount (initGrid cfg) = cfg.cols * cfg.rows := by
  unfold unvisitedCount
  have : (Finset.range (initGrid cfg).cols ×ˢ Finset.range (initGrid cfg).rows).filter
      (fun p => ((initGrid cfg).boxes p).isVisited = false) =
      Finset.range cfg.cols ×ˢ Finset.range cfg.rows := by
    ext p
    simp [initGrid]
  rw [this, Finset.card_product, Finset.card_range, Finset.card_range]

theorem searchMeasure_init (cfg : Config) :
    searchMeasure (initGrid cfg) = 1 + 4 * (cfg.cols * cfg.rows) := by
  unfold searchMeasure
  rw [unvisitedCount_init]
  rfl

theorem StepKind.measure {cfg : Config} {g g' : Grid} (hK : StepKind cfg g g')
    (hI : Inv cfg g) (hs : g.algorithmRunning = true ∧ g.pq ≠ []) :
    (g'.algorithmRunning = true ∧ searchMeasure g' + 1 ≤ searchMeasure g) ∨
    (g'.algorithmRunning = false ∧ g'.tracingPath = true ∧
      searchMeasure g' + 5 ≤ searchMeasure g) := by
  cases hK with
  | stale top hr ht hv hg =>
    subst hg
    left
    refine ⟨hr, ?_⟩
    unfold searchMeasure
    have h1 := List.length_erase_of_mem (pqTop_mem ht)
    have h2 := List.length_pos_of_mem (pqTop_mem ht)
    have h3 : unvisitedCount { g with pq := g.pq.erase top } = unvisitedCount g := rfl
    simp only [h1, h3]
    omega
  | goal top hr ht hv he hg =>
    subst hg
    right
    refine ⟨rfl, rfl, ?_⟩
    unfold searchMeasure
    have h1 := List.length_erase_of_mem (pqTop_mem ht)
    have h2 := List.length_pos_of_mem (pqTop_mem ht)
    have hin := (hI.pq_ok top (pqTop_mem ht)).1.1
    unfold InB at hin
    rw [← hI.cols_eq, ← hI.rows_eq] at hin
    have h3 := @unvisitedCount_mark g (goalState g top) rfl rfl top.2 hin hv
      (goalState_visited g top)
    have h4 : (goalState g top).pq = g.pq.erase top := rfl
    rw [h4, h1]
    omega
  | expand top hr ht hv he hfr hbx hpq hlen =>
    left
    refine ⟨hfr.2.2.2.2.1.trans hr, ?_⟩
    unfold searchMeasure
    have h1 := List.length_erase_of_mem (pqTop_mem ht)
    have h2 := List.length_pos_of_mem (pqTop_mem ht)
    have hin := (hI.pq_ok top (pqTop_mem ht)).1.1
    unfold InB at hin
    rw [← hI.cols_eq, ← hI.rows_eq] at hin
    have h3 := unvisitedCount_mark hfr.1 hfr.2.1 hin hv
      (fun p => by rw [hbx]; exact expandedBox_visited cfg g top.2 p)
    rw [h1] at hlen
    omega
  | trace pb hs' ht hp hb hg => exact absurd hs hs'
  | rest hs' hn hg => exact absurd hs hs'

theorem search_terminates {cfg : Config} : ∀ (k : Nat) (g : Grid), Inv cfg g →
    TraceInv cfg g → g.algorithmRunning = true → searchMeasure g ≤ k →
    ∃ m g', StepN m g = some g' ∧ Inv cfg g' ∧ TraceInv cfg g' ∧
      (∀ j, j < m → ∃ gj, StepN j g = some gj ∧
        (gj.boxes (ptrOf cfg.endCoord)).isVisited = false) ∧
      ((g'.algorithmRunning = true ∧ g'.pq = [] ∧ m ≤ searchMeasure g) ∨
        (g'.algorithmRunning = false ∧ g'.tracingPath = true ∧ m + 4 ≤ searchMeasure g))
  | k, g, hI, hT, hr, hk => by
    by_cases hq : g.pq = []
    · exact ⟨0, g, rfl, hI, hT, fun j hj => absurd hj (Nat.not_lt_zero j),
        Or.inl ⟨hr, hq, Nat.zero_le _⟩⟩
    · obtain ⟨g1, hstep, hK⟩ := Step_cases hI
      have hI1 := hK.inv hI
      have hT1 := hK.traceInv hI hT
      have h0 : ∃ gj, StepN 0 g = some gj ∧
          (gj.boxes (ptrOf cfg.endCoord)).isVisited = false :=
        ⟨g, rfl, hI.end_unvisited hr⟩
      rcases hK.measure hI ⟨hr, hq⟩ with ⟨hr1, hm⟩ | ⟨hr1, ht1, hm⟩
      · match k, hk with
        | 0, hk => omega
        | k + 1, hk =>
          obtain ⟨m, g', h1, h2, h3, h4, h5⟩ :=
            search_terminates k g1 hI1 hT1 hr1 (by omega)
          refine ⟨m + 1, g', by rw [StepN_succ_first hstep]; exact h1, h2, h3, ?_, ?_⟩
          · intro j hj
            cases j with
            | zero => exact h0
            | succ j =>
              obtain ⟨gj, hgj, hv⟩ := h4 j (by omega)
              exact ⟨gj, by rw [StepN_succ_first hstep]; exact hgj, hv⟩
          · rcases h5 with ⟨a, b, c⟩ | ⟨a, b, c⟩
            · exact Or.inl ⟨a, b, by omega⟩
            · exact Or.inr ⟨a, b, by omega⟩
      · refine ⟨1, g1, StepN_one hstep, hI1, hT1, ?_, Or.inr ⟨hr1, ht1, by omega⟩⟩
        intro j hj
        have : j = 0 := by omega
        subst this
        exact h0

/-! ## The tracing phase ends -/

theorem TraceInv.pathBox_ok {cfg : Config} {g : Grid} (hI : Inv cfg g) (hT : TraceInv cfg g)
    (hr : g.algorithmRunning = false) :
    ∃ pb, g.pathBox = some pb ∧ Walkable cfg pb ∧ (g.boxes pb).isVisited = true := by
  obtain ⟨_, done, todo, hch, _, _, hpb, _, hne⟩ := hT.found hr
  cases todo with
  | nil => exact absurd rfl hne
  | cons x rest =>
    obtain ⟨r, hr'⟩ := SourceChain.mem_source hch x (by simp)
    obtain ⟨_, h2, h3, _⟩ := hI.src r x hr'
    exact ⟨x, hpb, h2, h3⟩

theorem trace_terminates {cfg : Config} : ∀ (k : Nat) (g : Grid) (pb : BoxPtr), Inv cfg g →
    TraceInv cfg g → g.algorithmRunning = false → g.tracingPath = true →
    g.pathBox = some pb → (g.boxes pb).distance = (k : Int) →
    ∃ g', StepN (k + 1) g = some g' ∧ Idle g' ∧ Inv cfg g' ∧ TraceInv cfg g' ∧
      g'.algorithmRunning = false ∧
      (g'.boxes (ptrOf cfg.endCoord)).distance = (g.boxes (ptrOf cfg.endCoord)).distance
  | k, g, pb, hI, hT, hr, ht, hp, hk => by
    have hs : ¬ (g.algorithmRunning = true ∧ g.pq ≠ []) := by
      rintro ⟨h, _⟩; rw [hr] at h; exact Bool.noConfusion h
    obtain ⟨pb', hp', hwk, hvis⟩ := hT.pathBox_ok hI hr
    rw [hp] at hp'
    cases hp'
    cases hst : (g.boxes pb).isStart with
    | true =>
      have hps : pb = ptrOf cfg.startCoord := (hI.start_iff pb hwk.1).mp hst
      have hk0 : k = 0 := by
        rw [hps, hI.start_dist] at hk; omega
      subst hk0
      have hn : ∀ q, g.pathBox = some q →
          ¬ (g.tracingPath = true ∧ (g.boxes q).isStart = false) := by
        intro q hq h
        rw [hp] at hq
        cases hq
        rw [hst] at h
        exact Bool.noConfusion h.2
      have hstep := Step_rest hs hn
      have hK : StepKind cfg g { g with tracingPath := false } := StepKind.rest hs hn rfl
      exact ⟨_, StepN_one hstep, ⟨rfl, Or.inl hr⟩, hK.inv hI, hK.traceInv hI hT, hr, rfl⟩
    | false =>
      have hstep := Step_trace hs hp ⟨ht, hst⟩
      have hK : StepKind cfg g (tracedState g pb) := StepKind.trace pb hs ht hp hst rfl
      have hps : pb ≠ ptrOf cfg.startCoord := by
        intro h
        have := (hI.start_iff pb hwk.1).mpr h
        rw [hst] at this
        exact Bool.noConfusion this
      have hd := hI.discovered_of_visited hvis
      cases hsrc : (g.boxes pb).source with
      | none =>
        rcases hd with hd | hd
        · exact absurd hd hps
        · exact absurd hsrc hd
      | some s =>
        obtain ⟨_, _, _, _, _, hdist⟩ := hI.src pb s hsrc
        have hns := hI.nonneg s
        match k, hk with
        | 0, hk => simp only [Nat.cast_zero] at hk; omega
        | k + 1, hk =>
          have hks : ((tracedState g pb).boxes s).distance = (k : Int) := by
            rw [(tracedState_same g pb s).2.2.1]
            simp only [Nat.cast_add, Nat.cast_one] at hk
            omega
          have hp1 : (tracedState g pb).pathBox = some s := hsrc
          obtain ⟨g', h1, h2, h3, h4, h5, h6⟩ :=
            trace_terminates k (tracedState g pb) s (hK.inv hI) (hK.traceInv hI hT) hr ht
              hp1 hks
          refine ⟨g', by rw [StepN_succ_first hstep]; exact h1, h2, h3, h4, h5, ?_⟩
          rw [h6, (tracedState_same g pb _).2.2.1]

/-! ## Further lemmas on runs -/

theorem StepN_of_Idle {g : Grid} (h : Idle g) : ∀ m, StepN m g = some g
  | 0 => rfl
  | m + 1 => by rw [StepN_succ_first (Step_of_Idle g h)]; exact StepN_of_Idle h m

theorem run_idle_stays {cfg : Config} {n : Nat} {g : Grid} (h1 : run cfg n = some g)
    (h2 : Idle g) (m : Nat) : run cfg (n + m) = some g := by
  rw [run_add h1 m]; exact StepN_of_Idle h2 m

theorem StepN_visited_final {cfg : Config} : ∀ (m : Nat) (g : Grid), Inv cfg g →
    ∃ gm, StepN m g = some gm ∧ ∀ p, (g.boxes p).isVisited = true →
      (gm.boxes p).isVisited = true ∧ (gm.boxes p).distance = (g.boxes p).distance ∧
        (gm.boxes p).source = (g.boxes p).source
  | 0, g, _ => ⟨g, rfl, fun _ hp => ⟨hp, rfl, rfl⟩⟩
  | m + 1, g, hI => by
    obtain ⟨g1, hstep, hK⟩ := Step_cases hI
    obtain ⟨gm, h1, h2⟩ := StepN_visited_final m g1 (hK.inv hI)
    refine ⟨gm, by rw [StepN_succ_first hstep]; exact h1, fun p hp => ?_⟩
    obtain ⟨a, b, c⟩ := hK.visited_final hI p hp
    obtain ⟨a', b', c'⟩ := h2 p a
    exact ⟨a', b'.trans b, c'.trans c⟩

theorem Inv.end_dist_pos {cfg : Config} {g : Grid} (hI : Inv cfg g)
    (hne : ptrOf cfg.startCoord ≠ ptrOf cfg.endCoord) :
    1 ≤ (g.boxes (ptrOf cfg.endCoord)).distance := by
  cases hsrc : (g.boxes (ptrOf cfg.endCoord)).source with
  | none =>
    have hnd : ¬ Discovered cfg g (ptrOf cfg.endCoord) := by
      rintro (h | h)
      · exact hne h.symm
      · exact h hsrc
    rw [(hI.undiscovered _ hnd).1]
    unfold INT_MAX
    omega
  | some s =>
    have := (hI.src _ s hsrc).2.2.2.2.2
    have := hI.nonneg s
    omega

theorem TraceInv.chain {cfg : Config} {g : Grid} (hI : Inv cfg g) (hT : TraceInv cfg g)
    (hr : g.algorithmRunning = false) :
    ∃ done todo, SourceChain g (ptrOf cfg.endCoord) (done ++ todo) ∧
      ((done ++ todo).length : Int) = (g.boxes (ptrOf cfg.endCoord)).distance ∧
      (∀ q ∈ done ++ todo, (g.boxes q).distance < (g.boxes (ptrOf cfg.endCoord)).distance) ∧
      List.Chain' Adj (ptrOf cfg.endCoord :: (done ++ todo)) ∧
      (ptrOf cfg.endCoord :: (done ++ todo)).Nodup ∧
      (∀ p, (g.boxes p).isPath = true ↔ p ∈ done) ∧ g.pathBox = todo.head? ∧
      (g.tracingPath = false → todo = [ptrOf cfg.startCoord]) ∧ todo ≠ [] := by
  obtain ⟨hve, done, todo, hch, _, hpath, hpb, hidle, hne⟩ := hT.found hr
  obtain ⟨k, hk⟩ := Int.eq_ofNat_of_zero_le (hI.nonneg (ptrOf cfg.endCoord))
  obtain ⟨l, hl, hlen, hall, _, hadj, hnd⟩ :=
    hI.chain_exists k _ (hI.discovered_of_visited hve) hk
  have := SourceChain.unique hl hch
  subst this
  exact ⟨done, todo, hch, by rw [hlen, hk], fun q hq => (hall q hq).1, hadj, hnd, hpath, hpb,
    hidle, hne⟩

/-! ## Optimality of the cost of the end cell -/

/-- C1: when the end cell can be reached from the start cell by a wall-avoiding 4-connected
path, some call of `Step` marks the end cell visited, no earlier state of the run has it
visited, and in the state after that call the `distance` of the end cell is the length of a
shortest such path. -/
theorem end_cost_is_shortest (cfg : Config) (hv : Valid cfg) (hs : Small cfg)
    (hreach : ∃ l, Walk cfg (ptrOf cfg.startCoord) l (ptrOf cfg.endCoord)) :
    ∃ n g, run cfg n = some g ∧ (g.boxes (ptrOf cfg.endCoord)).isVisited = true ∧
      (∀ j, j < n → ∃ gj, run cfg j = some gj ∧
        (gj.boxes (ptrOf cfg.endCoord)).isVisited = false) ∧
      ShortestLen cfg (ptrOf cfg.startCoord) (ptrOf cfg.endCoord)
        (g.boxes (ptrOf cfg.endCoord)).distance := by
  have h0 := run_zero hv
  have hI0 := Inv_init hv.1 hv.2.1 hv.2.2.2.1 hs
  have hT0 := TraceInv_init cfg hv.ptr_ne
  obtain ⟨m, g, hrun, hI, hT, hbefore, hend⟩ :=
    search_terminates (searchMeasure (initGrid cfg)) (initGrid cfg) hI0 hT0 rfl (le_refl _)
  have hrun' : run cfg m = some g := by
    have := run_add h0 m
    rw [Nat.zero_add] at this
    rw [this]; exact hrun
  rcases hend with ⟨hr, hq, _⟩ | ⟨hr, _, _⟩
  · exfalso
    obtain ⟨l, hl⟩ := hreach
    obtain ⟨f, x, hf, _, _⟩ :=
      hI.frontier hr _ (hI.end_unvisited hr) l _ hl (Or.inl rfl)
    rw [hq] at hf
    exact List.not_mem_nil _ hf
  · obtain ⟨hve, _⟩ := hT.found hr
    refine ⟨m, g, hrun', hve, ?_, ?_, ?_⟩
    · intro j hj
      obtain ⟨gj, hgj, hvj⟩ := hbefore j hj
      refine ⟨gj, ?_, hvj⟩
      have := run_add h0 j
      rw [Nat.zero_add] at this
      rw [this]; exact hgj
    · obtain ⟨k, hk⟩ := Int.eq_ofNat_of_zero_le (hI.nonneg (ptrOf cfg.endCoord))
      obtain ⟨l, hl, hlen⟩ := hI.walk_exists k _ (hI.discovered_of_visited hve) hk
      exact ⟨l, hl, by rw [hlen, hk]⟩
    · exact hI.optimal _ hve

/-- The claim C1 on a one-column grid of three cells. -/
theorem end_cost_is_shortest_witness :
    ∃ n g, run tiny n = some g ∧ (g.boxes (ptrOf tiny.endCoord)).isVisited = true ∧
      (∀ j, j < n → ∃ gj, run tiny j = some gj ∧
        (gj.boxes (ptrOf tiny.endCoord)).isVisited = false) ∧
      ShortestLen tiny (ptrOf tiny.startCoord) (ptrOf tiny.endCoord)
        (g.boxes (ptrOf tiny.endCoord)).distance :=
  end_cost_is_shortest tiny (by decide) (by decide) ⟨[(0, 1), (0, 2)], by decide⟩

/-! ## Finality of the cost of a visited cell -/

/-- C4: in every state of a run, whatever number of further `Step` calls is made, every cell
that is visited keeps its `distance` and its `source` (and stays visited). -/
theorem visited_cost_is_final (cfg : Config) (hv : Valid cfg) (hs : Small cfg) (n m : Nat) :
    ∃ g gm, run cfg n = some g ∧ StepN m g = some gm ∧
      ∀ p, (g.boxes p).isVisited = true →
        (gm.boxes p).isVisited = true ∧ (gm.boxes p).distance = (g.boxes p).distance ∧
          (gm.boxes p).source = (g.boxes p).source := by
  obtain ⟨g, hg, hI, _⟩ := run_inv hv hs n
  obtain ⟨gm, h1, h2⟩ := StepN_visited_final m g hI
  exact ⟨g, gm, hg, h1, h2⟩

/-- The claim C4 on a one-column grid of three cells, two calls after the first two. -/
theorem visited_cost_is_final_witness :
    ∃ g gm, run tiny 2 = some g ∧ StepN 2 g = some gm ∧
      ∀ p, (g.boxes p).isVisited = true →
        (gm.boxes p).isVisited = true ∧ (gm.boxes p).distance = (g.boxes p).distance ∧
          (gm.boxes p).source = (g.boxes p).source :=
  visited_cost_is_final tiny (by decide) (by decide) 2 2

/-! ## The predecessor chain -/

/-- C5: in every state of a run, following `source` from a visited cell passes through a
finite list of cells without repetition and stops on the start cell, whose `source` is
null. -/
theorem predecessor_chain_reaches_start (cfg : Config) (hv : Valid cfg) (hs : Small cfg)
    (n : Nat) :
    ∃ g, run cfg n = some g ∧ ∀ p, (g.boxes p).isVisited = true →
      ∃ l, SourceChain g p l ∧ (p :: l).Nodup ∧
        (p :: l).getLast? = some (ptrOf cfg.startCoord) ∧
        (g.boxes (ptrOf cfg.startCoord)).source = none := by
  obtain ⟨g, hg, hI, _⟩ := run_inv hv hs n
  refine ⟨g, hg, fun p hp => ?_⟩
  obtain ⟨k, hk⟩ := Int.eq_ofNat_of_zero_le (hI.nonneg p)
  obtain ⟨l, hl, _, _, hlast, _, hnd⟩ := hI.chain_exists k p (hI.discovered_of_visited hp) hk
  exact ⟨l, hl, hnd, hlast, hI.start_source⟩

/-- The claim C5 on a one-column grid of three cells, after three calls. -/
theorem predecessor_chain_reaches_start_witness :
    ∃ g, run tiny 3 = some g ∧ ∀ p, (g.boxes p).isVisited = true →
      ∃ l, SourceChain g p l ∧ (p :: l).Nodup ∧
        (p :: l).getLast? = some (ptrOf tiny.startCoord) ∧
        (g.boxes (ptrOf tiny.startCoord)).source = none :=
  predecessor_chain_reaches_start tiny (by decide) (by decide) 3

/-! ## The traced path -/

/-- C2, as stated, fails: on the one-column grid of three cells the run is Idle after five
calls with the end cell visited at distance 2, and no list of cells that starts on the end
cell and ends on the start cell is the set of cells with `isPath = true` (the end cell is
not marked), whatever its length. -/
theorem traced_path_counterexample :
    ∃ g, run tiny 5 = some g ∧ Idle g ∧ (g.boxes (ptrOf tiny.endCoord)).isVisited = true ∧
      (g.boxes (ptrOf tiny.endCoord)).distance = 2 ∧
      ¬ ∃ chain : List BoxPtr, chain.head? = some (ptrOf tiny.endCoord) ∧
        chain.getLast? = some (ptrOf tiny.startCoord) ∧ List.Chain' Adj chain ∧
        (∀ p, p ∈ chain ↔ (g.boxes p).isPath = true) ∧
        (chain.length : Int) = (g.boxes (ptrOf tiny.endCoord)).distance + 1 := by
  have h : (run tiny 5).map (fun g => (decide (Idle g),
      (g.boxes (ptrOf tiny.endCoord)).isVisited, (g.boxes (ptrOf tiny.endCoord)).distance,
      (g.boxes (ptrOf tiny.endCoord)).isPath)) = some (true, true, 2, false) := by decide
  cases hg : run tiny 5 with
  | none => rw [hg] at h; exact absurd h (by simp)
  | some g =>
    rw [hg] at h
    simp only [Option.map_some', Option.some.injEq, Prod.mk.injEq, decide_eq_true_eq] at h
    obtain ⟨h1, h2, h3, h4⟩ := h
    refine ⟨g, rfl, h1, h2, h3, ?_⟩
    rintro ⟨chain, hh, _, _, hmem, _⟩
    have : ptrOf tiny.endCoord ∈ chain := List.mem_of_mem_head? hh
    rw [(hmem _).mp this] at h4
    exact Bool.noConfusion h4

/-- C2, amended: in every state of a run that is Idle with the end cell visited, the cells
with `isPath = true` are exactly the cells strictly between the end cell and the start cell on
the predecessor chain of the end cell; the chain made of the end cell, these cells and the
start cell is 4-connected, has no repetition and has `distance(end) + 1` cells. -/
theorem traced_path_is_chain_interior (cfg : Config) (hv : Valid cfg) (hs : Small cfg)
    (n : Nat) :
    ∃ g, run cfg n = some g ∧
      (Idle g → (g.boxes (ptrOf cfg.endCoord)).isVisited = true →
        ∃ inner : List BoxPtr,
          SourceChain g (ptrOf cfg.endCoord) (inner ++ [ptrOf cfg.startCoord]) ∧
          List.Chain' Adj (ptrOf cfg.endCoord :: (inner ++ [ptrOf cfg.startCoord])) ∧
          (ptrOf cfg.endCoord :: (inner ++ [ptrOf cfg.startCoord])).Nodup ∧
          (((ptrOf cfg.endCoord :: (inner ++ [ptrOf cfg.startCoord])).length : Nat) : Int) =
            (g.boxes (ptrOf cfg.endCoord)).distance + 1 ∧
          ∀ p, (g.boxes p).isPath = true ↔ p ∈ inner) := by
  obtain ⟨g, hg, hI, hT⟩ := run_inv hv hs n
  refine ⟨g, hg, fun hidle hve => ?_⟩
  have hr : g.algorithmRunning = false := by
    cases h : g.algorithmRunning with
    | false => rfl
    | true =>
      have := hI.end_unvisited h
      rw [hve] at this
      exact Bool.noConfusion this
  obtain ⟨done, todo, hch, hlen, _, hadj, hnd, hpath, _, htodo, _⟩ := hT.chain hI hr
  have := htodo hidle.1
  subst this
  refine ⟨done, hch, hadj, hnd, ?_, hpath⟩
  simp only [List.length_cons, Nat.cast_add, Nat.cast_one]
  omega

/-- The amended claim C2 on a one-column grid of three cells, after five calls. -/
theorem traced_path_is_chain_interior_witness :
    ∃ g, run tiny 5 = some g ∧
      (Idle g → (g.boxes (ptrOf tiny.endCoord)).isVisited = true →
        ∃ inner : List BoxPtr,
          SourceChain g (ptrOf tiny.endCoord) (inner ++ [ptrOf tiny.startCoord]) ∧
          List.Chain' Adj (ptrOf tiny.endCoord :: (inner ++ [ptrOf tiny.startCoord])) ∧
          (ptrOf tiny.endCoord :: (inner ++ [ptrOf tiny.startCoord])).Nodup ∧
          (((ptrOf tiny.endCoord :: (inner ++ [ptrOf tiny.startCoord])).length : Nat) : Int) =
            (g.boxes (ptrOf tiny.endCoord)).distance + 1 ∧
          ∀ p, (g.boxes p).isPath = true ↔ p ∈ inner) :=
  traced_path_is_chain_interior tiny (by decide) (by decide) 5

/-! ## Termination -/

/-- The number of cells plus the final distance of the end cell does not bound the run of
every configuration: on the 3 × 6 grid `detour`, which is not the configuration of the
source, the run is Idle after 27 calls, with the end cell at distance 8, and after none of
the first `3 * 6 + 8 = 26` calls. -/
theorem detour_exceeds_cell_bound :
    ∃ g, run detour 27 = some g ∧ Idle g ∧ (g.boxes (ptrOf detour.endCoord)).distance = 8 ∧
      ∀ n, n ≤ detour.cols * detour.rows + 8 → ∃ gn, run detour n = some gn ∧ ¬ Idle gn := by
  have h27 : (run detour 27).map (fun g => (decide (Idle g),
      (g.boxes (ptrOf detour.endCoord)).distance)) = some (true, 8) := by decide!
  have h26 : (run detour 26).map (fun g => decide (Idle g)) = some false := by decide!
  cases hg : run detour 27 with
  | none => rw [hg] at h27; exact absurd h27 (by simp)
  | some g =>
    rw [hg] at h27
    simp only [Option.map_some', Option.some.injEq, Prod.mk.injEq, decide_eq_true_eq] at h27
    refine ⟨g, rfl, h27.1, h27.2, fun n hn => ?_⟩
    obtain ⟨gn, hgn, _, _⟩ := @run_inv detour (by decide) (by decide) n
    refine ⟨gn, hgn, fun hidle => ?_⟩
    have hn' : n ≤ 26 := hn
    have := run_idle_stays hgn hidle (26 - n)
    rw [show n + (26 - n) = 26 by omega] at this
    rw [this] at h26
    simp only [Option.map_some', Option.some.injEq, decide_eq_false_iff_not] at h26
    exact h26 hidle

/-- For every valid configuration the run reaches the Idle phase, stays in it, and the number
`n` of calls made until then is at most four times the number of cells plus the final
distance of the end cell. -/
theorem termination_bound_any_config (cfg : Config) (hv : Valid cfg) (hs : Small cfg) :
    ∃ n g, run cfg n = some g ∧ Idle g ∧ (∀ m, run cfg (n + m) = some g) ∧
      (n : Int) ≤ 4 * ((cfg.cols : Int) * cfg.rows) +
        (g.boxes (ptrOf cfg.endCoord)).distance := by
  have h0 := run_zero hv
  have hI0 := Inv_init hv.1 hv.2.1 hv.2.2.2.1 hs
  have hT0 := TraceInv_init cfg hv.ptr_ne
  obtain ⟨m, g, hrun, hI, hT, _, hend⟩ :=
    search_terminates (searchMeasure (initGrid cfg)) (initGrid cfg) hI0 hT0 rfl (le_refl _)
  rw [searchMeasure_init] at hend
  have hrun' : run cfg m = some g := by
    have := run_add h0 m
    rw [Nat.zero_add] at this
    rw [this]; exact hrun
  rcases hend with ⟨hr, hq, hm⟩ | ⟨hr, ht, hm⟩
  · have hidle : Idle g := ⟨(hT.searching hr).1, Or.inr hq⟩
    refine ⟨m, g, hrun', hidle, run_idle_stays hrun' hidle, ?_⟩
    have := hI.end_dist_pos hv.ptr_ne
    have hm' : (m : Int) ≤ 1 + 4 * ((cfg.cols : Int) * cfg.rows) := by exact_mod_cast hm
    omega
  · obtain ⟨pb, hpb, _, hvis⟩ := hT.pathBox_ok hI hr
    obtain ⟨k, hk⟩ := Int.eq_ofNat_of_zero_le (hI.nonneg pb)
    obtain ⟨g', h1, h2, _, _, _, h6⟩ := trace_terminates k g pb hI hT hr ht hpb hk
    have hrun2 : run cfg (m + (k + 1)) = some g' := by rw [run_add hrun' (k + 1)]; exact h1
    refine ⟨m + (k + 1), g', hrun2, h2, run_idle_stays hrun2 h2, ?_⟩
    obtain ⟨done, todo, _, _, hlt, _, _, _, hhead, _, hne⟩ := hT.chain hI hr
    have hmem : pb ∈ done ++ todo := by
      cases todo with
      | nil => exact absurd rfl hne
      | cons x rest =>
        rw [hpb] at hhead
        simp only [List.head?_cons, Option.some.injEq] at hhead
        subst hhead
        simp
    have hlt' := hlt pb hmem
    have hm' : ((m : Nat) : Int) + 4 ≤ 1 + 4 * ((cfg.cols : Int) * cfg.rows) := by
      exact_mod_cast hm
    rw [h6]
    push_cast
    omega

/-- The bound for every valid configuration, on the grid `detour`. -/
theorem termination_bound_on_detour :
    ∃ n g, run detour n = some g ∧ Idle g ∧ (∀ m, run detour (n + m) = some g) ∧
      (n : Int) ≤ 4 * ((detour.cols : Int) * detour.rows) +
        (g.boxes (ptrOf detour.endCoord)).distance :=
  termination_bound_any_config detour (by decide) (by decide)

/-! ## Construction -/

/-- C7, as stated, fails: the constructor builds a grid when the start and end coordinates
coincide, and when the start coordinate is a wall. -/
theorem construction_counterexample :
    (∃ g, Grid.new sameCell = some g ∧ sameCell.startCoord = sameCell.endCoord) ∧
    (∃ g, Grid.new startOnWall = some g ∧ startOnWall.startCoord ∈ startOnWall.walls ∧
      (g.boxes (ptrOf startOnWall.startCoord)).isWall = true ∧
      (g.boxes (ptrOf startOnWall.startCoord)).isStart = true) := by
  refine ⟨⟨_, Grid.new_eq (by decide) (by decide), rfl⟩,
    ⟨_, Grid.new_eq (by decide) (by decide), by decide, by decide, by decide⟩⟩

/-- C7, amended: the constructor makes no check of its configuration; whenever the start and
the end coordinate are inside the grid it builds a grid, whether or not the two coincide or
lie on walls, with `isStart` set on the start cell, `isEnd` on the end cell and `isWall` on
exactly the in-bounds wall coordinates. -/
theorem construction_succeeds_in_bounds (cfg : Config)
    (hs : CoordIn cfg.cols cfg.rows cfg.startCoord)
    (he : CoordIn cfg.cols cfg.rows cfg.endCoord) :
    ∃ g, Grid.new cfg = some g ∧ (g.boxes (ptrOf cfg.startCoord)).isStart = true ∧
      (g.boxes (ptrOf cfg.endCoord)).isEnd = true ∧
      ∀ p, InB cfg p → ((g.boxes p).isWall = true ↔ WallAt cfg p) := by
  refine ⟨initGrid cfg, Grid.new_eq hs he, by simp [initGrid], by simp [initGrid], ?_⟩
  intro p hp
  simp only [initGrid, decide_eq_true_eq]
  exact wall_exists_iff hp

/-- The amended claim C7 on a grid whose start coordinate is a wall. -/
theorem construction_succeeds_in_bounds_witness :
    ∃ g, Grid.new startOnWall = some g ∧
      (g.boxes (ptrOf startOnWall.startCoord)).isStart = true ∧
      (g.boxes (ptrOf startOnWall.endCoord)).isEnd = true ∧
      ∀ p, InB startOnWall p → ((g.boxes p).isWall = true ↔ WallAt startOnWall p) :=
  construction_succeeds_in_bounds startOnWall (by decide) (by decide)

/-- C8, as stated, fails: on the one-column grid of three cells the only frontier entry after
construction has priority 0, while `CalculateHeuristic` of the start cell is 2. -/
theorem frontier_seed_counterexample :
    ∃ g, Grid.new tiny = some g ∧ g.pq = [(0, ptrOf tiny.startCoord)] ∧
      CalculateHeuristic g (ptrOf tiny.startCoord) = some 2 := by
  refine ⟨_, Grid.new_eq (by decide) (by decide), rfl, ?_⟩
  decide

/-- C8, amended: immediately after construction the frontier holds exactly one entry, the
start cell with priority 0 (its `distance`, without the heuristic term). -/
theorem frontier_seed (cfg : Config) (hs : CoordIn cfg.cols cfg.rows cfg.startCoord)
    (he : CoordIn cfg.cols cfg.rows cfg.endCoord) :
    ∃ g, Grid.new cfg = some g ∧ g.pq = [(0, ptrOf cfg.startCoord)] ∧
      (g.boxes (ptrOf cfg.startCoord)).distance = 0 :=
  ⟨initGrid cfg, Grid.new_eq hs he, rfl, by simp [initGrid]⟩

/-- The amended claim C8 on the configuration of the program. -/
theorem frontier_seed_witness :
    ∃ g, Grid.new programConfig = some g ∧ g.pq = [(0, ptrOf programConfig.startCoord)] ∧
      (g.boxes (ptrOf programConfig.startCoord)).distance = 0 :=
  frontier_seed programConfig (by decide) (by decide)

/-! ## Fields that no call of `Step` writes, in any state -/

theorem sameRoles_trans {a b c : Box} (h1 : SameRoles a b) (h2 : SameRoles b c) :
    SameRoles a c := by
  obtain ⟨a1, a2, a3, a4, a5⟩ := h1
  obtain ⟨b1, b2, b3, b4, b5⟩ := h2
  exact ⟨b1.trans a1, b2.trans a2, b3.trans a3, b4.trans a4, b5.trans a5⟩

theorem relax_roles {cur n : BoxPtr} {g g' : Grid} (h : relax cur g n = some g') :
    ∀ p, SameRoles (g.boxes p) (g'.boxes p) := by
  unfold relax at h
  split at h
  · exact Option.noConfusion h
  · split at h
    · exact Option.noConfusion h
    · split at h
      · exact Option.noConfusion h
      · split at h
        · cases h
          intro p
          simp only [Function.update_apply]
          split
          · rename_i hp; subst hp; exact ⟨rfl, rfl, rfl, rfl, rfl⟩
          · exact sameRoles_refl _
        · cases h
          exact fun p => sameRoles_refl _

theorem relaxAll_roles {cur : BoxPtr} : ∀ (l : List BoxPtr) {g g' : Grid},
    relaxAll cur l g = some g' → ∀ p, SameRoles (g.boxes p) (g'.boxes p)
  | [], g, g', h => by
    simp only [relaxAll, Option.some.injEq] at h
    subst h
    exact fun p => sameRoles_refl _
  | n :: rest, g, g', h => by
    unfold relaxAll at h
    split at h
    · exact Option.noConfusion h
    · rename_i g1 h1
      intro p
      exact sameRoles_trans (relax_roles h1 p) (relaxAll_roles rest h p)

theorem Step_roles {g g' : Grid} (h : Step g = some g') :
    ∀ p, SameRoles (g.boxes p) (g'.boxes p) := by
  by_cases hs : g.algorithmRunning = true ∧ g.pq ≠ []
  · obtain ⟨top, ht⟩ := pqTop_of_ne_nil g.rows hs.2
    rw [Step_searching hs.1 hs.2 ht] at h
    have hvisit : ∀ p, SameRoles (g.boxes p)
        (Function.update g.boxes top.2 { g.boxes top.2 with isVisited := true } p) := by
      intro p
      simp only [Function.update_apply]
      split
      · rename_i hp; subst hp; exact ⟨rfl, rfl, rfl, rfl, rfl⟩
      · exact sameRoles_refl _
    split at h
    · cases h; exact fun p => sameRoles_refl _
    · split at h
      · cases h; exact hvisit
      · intro p
        exact sameRoles_trans (hvisit p) (relaxAll_roles _ h p)
  · rw [Step_not_searching hs] at h
    split at h
    · split at h
      · cases h; exact fun p => (tracedState_same g _ p).1
      · cases h; exact fun p => sameRoles_refl _
    · cases h; exact fun p => sameRoles_refl _

/-! ## Roles and walls -/

/-- C9: in every state of a run (after construction and after any number of `Step` calls)
exactly one cell has `isStart`, exactly one has `isEnd`, the two are distinct, neither is a
wall, and the next call of `Step` returns; and a call of `Step`, in any state whatever,
returns a state with the same `isStart`, `isEnd`, `isWall`, `gridX` and `gridY` in every
cell. -/
theorem roles_are_fixed (cfg : Config) (hv : Valid cfg) (hs : Small cfg) (n : Nat) :
    (∃ g g', run cfg n = some g ∧ Step g = some g' ∧
      (∃! p, InB cfg p ∧ (g.boxes p).isStart = true) ∧
      (∃! p, InB cfg p ∧ (g.boxes p).isEnd = true) ∧
      (∀ p q, InB cfg p → InB cfg q → (g.boxes p).isStart = true → (g.boxes q).isEnd = true →
        p ≠ q ∧ (g.boxes p).isWall = false ∧ (g.boxes q).isWall = false)) ∧
    ∀ g g' : Grid, Step g = some g' → ∀ p, SameRoles (g.boxes p) (g'.boxes p) := by
  refine ⟨?_, fun g g' h => Step_roles h⟩
  obtain ⟨g, hg, hI, _⟩ := run_inv hv hs n
  obtain ⟨g', hstep, _⟩ := Step_cases hI
  have hsin : InB cfg (ptrOf cfg.startCoord) := ptrOf_inB hI.coord_start
  have hein : InB cfg (ptrOf cfg.endCoord) := ptrOf_inB hI.coord_end
  have hnw : ∀ p, InB cfg p → ¬ WallAt cfg p → (g.boxes p).isWall = false := by
    intro p hp hw
    cases h : (g.boxes p).isWall with
    | false => rfl
    | true => exact absurd ((hI.wall_iff p hp).mp h) hw
  refine ⟨g, g', hg, hstep, ?_, ?_, ?_⟩
  · exact ⟨_, ⟨hsin, (hI.start_iff _ hsin).mpr rfl⟩,
      fun q hq => (hI.start_iff q hq.1).mp hq.2⟩
  · exact ⟨_, ⟨hein, (hI.end_iff _ hein).mpr rfl⟩, fun q hq => (hI.end_iff q hq.1).mp hq.2⟩
  · intro p q hp hq h1 h2
    have hps := (hI.start_iff p hp).mp h1
    have hqe := (hI.end_iff q hq).mp h2
    subst hps
    subst hqe
    exact ⟨hv.ptr_ne, hnw _ hp hI.start_ok.2,
      hnw _ hq (fun h => hv.2.2.2.2 ((wallAt_ptrOf hI.coord_end).mp h))⟩

/-- The claim C9 on the configuration of the program, after construction. -/
theorem roles_are_fixed_witness :
    (∃ g g', run programConfig 0 = some g ∧ Step g = some g' ∧
      (∃! p, InB programConfig p ∧ (g.boxes p).isStart = true) ∧
      (∃! p, InB programConfig p ∧ (g.boxes p).isEnd = true) ∧
      (∀ p q, InB programConfig p → InB programConfig q → (g.boxes p).isStart = true →
        (g.boxes q).isEnd = true →
        p ≠ q ∧ (g.boxes p).isWall = false ∧ (g.boxes q).isWall = false)) ∧
    ∀ g g' : Grid, Step g = some g' → ∀ p, SameRoles (g.boxes p) (g'.boxes p) :=
  roles_are_fixed programConfig (by decide) (by decide) 0

/-- C10: in every state of a run every wall cell still has `distance = INT_MAX`, a null
`source`, `isVisited = false` and `isPath = false`, and every frontier entry refers to a cell
inside the grid that is not a wall. -/
theorem walls_are_inert (cfg : Config) (hv : Valid cfg) (hs : Small cfg) (n : Nat) :
    ∃ g, run cfg n = some g ∧
      (∀ p, InB cfg p → (g.boxes p).isWall = true →
        (g.boxes p).distance = INT_MAX ∧ (g.boxes p).source = none ∧
          (g.boxes p).isVisited = false ∧ (g.boxes p).isPath = false) ∧
      ∀ e ∈ g.pq, InB cfg e.2 ∧ (g.boxes e.2).isWall = false := by
  obtain ⟨g, hg, hI, hT⟩ := run_inv hv hs n
  refine ⟨g, hg, ?_, ?_⟩
  · intro p hp hw
    have hwall : WallAt cfg p := (hI.wall_iff p hp).mp hw
    have hnd : ¬ Discovered cfg g p := fun h => (hI.walkable_of_discovered h).2 hwall
    obtain ⟨h1, h2⟩ := hI.undiscovered p hnd
    have h3 : (g.boxes p).source = none := by
      cases h : (g.boxes p).source with
      | none => rfl
      | some s => exact absurd (Or.inr (by rw [h]; exact Option.noConfusion)) hnd
    refine ⟨h1, h3, h2, ?_⟩
    cases hpath : (g.boxes p).isPath with
    | false => rfl
    | true =>
      exfalso
      cases hr : g.algorithmRunning with
      | true =>
        have := (hT.searching hr).2.2 p
        rw [hpath] at this
        exact Bool.noConfusion this
      | false =>
        obtain ⟨_, done, todo, hch, _, hmem, _⟩ := hT.found hr
        have hpd : p ∈ done ++ todo := List.mem_append_left _ ((hmem p).mp hpath)
        obtain ⟨r, hr'⟩ := SourceChain.mem_source hch p hpd
        exact (hI.src r p hr').2.1.2 hwall
  · intro e he
    obtain ⟨hw, _, _⟩ := hI.pq_ok e he
    refine ⟨hw.1, ?_⟩
    cases h : (g.boxes e.2).isWall with
    | false => rfl
    | true => exact absurd ((hI.wall_iff e.2 hw.1).mp h) hw.2

/-- The claim C10 on the configuration of the program, after four calls. -/
theorem walls_are_inert_witness :
    ∃ g, run programConfig 4 = some g ∧
      (∀ p, InB programConfig p → (g.boxes p).isWall = true →
        (g.boxes p).distance = INT_MAX ∧ (g.boxes p).source = none ∧
          (g.boxes p).isVisited = false ∧ (g.boxes p).isPath = false) ∧
      ∀ e ∈ g.pq, InB programConfig e.2 ∧ (g.boxes e.2).isWall = false :=
  walls_are_inert programConfig (by decide) (by decide) 4

/-! ## Per-cell monotonicity, in any state -/

theorem boxMono_refl (b : Box) : BoxMono b b := ⟨id, id, le_refl _⟩

theorem boxMono_trans {a b c : Box} (h1 : BoxMono a b) (h2 : BoxMono b c) : BoxMono a c :=
  ⟨fun h => h2.1 (h1.1 h), fun h => h2.2.1 (h1.2.1 h), le_trans h2.2.2 h1.2.2⟩

theorem relax_mono {cur n : BoxPtr} {g g' : Grid} (h : relax cur g n = some g') :
    ∀ p, BoxMono (g.boxes p) (g'.boxes p) := by
  unfold relax at h
  split at h
  · exact Option.noConfusion h
  · split at h
    · exact Option.noConfusion h
    · split at h
      · exact Option.noConfusion h
      · split at h
        · rename_i hlt
          cases h
          intro p
          simp only [Function.update_apply]
          split
          · rename_i hp; subst hp; exact ⟨id, id, le_of_lt hlt⟩
          · exact boxMono_refl _
        · cases h
          exact fun p => boxMono_refl _

theorem relaxAll_mono {cur : BoxPtr} : ∀ (l : List BoxPtr) {g g' : Grid},
    relaxAll cur l g = some g' → ∀ p, BoxMono (g.boxes p) (g'.boxes p)
  | [], g, g', h => by
    simp only [relaxAll, Option.some.injEq] at h
    subst h
    exact fun p => boxMono_refl _
  | n :: rest, g, g', h => by
    unfold relaxAll at h
    split at h
    · exact Option.noConfusion h
    · rename_i g1 h1
      intro p
      exact boxMono_trans (relax_mono h1 p) (relaxAll_mono rest h p)

theorem Step_mono {g g' : Grid} (h : Step g = some g') :
    ∀ p, BoxMono (g.boxes p) (g'.boxes p) := by
  by_cases hs : g.algorithmRunning = true ∧ g.pq ≠ []
  · obtain ⟨top, ht⟩ := pqTop_of_ne_nil g.rows hs.2
    rw [Step_searching hs.1 hs.2 ht] at h
    have hvisit : ∀ p, BoxMono (g.boxes p)
        (Function.update g.boxes top.2 { g.boxes top.2 with isVisited := true } p) := by
      intro p
      simp only [Function.update_apply]
      split
      · rename_i hp; subst hp; exact ⟨fun _ => rfl, id, le_refl _⟩
      · exact boxMono_refl _
    split at h
    · cases h; exact fun p => boxMono_refl _
    · split at h
      · cases h; exact hvisit
      · intro p
        exact boxMono_trans (hvisit p) (relaxAll_mono _ h p)
  · rw [Step_not_searching hs] at h
    split at h
    · split at h
      · cases h
        intro p
        rw [tracedState_boxes]
        split
        · exact ⟨id, fun _ => rfl, le_refl _⟩
        · exact boxMono_refl _
      · cases h; exact fun p => boxMono_refl _
    · cases h; exact fun p => boxMono_refl _

/-- C12: for every `Grid` state, reachable or not, and every cell: in the state that a call
of `Step` returns the cell is visited if it was, has `isPath` if it had, and has a `distance`
that is at most the one before. -/
theorem step_is_monotone (g g' : Grid) (h : Step g = some g') (p : BoxPtr) :
    ((g.boxes p).isVisited = true → (g'.boxes p).isVisited = true) ∧
    ((g.boxes p).isPath = true → (g'.boxes p).isPath = true) ∧
    (g'.boxes p).distance ≤ (g.boxes p).distance :=
  Step_mono h p

/-- The claim C12 on the constructed state of the one-column grid, whose first call returns,
and there on the cell below the start cell, whose cost drops from `INT_MAX` to 1. -/
theorem step_is_monotone_witness :
    ∃ g', Step (initGrid tiny) = some g' ∧ (g'.boxes (0, 1)).distance = 1 ∧
      (((initGrid tiny).boxes (0, 1)).isVisited = true → (g'.boxes (0, 1)).isVisited = true) ∧
      (((initGrid tiny).boxes (0, 1)).isPath = true → (g'.boxes (0, 1)).isPath = true) ∧
      (g'.boxes (0, 1)).distance ≤ ((initGrid tiny).boxes (0, 1)).distance := by
  have h : (Step (initGrid tiny)).map (fun g => (g.boxes (0, 1)).distance) = some 1 := by
    decide
  cases hg : Step (initGrid tiny) with
  | none => rw [hg] at h; exact absurd h (by simp)
  | some g' =>
    rw [hg] at h
    exact ⟨g', rfl, by simpa using h, step_is_monotone (initGrid tiny) g' hg (0, 1)⟩

/-! ## The transitions of `Step`, in any state -/

theorem pq_ne_nil_of_top {rows : Nat} {q : List Entry} {top : Entry}
    (ht : pqTop rows q = some top) : q ≠ [] := by
  intro h; rw [h] at ht; simp [pqTop] at ht

/-- C14: when `Step` runs with `algorithmRunning` set and the entry on top of the frontier
refers to the end cell, not yet visited, it returns a state in which the end cell is visited,
`algorithmRunning = false`, `tracingPath = true`, `pathBox` is the `source` of the end cell,
every cell has the `distance` and `source` it had, and the frontier is the old one with the
top entry removed and nothing added. -/
theorem goal_transition (g : Grid) (top : Entry) (hr : g.algorithmRunning = true)
    (ht : pqTop g.rows g.pq = some top) (hv : (g.boxes top.2).isVisited = false)
    (he : some top.2 = GetBox g g.endCoord.x g.endCoord.y) :
    ∃ g', Step g = some g' ∧ (g'.boxes top.2).isVisited = true ∧
      g'.algorithmRunning = false ∧ g'.tracingPath = true ∧
      g'.pathBox = (g'.boxes top.2).source ∧
      (∀ p, (g'.boxes p).distance = (g.boxes p).distance ∧
        (g'.boxes p).source = (g.boxes p).source) ∧
      g'.pq = g.pq.erase top ∧ g'.pq.length + 1 = g.pq.length := by
  have hv' : ¬ (g.boxes top.2).isVisited = true := by rw [hv]; exact Bool.noConfusion
  refine ⟨goalState g top, ?_, ?_, rfl, rfl, ?_, ?_, rfl, ?_⟩
  · rw [Step_searching hr (pq_ne_nil_of_top ht) ht, if_neg hv', if_pos he]
  · exact (goalState_visited g top top.2).mpr (Or.inr rfl)
  · rw [goalState_source]; rfl
  · exact fun p => ⟨goalState_distance g top p, goalState_source g top p⟩
  · have h1 := List.length_erase_of_mem (pqTop_mem ht)
    have h2 := List.length_pos_of_mem (pqTop_mem ht)
    show (g.pq.erase top).length + 1 = g.pq.length
    omega

/-- The claim C14 on the one-column grid of three cells after two calls: the third call pops
the end cell `(0, 2)`. -/
theorem goal_transition_witness :
    ∃ g g', run tiny 2 = some g ∧ Step g = some g' ∧ (g'.boxes (0, 2)).isVisited = true ∧
      g'.algorithmRunning = false ∧ g'.tracingPath = true ∧
      g'.pathBox = (g'.boxes (0, 2)).source ∧
      (∀ p, (g'.boxes p).distance = (g.boxes p).distance ∧
        (g'.boxes p).source = (g.boxes p).source) ∧
      g'.pq = g.pq.erase (2, (0, 2)) ∧ g'.pq.length + 1 = g.pq.length := by
  have h : (run tiny 2).map (fun g => decide (g.algorithmRunning = true ∧
      pqTop g.rows g.pq = some (2, (0, 2)) ∧ (g.boxes (0, 2)).isVisited = false ∧
      some (0, 2) = GetBox g g.endCoord.x g.endCoord.y)) = some true := by decide
  cases hg : run tiny 2 with
  | none => rw [hg] at h; exact absurd h (by simp)
  | some g =>
    rw [hg] at h
    simp only [Option.map_some', Option.some.injEq, decide_eq_true_eq] at h
    obtain ⟨h1, h2, h3, h4⟩ := h
    obtain ⟨g', hs⟩ := goal_transition g (2, (0, 2)) h1 h2 h3 h4
    exact ⟨g, g', rfl, hs⟩

/-- C15: when `Step` runs with `algorithmRunning` set and the entry on top of the frontier
refers to a cell that is already visited, it returns the state it was given with that one
entry removed from the frontier: every cell, `algorithmRunning`, `tracingPath` and `pathBox`
are as before and no entry is added. -/
theorem stale_entry_discard (g : Grid) (top : Entry) (hr : g.algorithmRunning = true)
    (ht : pqTop g.rows g.pq = some top) (hv : (g.boxes top.2).isVisited = true) :
    Step g = some { g with pq := g.pq.erase top } ∧ top ∈ g.pq ∧
      (g.pq.erase top).length + 1 = g.pq.length := by
  refine ⟨Step_stale hr ht hv, pqTop_mem ht, ?_⟩
  have h1 := List.length_erase_of_mem (pqTop_mem ht)
  have h2 := List.length_pos_of_mem (pqTop_mem ht)
  omega

/-- The claim C15 on the grid `detour` after twelve calls: the thirteenth call pops an entry
of the visited cell `(1, 2)`. -/
theorem stale_entry_discard_witness :
    ∃ g, run detour 12 = some g ∧ Step g = some { g with pq := g.pq.erase (8, (1, 2)) } ∧
      ((8, (1, 2)) : Entry) ∈ g.pq ∧ (g.pq.erase (8, (1, 2))).length + 1 = g.pq.length := by
  have h : (run detour 12).map (fun g => decide (g.algorithmRunning = true ∧
      pqTop g.rows g.pq = some (8, (1, 2)) ∧ (g.boxes (1, 2)).isVisited = true))
      = some true := by decide!
  cases hg : run detour 12 with
  | none => rw [hg] at h; exact absurd h (by simp)
  | some g =>
    rw [hg] at h
    simp only [Option.map_some', Option.some.injEq, decide_eq_true_eq] at h
    obtain ⟨h1, h2, h3⟩ := h
    exact ⟨g, rfl, stale_entry_discard g (8, (1, 2)) h1 h2 h3⟩

/-- C16: in a state with `tracingPath` set in which the search branch of `Step` is not taken
(`algorithmRunning` is false or the frontier is empty): if `pathBox` points to a cell without
`isStart`, `Step` returns the state in which that one cell has `isPath = true`, `pathBox` is
the `source` of that cell and all else is as before; if `pathBox` is null or points to a cell
with `isStart`, `Step` returns the state with `tracingPath = false` and all else as before,
which is Idle. -/
theorem trace_step (g : Grid) (hs : ¬ (g.algorithmRunning = true ∧ g.pq ≠ []))
    (ht : g.tracingPath = true) :
    (∀ pb, g.pathBox = some pb → (g.boxes pb).isStart = false →
      Step g = some { g with
        boxes := Function.update g.boxes pb { g.boxes pb with isPath := true },
        pathBox := (g.boxes pb).source }) ∧
    ((g.pathBox = none ∨ ∃ pb, g.pathBox = some pb ∧ (g.boxes pb).isStart = true) →
      Step g = some { g with tracingPath := false } ∧
        Idle { g with tracingPath := false }) := by
  refine ⟨fun pb hp hb => Step_trace hs hp ⟨ht, hb⟩, fun h => ⟨Step_rest hs ?_, rfl, ?_⟩⟩
  · intro pb hp hc
    rcases h with h | ⟨pb', hp', hb'⟩
    · rw [h] at hp; exact Option.noConfusion hp
    · rw [hp'] at hp
      cases hp
      rw [hb'] at hc
      exact Bool.noConfusion hc.2
  · show g.algorithmRunning = false ∨ g.pq = []
    by_cases hr : g.algorithmRunning = true
    · right
      by_contra hq
      exact hs ⟨hr, hq⟩
    · left
      cases h : g.algorithmRunning with
      | false => rfl
      | true => exact absurd h hr

/-- The claim C16 on the grid `adjacent`, where the end cell is a neighbour of the start
cell: after two calls the run is tracing with `pathBox` on the start cell, and the next call
gives an Idle state; neither cell of the grid is marked. -/
theorem trace_step_witness :
    ∃ g, run adjacent 2 = some g ∧ g.pathBox = some (0, 0) ∧
      (g.boxes (0, 0)).isPath = false ∧ (g.boxes (0, 1)).isPath = false ∧
      (∀ pb, g.pathBox = some pb → (g.boxes pb).isStart = false →
        Step g = some { g with
          boxes := Function.update g.boxes pb { g.boxes pb with isPath := true },
          pathBox := (g.boxes pb).source }) ∧
      ((g.pathBox = none ∨ ∃ pb, g.pathBox = some pb ∧ (g.boxes pb).isStart = true) →
        Step g = some { g with tracingPath := false } ∧
          Idle { g with tracingPath := false }) := by
  have h : (run adjacent 2).map (fun g => decide (¬ (g.algorithmRunning = true ∧ g.pq ≠ []) ∧
      g.tracingPath = true ∧ g.pathBox = some (0, 0) ∧
      (g.boxes (0, 0)).isPath = false ∧ (g.boxes (0, 1)).isPath = false)) = some true := by
    decide
  cases hg : run adjacent 2 with
  | none => rw [hg] at h; exact absurd h (by simp)
  | some g =>
    rw [hg] at h
    simp only [Option.map_some', Option.some.injEq, decide_eq_true_eq] at h
    obtain ⟨h1, h2, h3, h4, h5⟩ := h
    exact ⟨g, rfl, h3, h4, h5, trace_step g h1 h2⟩

/-! ## Neighbour enumeration, in any state -/

theorem neighbor_candidate (g : Grid) (a b : Int) :
    (match getBoxAt g.cols g.rows a b with
      | none => none
      | some neighbor => if (g.boxes neighbor).isWall = true then none else some neighbor) =
    if (decide (0 ≤ a ∧ a < (g.cols : Int) ∧ 0 ≤ b ∧ b < (g.rows : Int)) &&
        !(g.boxes (a.toNat, b.toNat)).isWall) = true
    then some (a.toNat, b.toNat) else none := by
  by_cases h : 0 ≤ a ∧ a < (g.cols : Int) ∧ 0 ≤ b ∧ b < (g.rows : Int)
  · rw [getBoxAt_of_in h]
    cases hw : (g.boxes (a.toNat, b.toNat)).isWall <;> simp [h, hw]
  · have hn : getBoxAt g.cols g.rows a b = none := by
      unfold getBoxAt
      rw [if_pos]
      simp only [ge_iff_le]
      omega
    rw [hn]
    simp [h]

theorem filterMap_ite {α β : Type} (p : α → Bool) (f : α → β) : ∀ l : List α,
    l.filterMap (fun a => if p a = true then some (f a) else none) = (l.filter p).map f
  | [] => rfl
  | a :: l => by
    cases h : p a <;> simp [List.filterMap_cons, List.filter_cons, h, filterMap_ite p f l]

theorem GetNeighbors_eq (g : Grid) (box : BoxPtr) :
    GetNeighbors g box =
      (([((g.boxes box).gridX, (g.boxes box).gridY - 1),
          ((g.boxes box).gridX, (g.boxes box).gridY + 1),
          ((g.boxes box).gridX - 1, (g.boxes box).gridY),
          ((g.boxes box).gridX + 1, (g.boxes box).gridY)] : List (Int × Int)).filter
        (fun c => decide (0 ≤ c.1 ∧ c.1 < (g.cols : Int) ∧ 0 ≤ c.2 ∧ c.2 < (g.rows : Int)) &&
          !(g.boxes (c.1.toNat, c.2.toNat)).isWall)).map
        (fun c => (c.1.toNat, c.2.toNat)) := by
  rw [← filterMap_ite]
  have h1 : GetNeighbors g box =
      ([((0 : Int), (-1 : Int)), (0, 1), (-1, 0), (1, 0)]).filterMap (fun d =>
        if (decide (0 ≤ (g.boxes box).gridX + d.1 ∧ (g.boxes box).gridX + d.1 < (g.cols : Int) ∧
              0 ≤ (g.boxes box).gridY + d.2 ∧ (g.boxes box).gridY + d.2 < (g.rows : Int)) &&
            !(g.boxes (((g.boxes box).gridX + d.1).toNat,
              ((g.boxes box).gridY + d.2).toNat)).isWall) = true
        then some (((g.boxes box).gridX + d.1).toNat, ((g.boxes box).gridY + d.2).toNat)
        else none) := by
    unfold GetNeighbors GetBox
    congr 1
    funext d
    exact neighbor_candidate g _ _
  rw [h1]
  simp only [List.filterMap_cons, List.filterMap_nil, add_zero, Int.add_neg_one]

theorem GetNeighbors_nodup (g : Grid) (box : BoxPtr) : (GetNeighbors g box).Nodup := by
  rw [GetNeighbors_eq]
  refine List.Nodup.map_on ?_ (List.Nodup.filter _ ?_)
  · intro c hc d hd hcd
    have h1 := (List.mem_filter.mp hc).2
    have h2 := (List.mem_filter.mp hd).2
    simp only [Bool.and_eq_true, decide_eq_true_eq] at h1 h2
    simp only [Prod.mk.injEq] at hcd
    obtain ⟨c1, c2⟩ := c
    obtain ⟨d1, d2⟩ := d
    simp only at h1 h2 hcd
    simp only [Prod.mk.injEq]
    omega
  · simp only [List.nodup_cons, List.mem_cons, List.mem_singleton, Prod.mk.injEq,
      List.not_mem_nil, List.nodup_nil, not_false_eq_true, and_true, not_or]
    omega

/-- C17: for every state and every cell, with `x = gridX` and `y = gridY` of the cell,
`GetNeighbors` returns the cells of `[(x, y-1), (x, y+1), (x-1, y), (x+1, y)]`, in this order,
whose coordinates satisfy `0 ≤ x' < GRID_COLS` and `0 ≤ y' < GRID_ROWS` and that have
`isWall = false`; the result has at most four elements and no duplicates, and is the same in
any other state with the same coordinates in that cell and the same wall flags. -/
theorem neighbours_enumeration (g : Grid) (box : BoxPtr) :
    GetNeighbors g box =
      (([((g.boxes box).gridX, (g.boxes box).gridY - 1),
          ((g.boxes box).gridX, (g.boxes box).gridY + 1),
          ((g.boxes box).gridX - 1, (g.boxes box).gridY),
          ((g.boxes box).gridX + 1, (g.boxes box).gridY)] : List (Int × Int)).filter
        (fun c => decide (0 ≤ c.1 ∧ c.1 < (g.cols : Int) ∧ 0 ≤ c.2 ∧ c.2 < (g.rows : Int)) &&
          !(g.boxes (c.1.toNat, c.2.toNat)).isWall)).map
        (fun c => (c.1.toNat, c.2.toNat)) ∧
    (GetNeighbors g box).length ≤ 4 ∧ (GetNeighbors g box).Nodup ∧
    ∀ g2 : Grid, g2.cols = g.cols → g2.rows = g.rows →
      (g2.boxes box).gridX = (g.boxes box).gridX → (g2.boxes box).gridY = (g.boxes box).gridY →
      (∀ p, (g2.boxes p).isWall = (g.boxes p).isWall) →
      GetNeighbors g2 box = GetNeighbors g box := by
  refine ⟨GetNeighbors_eq g box, GetNeighbors_length g box, GetNeighbors_nodup g box, ?_⟩
  intro g2 hc hr hx hy hw
  rw [GetNeighbors_eq, GetNeighbors_eq]
  simp only [hc, hr, hx, hy, hw]

/-! ## The heuristic -/

theorem manhattan_eq_zero (p e : BoxPtr) : manhattan p e = 0 ↔ p = e := by
  obtain ⟨p1, p2⟩ := p
  obtain ⟨e1, e2⟩ := e
  unfold manhattan c_abs
  simp only [Prod.mk.injEq]
  split <;> split <;> omega

/-- C18: in every state of a run and for every cell `c` of the grid, `CalculateHeuristic`
returns `|c.gridX - end.gridX| + |c.gridY - end.gridY|`, the Manhattan distance from `c` to
the end cell; the value is 0 exactly when `c` is the end cell, it is at most one more than
the value at any 4-neighbour of `c`, and it is at most the length of every wall-avoiding
4-connected path from `c` to the end cell. -/
theorem heuristic_properties (cfg : Config) (hv : Valid cfg) (hs : Small cfg) (n : Nat) :
    ∃ g, run cfg n = some g ∧ ∀ c, InB cfg c →
      ∃ h, CalculateHeuristic g c = some h ∧
        h = c_abs ((g.boxes c).gridX - (g.boxes (ptrOf cfg.endCoord)).gridX) +
          c_abs ((g.boxes c).gridY - (g.boxes (ptrOf cfg.endCoord)).gridY) ∧
        h = manhattan c (ptrOf cfg.endCoord) ∧
        (h = 0 ↔ c = ptrOf cfg.endCoord) ∧
        (∀ b hb, InB cfg b → Adj c b → CalculateHeuristic g b = some hb → h ≤ 1 + hb) ∧
        ∀ l, Walk cfg c l (ptrOf cfg.endCoord) → h ≤ (l.length : Int) := by
  obtain ⟨g, hg, hI, _⟩ := run_inv hv hs n
  refine ⟨g, hg, fun c hc => ⟨_, hI.geom.heuristic hc, ?_, rfl, manhattan_eq_zero _ _, ?_, ?_⟩⟩
  · have h1 := hI.grid_xy c hc
    have h2 := hI.grid_xy _ (ptrOf_inB hI.coord_end)
    rw [h1.1, h1.2, h2.1, h2.2]
    rfl
  · intro b hb hbin hadj hcalc
    rw [hI.geom.heuristic hbin] at hcalc
    cases hcalc
    have := manhattan_adj (ptrOf cfg.endCoord) hadj
    omega
  · intro l hl
    have := Walk.heuristic_le (ptrOf cfg.endCoord) hl
    rw [manhattan_self] at this
    omega

/-- The claim C18 on the configuration of the program, after three calls. -/
theorem heuristic_properties_witness :
    ∃ g, run programConfig 3 = some g ∧ ∀ c, InB programConfig c →
      ∃ h, CalculateHeuristic g c = some h ∧
        h = c_abs ((g.boxes c).gridX - (g.boxes (ptrOf programConfig.endCoord)).gridX) +
          c_abs ((g.boxes c).gridY - (g.boxes (ptrOf programConfig.endCoord)).gridY) ∧
        h = manhattan c (ptrOf programConfig.endCoord) ∧
        (h = 0 ↔ c = ptrOf programConfig.endCoord) ∧
        (∀ b hb, InB programConfig b → Adj c b → CalculateHeuristic g b = some hb →
          h ≤ 1 + hb) ∧
        ∀ l, Walk programConfig c l (ptrOf programConfig.endCoord) → h ≤ (l.length : Int) :=
  heuristic_properties programConfig (by decide) (by decide) 3

/-! ## Absence of overflow and of null dereferences -/

/-- C20: in every state of a run every frontier entry refers to a cell inside the grid whose
`distance` is at least 0 and at most `GRID_COLS * GRID_ROWS - 1`, hence below `INT_MAX`, so
that `distance + 1` is an `int`; `GetBox` of the start and of the end coordinate is not null;
and the next call of `Step` returns, that is, meets no overflow and no null dereference. -/
theorem no_overflow_no_null (cfg : Config) (hv : Valid cfg) (hs : Small cfg) (n : Nat) :
    ∃ g g', run cfg n = some g ∧ Step g = some g' ∧
      (∀ e ∈ g.pq, InB cfg e.2 ∧ 0 ≤ (g.boxes e.2).distance ∧
        (g.boxes e.2).distance + 1 ≤ (cfg.cols : Int) * cfg.rows ∧
        (g.boxes e.2).distance < INT_MAX ∧
        addInt (g.boxes e.2).distance 1 = some ((g.boxes e.2).distance + 1)) ∧
      GetBox g g.startCoord.x g.startCoord.y = some (ptrOf cfg.startCoord) ∧
      GetBox g g.endCoord.x g.endCoord.y = some (ptrOf cfg.endCoord) := by
  obtain ⟨g, hg, hI, _⟩ := run_inv hv hs n
  obtain ⟨g', hstep, _⟩ := Step_cases hI
  refine ⟨g, g', hg, hstep, ?_, ?_, hI.geom.getBox_end⟩
  · intro e he
    obtain ⟨hw, hd, _⟩ := hI.pq_ok e he
    have h0 := hI.nonneg e.2
    have h1 := hI.dist_bound hd
    have h2 := hI.dist_lt_max hd
    have h3 : (0 : Int) ≤ (cfg.cols : Int) := Int.natCast_nonneg _
    have h4 : (0 : Int) ≤ (cfg.rows : Int) := Int.natCast_nonneg _
    refine ⟨hw.1, h0, h1, by omega, addInt_eq (by unfold INT_MIN; omega) (by omega)⟩
  · unfold GetBox
    rw [hI.cols_eq, hI.rows_eq, hI.start_eq]
    exact getBoxAt_coord hI.coord_start

/-- The claim C20 on the configuration of the program, after five calls. -/
theorem no_overflow_no_null_witness :
    ∃ g g', run programConfig 5 = some g ∧ Step g = some g' ∧
      (∀ e ∈ g.pq, InB programConfig e.2 ∧ 0 ≤ (g.boxes e.2).distance ∧
        (g.boxes e.2).distance + 1 ≤ (programConfig.cols : Int) * programConfig.rows ∧
        (g.boxes e.2).distance < INT_MAX ∧
        addInt (g.boxes e.2).distance 1 = some ((g.boxes e.2).distance + 1)) ∧
      GetBox g g.startCoord.x g.startCoord.y = some (ptrOf programConfig.startCoord) ∧
      GetBox g g.endCoord.x g.endCoord.y = some (ptrOf programConfig.endCoord) :=
  no_overflow_no_null programConfig (by decide) (by decide) 5

/-! ## The outcome without a path -/

theorem blocked_unreachable :
    ¬ ∃ l, Walk blocked (ptrOf blocked.startCoord) l (ptrOf blocked.endCoord) := by
  rintro ⟨l, hl⟩
  cases l with
  | nil => exact absurd hl.1 (by decide)
  | cons c rest =>
    obtain ⟨_, hadj, hrest⟩ := hl
    obtain ⟨⟨h1, h2⟩, hw⟩ := Walk.start_ok hrest
    obtain ⟨c1, c2⟩ := c
    have hadj' : (0 = c1 ∧ (0 + 1 = c2 ∨ c2 + 1 = 0)) ∨ (0 = c2 ∧ (0 + 1 = c1 ∨ c1 + 1 = 0)) :=
      hadj
    have h1' : c1 < 1 := h1
    have hc : c1 = 0 ∧ c2 = 1 := by omega
    obtain ⟨rfl, rfl⟩ := hc
    exact hw (by decide)

/-- C11: when no wall-avoiding 4-connected path leads from the start cell to the end cell, the
run reaches a state that is Idle with an empty frontier and without any cell marked `isPath`,
and in no state of the run is the end cell visited or a cell marked; and, whether or not such
a path exists, in every state of a run in which the end cell is not yet visited no cell has
`isPath = true`. -/
theorem no_path_outcome (cfg : Config) (hv : Valid cfg) (hs : Small cfg) :
    ((¬ ∃ l, Walk cfg (ptrOf cfg.startCoord) l (ptrOf cfg.endCoord)) →
      (∃ n g, run cfg n = some g ∧ Idle g ∧ g.pq = [] ∧ ∀ p, (g.boxes p).isPath = false) ∧
      ∀ m, ∃ gm, run cfg m = some gm ∧ (gm.boxes (ptrOf cfg.endCoord)).isVisited = false ∧
        ∀ p, (gm.boxes p).isPath = false) ∧
    ∀ m, ∃ gm, run cfg m = some gm ∧
      ((gm.boxes (ptrOf cfg.endCoord)).isVisited = false → ∀ p, (gm.boxes p).isPath = false) := by
  have hgen : ∀ m, ∃ gm, run cfg m = some gm ∧ Inv cfg gm ∧ TraceInv cfg gm ∧
      ((gm.boxes (ptrOf cfg.endCoord)).isVisited = false →
        gm.algorithmRunning = true ∧ ∀ p, (gm.boxes p).isPath = false) := by
    intro m
    obtain ⟨gm, hgm, hI, hT⟩ := run_inv hv hs m
    refine ⟨gm, hgm, hI, hT, fun hve => ?_⟩
    cases hr : gm.algorithmRunning with
    | true => exact ⟨rfl, (hT.searching hr).2.2⟩
    | false =>
      have := (hT.found hr).1
      rw [hve] at this
      exact Bool.noConfusion this
  refine ⟨fun hno => ?_, fun m => ?_⟩
  · have hnever : ∀ m, ∃ gm, run cfg m = some gm ∧ Inv cfg gm ∧ TraceInv cfg gm ∧
        (gm.boxes (ptrOf cfg.endCoord)).isVisited = false ∧
        gm.algorithmRunning = true ∧ ∀ p, (gm.boxes p).isPath = false := by
      intro m
      obtain ⟨gm, hgm, hI, hT, himp⟩ := hgen m
      have hve : (gm.boxes (ptrOf cfg.endCoord)).isVisited = false := by
        cases h : (gm.boxes (ptrOf cfg.endCoord)).isVisited with
        | false => rfl
        | true =>
          exfalso
          obtain ⟨k, hk⟩ := Int.eq_ofNat_of_zero_le (hI.nonneg (ptrOf cfg.endCoord))
          obtain ⟨l, hl, _⟩ := hI.walk_exists k _ (hI.discovered_of_visited h) hk
          exact hno ⟨l, hl⟩
      exact ⟨gm, hgm, hI, hT, hve, (himp hve).1, (himp hve).2⟩
    refine ⟨?_, fun m => ?_⟩
    · have h0 := run_zero hv
      have hI0 := Inv_init hv.1 hv.2.1 hv.2.2.2.1 hs
      have hT0 := TraceInv_init cfg hv.ptr_ne
      obtain ⟨n, g, hrun, _, hT, _, hend⟩ :=
        search_terminates (searchMeasure (initGrid cfg)) (initGrid cfg) hI0 hT0 rfl (le_refl _)
      have hrun' : run cfg n = some g := by
        have := run_add h0 n
        rw [Nat.zero_add] at this
        rw [this]; exact hrun
      rcases hend with ⟨hr, hq, _⟩ | ⟨hr, _, _⟩
      · obtain ⟨a, _, c⟩ := hT.searching hr
        exact ⟨n, g, hrun', ⟨a, Or.inr hq⟩, hq, c⟩
      · exfalso
        obtain ⟨gm, hgm, _, _, _, hr', _⟩ := hnever n
        rw [hrun'] at hgm
        cases hgm
        rw [hr] at hr'
        exact Bool.noConfusion hr'
    · obtain ⟨gm, hgm, _, _, hve, _, hp⟩ := hnever m
      exact ⟨gm, hgm, hve, hp⟩
  · obtain ⟨gm, hgm, _, _, himp⟩ := hgen m
    exact ⟨gm, hgm, fun h => (himp h).2⟩

/-- The claim C11 on the grid `blocked`, whose end cell lies behind a wall. -/
theorem no_path_outcome_witness :
    (∃ n g, run blocked n = some g ∧ Idle g ∧ g.pq = [] ∧ ∀ p, (g.boxes p).isPath = false) ∧
      ∀ m, ∃ gm, run blocked m = some gm ∧
        (gm.boxes (ptrOf blocked.endCoord)).isVisited = false ∧
        ∀ p, (gm.boxes p).isPath = false :=
  (no_path_outcome blocked (by decide) (by decide)).1 blocked_unreachable

/-! ## The entries pushed by one expansion -/

theorem relaxAll_pushed {cfg : Config} (cur : BoxPtr) : ∀ (l : List BoxPtr) (g : Grid),
    Geom cfg g → cur ∉ l → (∀ n ∈ l, InB cfg n) → 0 ≤ (g.boxes cur).distance →
    (g.boxes cur).distance + 1 + cfg.cols + cfg.rows ≤ INT_MAX →
    ∃ g' pushed, relaxAll cur l g = some g' ∧ g'.pq = pushed ++ g.pq ∧ pushed.Nodup ∧
      ∀ e, e ∈ pushed ↔ ∃ n ∈ l,
        (g.boxes cur).distance + 1 < (g.boxes n).distance ∧
        e = ((g.boxes cur).distance + 1 + manhattan n (ptrOf cfg.endCoord), n)
  | [], g, _, _, _, _, _ => ⟨g, [], rfl, rfl, List.nodup_nil, fun e => by simp⟩
  | n :: rest, g, hG, hcur, hin, h0, hb => by
    have hn : InB cfg n := hin n (List.mem_cons_self _ _)
    have hne : cur ≠ n := fun h => hcur (h ▸ List.mem_cons_self _ _)
    have hcur' : cur ∉ rest := fun h => hcur (List.mem_cons_of_mem _ h)
    have hin' : ∀ m ∈ rest, InB cfg m := fun m hm => hin m (List.mem_cons_of_mem _ hm)
    unfold relaxAll
    rw [relax_eq hG hn h0 hb]
    by_cases hlt : (g.boxes cur).distance + 1 < (g.boxes n).distance
    · rw [if_pos hlt]
      simp only
      have hd1 : ((setCost g n ((g.boxes cur).distance + 1) cur
          ((g.boxes cur).distance + 1 + manhattan n (ptrOf cfg.endCoord))).boxes cur).distance
            = (g.boxes cur).distance := by
        rw [setCost_boxes, if_neg hne]
      obtain ⟨g', pushed, hrun, hpq, hnd, hmem⟩ := relaxAll_pushed cur rest _
        (setCost_geom hG n _ cur _) hcur' hin' (by rw [hd1]; exact h0) (by rw [hd1]; exact hb)
      rw [hd1] at hmem
      have hnot : ((g.boxes cur).distance + 1 + manhattan n (ptrOf cfg.endCoord), n) ∉
          pushed := by
        intro h
        obtain ⟨m, _, hlt', he⟩ := (hmem _).mp h
        have hmn : n = m := (Prod.mk.inj he).2
        subst hmn
        rw [setCost_boxes, if_pos rfl] at hlt'
        simp at hlt'
      refine ⟨g', pushed ++ [((g.boxes cur).distance + 1 +
        manhattan n (ptrOf cfg.endCoord), n)], hrun, ?_, ?_, ?_⟩
      · rw [hpq, setCost_pq]; simp
      · exact List.Nodup.append hnd (List.nodup_singleton _)
          (by
            intro a ha hb'
            rw [List.mem_singleton] at hb'
            subst hb'
            exact hnot ha)
      · intro e
        simp only [List.mem_append, List.mem_singleton, hmem, setCost_boxes, List.mem_cons,
          List.not_mem_nil, or_false]
        constructor
        · rintro (⟨m, hm, hlt', he⟩ | h)
          · by_cases hmn : m = n
            · subst hmn; simp at hlt'
            · simp only [hmn, if_false] at hlt'
              exact ⟨m, Or.inr hm, hlt', he⟩
          · exact ⟨n, Or.inl rfl, hlt, h⟩
        · rintro ⟨m, hm, hlt', he⟩
          by_cases hmn : m = n
          · subst hmn; exact Or.inr he
          · rcases hm with hm | hm
            · exact absurd hm hmn
            · left
              refine ⟨m, hm, ?_, he⟩
              simp only [hmn, if_false]; exact hlt'
    · rw [if_neg hlt]
      simp only
      obtain ⟨g', pushed, hrun, hpq, hnd, hmem⟩ :=
        relaxAll_pushed cur rest g hG hcur' hin' h0 hb
      refine ⟨g', pushed, hrun, hpq, hnd, fun e => ?_⟩
      rw [hmem e]
      simp only [List.mem_cons]
      constructor
      · rintro ⟨m, hm, hlt', he⟩
        exact ⟨m, Or.inr hm, hlt', he⟩
      · rintro ⟨m, hm, hlt', he⟩
        rcases hm with hm | hm
        · subst hm; exact absurd hlt' hlt
        · exact ⟨m, hm, hlt', he⟩

theorem Step_expand_pushed {cfg : Config} {g : Grid} (hI : Inv cfg g)
    (hr : g.algorithmRunning = true) {top : Entry} (ht : pqTop g.rows g.pq = some top)
    (hv : (g.boxes top.2).isVisited = false) (he : top.2 ≠ ptrOf cfg.endCoord) :
    ∃ g' pushed, Step g = some g' ∧ g'.pq = pushed ++ g.pq.erase top ∧ pushed.Nodup ∧
      ∀ e, e ∈ pushed ↔ ∃ n, Adj top.2 n ∧ Walkable cfg n ∧
        (g.boxes top.2).distance + 1 < (g.boxes n).distance ∧
        e = ((g.boxes top.2).distance + 1 + manhattan n (ptrOf cfg.endCoord), n) := by
  have hq : g.pq ≠ [] := by
    intro h; rw [h] at ht; simp [pqTop] at ht
  have hv' : ¬ (g.boxes top.2).isVisited = true := by rw [hv]; exact Bool.noConfusion
  have hG := hI.geom
  have he' : ¬ some top.2 = some (ptrOf cfg.endCoord) := fun h => he (Option.some.inj h)
  rw [Step_searching hr hq ht, if_neg hv', hG.getBox_end, if_neg he']
  obtain ⟨hwk, hdisc, _⟩ := hI.pq_ok top (pqTop_mem ht)
  obtain ⟨g2, hg2⟩ : ∃ g2 : Grid, g2 = { g with
          pq := g.pq.erase top,
          boxes := Function.update g.boxes top.2 { g.boxes top.2 with isVisited := true } } :=
    ⟨_, rfl⟩
  rw [← hg2]
  have hb2 : ∀ p, g2.boxes p =
      if p = top.2 then { g.boxes top.2 with isVisited := true } else g.boxes p := by
    intro p; rw [hg2]; simp only [Function.update_apply]
  have hd2 : ∀ p, (g2.boxes p).distance = (g.boxes p).distance := by
    intro p; rw [hb2]; split
    · rename_i h; rw [h]
    · rfl
  have hpq2 : g2.pq = g.pq.erase top := by rw [hg2]
  have hfr2 : SameFrame g g2 := by rw [hg2]; exact ⟨rfl, rfl, rfl, rfl, rfl, rfl, rfl, rfl⟩
  have hG2 : Geom cfg g2 := by
    refine ⟨hG.coord_end, hfr2.1.trans hG.cols_eq, hfr2.2.1.trans hG.rows_eq,
      hfr2.2.2.2.1.trans hG.end_eq, ?_, ?_⟩
    · intro p hp; rw [hb2]; split
      · rename_i h; subst h; exact hG.grid_xy _ hp
      · exact hG.grid_xy p hp
    · intro p hp; rw [hb2]; split
      · rename_i h; subst h; exact hG.wall_iff _ hp
      · exact hG.wall_iff p hp
  have hmem : ∀ n, n ∈ GetNeighbors g2 top.2 ↔ Adj top.2 n ∧ Walkable cfg n :=
    fun n => hG2.mem_neighbors hwk.1
  obtain ⟨g', pushed, hrun, hpq, hnd, hpm⟩ :=
    relaxAll_pushed top.2 (GetNeighbors g2 top.2) g2 hG2
      (fun h => ((hmem _).mp h).1.ne rfl) (fun n hn => ((hmem n).mp hn).2.1)
      (by rw [hd2]; exact hI.nonneg _) (by rw [hd2]; exact hI.dist_lt_max hdisc)
  refine ⟨g', pushed, hrun, by rw [hpq, hpq2], hnd, fun e => ?_⟩
  rw [hpm e]
  simp only [hmem, hd2, and_assoc]

/-- C13: in every state of a run, when `Step` pops an unvisited cell `c` other than the end
cell (`algorithmRunning` set, `top` the entry on top of the frontier, `c = top.2`), it returns
a state in which `c` is visited and otherwise as before; every 4-neighbour `nb` of `c` inside
the grid and not a wall has `distance = min(old distance, c.distance + 1)`; if
`c.distance + 1` is below its old distance, `nb` gets `source = c` and exactly one entry
`(c.distance + 1 + heuristic(nb), nb)` is pushed (it is in the list `pushed`, which has no
duplicates and no other entry of `nb`), otherwise `nb` is as before and no entry of `nb` is
pushed; every other cell is as before; the frontier is the popped one plus the pushed entries;
`algorithmRunning`, `tracingPath` and `pathBox` are as before. -/
theorem expansion_step (cfg : Config) (hv : Valid cfg) (hs : Small cfg) (n : Nat) :
    ∃ g, run cfg n = some g ∧
      ∀ top, g.algorithmRunning = true → pqTop g.rows g.pq = some top →
        (g.boxes top.2).isVisited = false → top.2 ≠ ptrOf cfg.endCoord →
        ∃ g' pushed, Step g = some g' ∧
          g'.boxes top.2 = { g.boxes top.2 with isVisited := true } ∧
          (∀ nb, Adj top.2 nb → Walkable cfg nb →
            (g'.boxes nb).distance =
              min (g.boxes nb).distance ((g.boxes top.2).distance + 1) ∧
            ((g.boxes top.2).distance + 1 < (g.boxes nb).distance →
              g'.boxes nb = { g.boxes nb with
                distance := (g.boxes top.2).distance + 1, source := some top.2 } ∧
              (∃ h, CalculateHeuristic g nb = some h ∧
                ((g.boxes top.2).distance + 1 + h, nb) ∈ pushed) ∧
              ∀ e ∈ pushed, e.2 = nb → e.1 = (g.boxes top.2).distance + 1 +
                manhattan nb (ptrOf cfg.endCoord)) ∧
            (¬ (g.boxes top.2).distance + 1 < (g.boxes nb).distance →
              g'.boxes nb = g.boxes nb ∧ ∀ e ∈ pushed, e.2 ≠ nb)) ∧
          (∀ p, p ≠ top.2 → ¬ (Adj top.2 p ∧ Walkable cfg p) → g'.boxes p = g.boxes p) ∧
          (∀ e ∈ pushed, Adj top.2 e.2 ∧ Walkable cfg e.2) ∧
          g'.pq = pushed ++ pqPop g.rows g.pq ∧ pushed.Nodup ∧
          g'.algorithmRunning = g.algorithmRunning ∧ g'.tracingPath = g.tracingPath ∧
          g'.pathBox = g.pathBox := by
  obtain ⟨g, hg, hI, _⟩ := run_inv hv hs n
  refine ⟨g, hg, fun top hr ht hvis he => ?_⟩
  obtain ⟨g', hstep, hfr, hbx, _, _⟩ := Step_expand hI hr ht hvis he
  obtain ⟨g'', pushed, hstep', hpq, hnd, hmem⟩ := Step_expand_pushed hI hr ht hvis he
  rw [hstep] at hstep'
  cases hstep'
  refine ⟨g', pushed, hstep, ?_, ?_, ?_, ?_, by rw [hpq, pqPop_eq ht], hnd, hfr.2.2.2.2.1,
    hfr.2.2.2.2.2.1, hfr.2.2.2.2.2.2.1⟩
  · rw [hbx]
    unfold expandedBox
    rw [if_neg (fun h => h.1.ne rfl), if_pos rfl]
  · intro nb hadj hw
    have hne : nb ≠ top.2 := fun h => hadj.ne h.symm
    by_cases hlt : (g.boxes top.2).distance + 1 < (g.boxes nb).distance
    · have hb : g'.boxes nb = { g.boxes nb with
          distance := (g.boxes top.2).distance + 1, source := some top.2 } := by
        rw [hbx]; unfold expandedBox; rw [if_pos ⟨hadj, hw, hlt⟩]
      refine ⟨?_, fun _ => ⟨hb, ⟨_, hI.geom.heuristic hw.1, ?_⟩, ?_⟩, fun h => absurd hlt h⟩
      · rw [hb]
        simp only
        rw [min_eq_right (le_of_lt hlt)]
      · exact (hmem _).mpr ⟨nb, hadj, hw, hlt, rfl⟩
      · intro e hep hen
        obtain ⟨m, _, _, _, hem⟩ := (hmem e).mp hep
        rw [hem] at hen ⊢
        simp only at hen
        subst hen
        rfl
    · have hb : g'.boxes nb = g.boxes nb := by
        rw [hbx]; unfold expandedBox; rw [if_neg (fun h => hlt h.2.2), if_neg hne]
      refine ⟨?_, fun h => absurd h hlt, fun _ => ⟨hb, ?_⟩⟩
      · rw [hb, min_eq_left (by omega)]
      · intro e hep hen
        obtain ⟨m, _, _, hlt', hem⟩ := (hmem e).mp hep
        rw [hem] at hen
        simp only at hen
        subst hen
        exact hlt hlt'
  · intro p hp hnot
    rw [hbx]; unfold expandedBox
    rw [if_neg (fun h => hnot ⟨h.1, h.2.1⟩), if_neg hp]
  · intro e hep
    obtain ⟨m, h1, h2, _, hem⟩ := (hmem e).mp hep
    rw [hem]
    exact ⟨h1, h2⟩

/-- The claim C13 on the configuration of the program, after construction: the first call
expands the start cell. -/
theorem expansion_step_witness :
    ∃ g, run programConfig 0 = some g ∧
      ∀ top, g.algorithmRunning = true → pqTop g.rows g.pq = some top →
        (g.boxes top.2).isVisited = false → top.2 ≠ ptrOf programConfig.endCoord →
        ∃ g' pushed, Step g = some g' ∧
          g'.boxes top.2 = { g.boxes top.2 with isVisited := true } ∧
          (∀ nb, Adj top.2 nb → Walkable programConfig nb →
            (g'.boxes nb).distance =
              min (g.boxes nb).distance ((g.boxes top.2).distance + 1) ∧
            ((g.boxes top.2).distance + 1 < (g.boxes nb).distance →
              g'.boxes nb = { g.boxes nb with
                distance := (g.boxes top.2).distance + 1, source := some top.2 } ∧
              (∃ h, CalculateHeuristic g nb = some h ∧
                ((g.boxes top.2).distance + 1 + h, nb) ∈ pushed) ∧
              ∀ e ∈ pushed, e.2 = nb → e.1 = (g.boxes top.2).distance + 1 +
                manhattan nb (ptrOf programConfig.endCoord)) ∧
            (¬ (g.boxes top.2).distance + 1 < (g.boxes nb).distance →
              g'.boxes nb = g.boxes nb ∧ ∀ e ∈ pushed, e.2 ≠ nb)) ∧
          (∀ p, p ≠ top.2 → ¬ (Adj top.2 p ∧ Walkable programConfig p) →
            g'.boxes p = g.boxes p) ∧
          (∀ e ∈ pushed, Adj top.2 e.2 ∧ Walkable programConfig e.2) ∧
          g'.pq = pushed ++ pqPop g.rows g.pq ∧ pushed.Nodup ∧
          g'.algorithmRunning = g.algorithmRunning ∧ g'.tracingPath = g.tracingPath ∧
          g'.pathBox = g.pathBox :=
  expansion_step programConfig (by decide) (by decide) 0

/-! ## The trie, the cell codes and the sorted frontier -/

theorem get0_set0 (t : Trie) (a a' c : Nat) (ha : a < 2 ^ 0) (ha' : a' < 2 ^ 0) :
    get0 (set0 t a c) a' = if a' = a then c else get0 t a' := by
  have h1 : a = 0 := by simpa using ha
  have h2 : a' = 0 := by simpa using ha'
  subst h1; subst h2
  simp [get0, set0, Trie.val]

theorem getStep_setStep {n : Nat} {g : Trie → Nat → Nat} {s : Trie → Nat → Nat → Trie}
    (h : ∀ t a a' c, a < 2 ^ n → a' < 2 ^ n → g (s t a c) a' = if a' = a then c else g t a')
    (t : Trie) (a a' c : Nat) (ha : a < 2 ^ (n + 1)) (ha' : a' < 2 ^ (n + 1)) :
    getStep g (setStep s t a c) a' = if a' = a then c else getStep g t a' := by
  have ha2 : a / 2 < 2 ^ n := by rw [pow_succ] at ha; omega
  have ha2' : a' / 2 < 2 ^ n := by rw [pow_succ] at ha'; omega
  unfold getStep setStep
  by_cases hp : a % 2 = 1 <;> by_cases hp' : a' % 2 = 1
  · have e1 : Nat.beq (a % 2) 1 = true := by rw [hp]; rfl
    have e2 : Nat.beq (a' % 2) 1 = true := by rw [hp']; rfl
    simp only [e1, e2, cond_true, Trie.right, h _ _ _ _ ha2 ha2']
    by_cases hh : a' = a
    · subst hh; simp
    · have : ¬ a' / 2 = a / 2 := by omega
      simp [hh, this]
  · have e1 : Nat.beq (a % 2) 1 = true := by rw [hp]; rfl
    have e2 : Nat.beq (a' % 2) 1 = false := by
      have : a' % 2 = 0 := by omega
      rw [this]; rfl
    have hh : ¬ a' = a := fun h => hp' (h ▸ hp)
    simp only [e1, e2, cond_true, cond_false, Trie.left, if_neg hh]
  · have e1 : Nat.beq (a % 2) 1 = false := by
      have : a % 2 = 0 := by omega
      rw [this]; rfl
    have e2 : Nat.beq (a' % 2) 1 = true := by rw [hp']; rfl
    have hh : ¬ a' = a := fun h => hp (h ▸ hp')
    simp only [e1, e2, cond_true, cond_false, Trie.right, if_neg hh]
  · have e1 : Nat.beq (a % 2) 1 = false := by
      have : a % 2 = 0 := by omega
      rw [this]; rfl
    have e2 : Nat.beq (a' % 2) 1 = false := by
      have : a' % 2 = 0 := by omega
      rw [this]; rfl
    simp only [e1, e2, cond_false, Trie.left, h _ _ _ _ ha2 ha2']
    by_cases hh : a' = a
    · subst hh; simp
    · have : ¬ a' / 2 = a / 2 := by omega
      simp [hh, this]

theorem tget_tset (t : Trie) (a a' c : Nat) (ha : a < 8192) (ha' : a' < 8192) :
    tget (tset t a c) a' = if a' = a then c else tget t a' := by
  unfold tget tset
  exact getStep_setStep (getStep_setStep (getStep_setStep (getStep_setStep (getStep_setStep
    (getStep_setStep (getStep_setStep (getStep_setStep (getStep_setStep (getStep_setStep
    (getStep_setStep (getStep_setStep (getStep_setStep get0_set0)))))))))))) t a a' c ha ha'

theorem getStep_empty {g : Trie → Nat → Nat} (h : ∀ a, g Trie.empty a = 0) (a : Nat) :
    getStep g Trie.empty a = 0 := by
  unfold getStep
  cases Nat.beq (a % 2) 1 <;> simp [Trie.left, Trie.right, h]

theorem tget_empty (a : Nat) : tget Trie.empty a = 0 := by
  unfold tget
  exact getStep_empty (getStep_empty (getStep_empty (getStep_empty (getStep_empty
    (getStep_empty (getStep_empty (getStep_empty (getStep_empty (getStep_empty
    (getStep_empty (getStep_empty (getStep_empty (fun _ => rfl))))))))))))) a

theorem addr_lt {cfg : Config} {p : BoxPtr} (hp : InB cfg p) :
    addr cfg.rows p < cfg.cols * cfg.rows := by
  unfold InB at hp
  unfold addr
  have : (p.1 + 1) * cfg.rows ≤ cfg.cols * cfg.rows := Nat.mul_le_mul_right _ hp.1
  rw [Nat.add_mul, Nat.one_mul] at this
  omega

theorem addr_decode {cfg : Config} {p : BoxPtr} (hp : InB cfg p) :
    ptrAt cfg (addr cfg.rows p) = p := by
  unfold InB at hp
  unfold addr ptrAt
  have hr : 0 < cfg.rows := by omega
  rw [Nat.add_comm, Nat.add_mul_div_right _ _ hr, Nat.add_mul_mod_self_right,
    Nat.div_eq_of_lt hp.2, Nat.mod_eq_of_lt hp.2, Nat.zero_add]

theorem addr_ptrAt (cfg : Config) (a : Nat) : addr cfg.rows (ptrAt cfg a) = a := by
  unfold addr ptrAt
  simp only
  rw [Nat.mul_comm]
  exact Nat.div_add_mod a cfg.rows

theorem addr_injective {cfg : Config} {p q : BoxPtr} (hp : InB cfg p) (hq : InB cfg q)
    (h : addr cfg.rows p = addr cfg.rows q) : p = q := by
  rw [← addr_decode hp, ← addr_decode hq, h]

theorem cell_get_set {cfg : Config} (hK : cfg.cols * cfg.rows ≤ 8192) (t : Trie)
    {p q : BoxPtr} (hp : InB cfg p) (hq : InB cfg q) (c : Nat) :
    tget (tset t (addr cfg.rows p) c) (addr cfg.rows q) =
      if q = p then c else tget t (addr cfg.rows q) := by
  rw [tget_tset _ _ _ _ (lt_of_lt_of_le (addr_lt hp) hK) (lt_of_lt_of_le (addr_lt hq) hK)]
  by_cases h : q = p
  · subst h; simp
  · have : ¬ addr cfg.rows q = addr cfg.rows p := fun h' => h (addr_injective hq hp h')
    simp [h, this]

theorem ins_perm (k : Nat) : ∀ l : List Nat, List.Perm (ins k l) (k :: l)
  | [] => List.Perm.refl _
  | h :: t => by
    unfold ins
    cases Nat.ble k h
    · exact (List.Perm.cons h (ins_perm k t)).trans (List.Perm.swap k h t)
    · exact List.Perm.refl _

theorem ins_sorted (k : Nat) : ∀ l : List Nat, l.Pairwise (· ≤ ·) → (ins k l).Pairwise (· ≤ ·)
  | [], _ => List.pairwise_singleton _ _
  | h :: t, hl => by
    unfold ins
    cases hle : Nat.ble k h
    · have hhk : h ≤ k := by
        have : ¬ k ≤ h := fun h' => by
          rw [Nat.ble_eq_true_of_le h'] at hle
          exact Bool.noConfusion hle
        omega
      refine List.Pairwise.cons ?_ (ins_sorted k t (List.Pairwise.of_cons hl))
      intro x hx
      rcases List.mem_cons.mp ((ins_perm k t).subset hx) with hx | hx
      · subst hx; exact hhk
      · exact List.rel_of_pairwise_cons hl hx
    · have hkh : k ≤ h := Nat.le_of_ble_eq_true hle
      refine List.Pairwise.cons ?_ hl
      intro x hx
      rcases List.mem_cons.mp hx with hx | hx
      · subst hx; exact hkh
      · exact le_trans hkh (List.rel_of_pairwise_cons hl hx)

theorem entryLt_iff (rows : Nat) (a b : Entry) :
    entryLt rows a b = true ↔ a.1 < b.1 ∨ (a.1 = b.1 ∧ addr rows a.2 < addr rows b.2) := by
  unfold entryLt
  simp only [Bool.or_eq_true, Bool.and_eq_true, decide_eq_true_eq]

theorem pqTop_minimal {rows : Nat} : ∀ {q : List Entry} {top : Entry},
    pqTop rows q = some top → ∀ e ∈ q, ¬ entryLt rows e top = true
  | [], top, h => by simp [pqTop] at h
  | e :: es, top, h => by
    intro x hx
    unfold pqTop at h
    split at h
    · rename_i hn
      cases h
      have := pqTop_eq_none hn
      subst this
      simp only [List.mem_singleton] at hx
      subst hx
      rw [entryLt_iff]; omega
    · rename_i m hm
      have ih := pqTop_minimal hm
      split at h
      · rename_i hlt
        cases h
        rcases List.mem_cons.mp hx with hx | hx
        · subst hx
          rw [entryLt_iff] at hlt ⊢
          omega
        · exact ih x hx
      · rename_i hlt
        cases h
        rcases List.mem_cons.mp hx with hx | hx
        · subst hx
          rw [entryLt_iff]; omega
        · have := ih x hx
          rw [entryLt_iff] at hlt this ⊢
          omega

theorem keyOf_lt {cfg : Config} {a b : Entry} (ha : 0 ≤ a.1) (hb : 0 ≤ b.1)
    (ha2 : InB cfg a.2) (hb2 : InB cfg b.2) (h : keyOf cfg a < keyOf cfg b) :
    entryLt cfg.rows a b = true := by
  rw [entryLt_iff]
  unfold keyOf at h
  have h1 := addr_lt ha2
  have h2 := addr_lt hb2
  by_cases hlt : a.1 < b.1
  · exact Or.inl hlt
  · right
    have hle : b.1.toNat ≤ a.1.toNat := by omega
    have hmul := Nat.mul_le_mul_right (cfg.cols * cfg.rows) hle
    by_cases heq : a.1 = b.1
    · rw [heq] at h
      exact ⟨heq, by omega⟩
    · exfalso
      have hlt' : b.1.toNat + 1 ≤ a.1.toNat := by omega
      have hmul' := Nat.mul_le_mul_right (cfg.cols * cfg.rows) hlt'
      rw [Nat.add_mul, Nat.one_mul] at hmul'
      omega

theorem keyOf_mod {cfg : Config} {e : Entry} (h2 : InB cfg e.2) :
    keyOf cfg e % (cfg.cols * cfg.rows) = addr cfg.rows e.2 := by
  unfold keyOf
  rw [Nat.add_comm, Nat.add_mul_mod_self_right, Nat.mod_eq_of_lt (addr_lt h2)]

theorem entry_perm_cons_erase {top : Entry} : ∀ {q : List Entry}, top ∈ q →
    List.Perm q (top :: q.erase top)
  | [], h => absurd h (List.not_mem_nil _)
  | e :: es, h => by
    by_cases he : e = top
    · subst he
      rw [List.erase_cons_head]
    · have hb : ¬ (e == top) = true := by simpa using he
      rw [List.erase_cons_tail hb]
      have hm : top ∈ es := by
        rcases List.mem_cons.mp h with h | h
        · exact absurd h.symm he
        · exact h
      exact (List.Perm.cons e (entry_perm_cons_erase hm)).trans (List.Perm.swap top e _)

theorem manhattan_nat (p e : BoxPtr) :
    manhattan p e = ((natManhattan p.1 p.2 e.1 e.2 : Nat) : Int) := by
  unfold manhattan c_abs natManhattan
  split <;> split <;> omega

/-! ### Cell codes -/

theorem cell_visit {cfg : Config} {b : Box} {c : Nat} (h : Cell cfg b c)
    (hv : ¬ c / 2 % 2 = 1) : Cell cfg { b with isVisited := true } (c + 2) := by
  refine ⟨?_, ?_, ?_, ?_, ?_⟩
  · rw [show (c + 2) % 2 = c % 2 by omega]; exact h.wall
  · simp only [true_iff]; omega
  · rw [show (c + 2) / 4 % 2 = c / 4 % 2 by omega]; exact h.path
  · show b.distance = distOf (c + 2)
    rw [h.dist]; unfold distOf
    rw [show (c + 2) / 8 % 16384 = c / 8 % 16384 by omega]
  · show b.source = srcOf cfg ((c + 2) / 131072)
    rw [h.src, show (c + 2) / 131072 = c / 131072 by omega]

theorem cell_mark {cfg : Config} {b : Box} {c : Nat} (h : Cell cfg b c) :
    Cell cfg { b with isPath := true }
      (bif Nat.beq (c / 4 % 2) 1 then c else c + 4) := by
  by_cases hp : c / 4 % 2 = 1
  · have e : Nat.beq (c / 4 % 2) 1 = true := by rw [hp]; rfl
    rw [e, cond_true]
    exact ⟨h.wall, h.visited, by simp only [true_iff]; exact hp, h.dist, h.src⟩
  · have e : Nat.beq (c / 4 % 2) 1 = false := by
      have : c / 4 % 2 = 0 := by omega
      rw [this]; rfl
    rw [e, cond_false]
    refine ⟨?_, ?_, ?_, ?_, ?_⟩
    · rw [show (c + 4) % 2 = c % 2 by omega]; exact h.wall
    · rw [show (c + 4) / 2 % 2 = c / 2 % 2 by omega]; exact h.visited
    · simp only [true_iff]; omega
    · show b.distance = distOf (c + 4)
      rw [h.dist]; unfold distOf
      rw [show (c + 4) / 8 % 16384 = c / 8 % 16384 by omega]
    · show b.source = srcOf cfg ((c + 4) / 131072)
      rw [h.src, show (c + 4) / 131072 = c / 131072 by omega]

theorem cell_cost {cfg : Config} {b : Box} {c : Nat} (h : Cell cfg b c) {cur : BoxPtr}
    (hc : InB cfg cur) {G : Nat} (hG : G + 1 < 16384) :
    Cell cfg { b with distance := (G : Int), source := some cur }
      (c % 8 + 8 * (G + 1 + 16384 * (addr cfg.rows cur + 1))) := by
  refine ⟨?_, ?_, ?_, ?_, ?_⟩
  · rw [show (c % 8 + 8 * (G + 1 + 16384 * (addr cfg.rows cur + 1))) % 2 = c % 2 by omega]
    exact h.wall
  · rw [show (c % 8 + 8 * (G + 1 + 16384 * (addr cfg.rows cur + 1))) / 2 % 2 = c / 2 % 2 by
      omega]
    exact h.visited
  · rw [show (c % 8 + 8 * (G + 1 + 16384 * (addr cfg.rows cur + 1))) / 4 % 2 = c / 4 % 2 by
      omega]
    exact h.path
  · show (G : Int) = distOf _
    unfold distOf
    rw [show (c % 8 + 8 * (G + 1 + 16384 * (addr cfg.rows cur + 1))) / 8 % 16384 = G + 1 by
      omega]
    simp
  · show some cur = srcOf cfg _
    unfold srcOf
    rw [show (c % 8 + 8 * (G + 1 + 16384 * (addr cfg.rows cur + 1))) / 131072 =
      addr cfg.rows cur + 1 by omega]
    simp [addr_decode hc]

/-! ## The second implementation simulates `Step` -/

theorem fastStep_searching (cfg : Config) {f : Fast} {k : Nat} {rest : List Nat}
    (hr : f.running = true) (hq : f.pq = k :: rest) {a x y : Nat}
    (ha : k % (cfg.cols * cfg.rows) = a) (hx : a / cfg.rows = x) (hy : a % cfg.rows = y) :
    fastStep cfg f =
      bif Nat.beq (tget f.tbl a / 2 % 2) 1 then
        { tbl := f.tbl, pq := rest, running := true, tracing := f.tracing,
          pathBox := f.pathBox }
      else
        bif Nat.beq a (addr cfg.rows (ptrOf cfg.endCoord)) then
          { tbl := tset f.tbl a (tget f.tbl a + 2), pq := rest, running := false,
            tracing := true, pathBox := tget f.tbl a / 131072 }
        else
          ([(Nat.ble 1 y, x, y - 1), (Nat.blt (y + 1) cfg.rows, x, y + 1),
            (Nat.ble 1 x, x - 1, y), (Nat.blt (x + 1) cfg.cols, x + 1, y)]
            : List (Bool × Nat × Nat)).foldl
            (fastRelax cfg a (tget f.tbl a / 8 % 16384))
            { tbl := tset f.tbl a (tget f.tbl a + 2), pq := rest, running := true,
              tracing := f.tracing, pathBox := f.pathBox } := by
  subst hx; subst hy; subst ha
  cases f with
  | mk tbl pq running tracing pathBox =>
    simp only at hr hq
    subst hr; subst hq
    rfl

theorem fastStep_not_searching (cfg : Config) {f : Fast}
    (hs : ¬ (f.running = true ∧ f.pq ≠ [])) :
    fastStep cfg f =
      bif f.tracing && !(Nat.beq f.pathBox 0) &&
          !(Nat.beq (f.pathBox - 1) (addr cfg.rows (ptrOf cfg.startCoord))) then
        { f with
          tbl := tset f.tbl (f.pathBox - 1)
            (bif Nat.beq (tget f.tbl (f.pathBox - 1) / 4 % 2) 1 then tget f.tbl (f.pathBox - 1)
              else tget f.tbl (f.pathBox - 1) + 4),
          pathBox := tget f.tbl (f.pathBox - 1) / 131072 }
      else { f with tracing := false } := by
  cases f with
  | mk tbl pq running tracing pathBox =>
    simp only at hs
    cases running
    · rfl
    · cases pq
      · rfl
      · exact absurd ⟨rfl, List.cons_ne_nil _ _⟩ hs

theorem fastRelax_skip (cfg : Config) (cur G : Nat) (f : Fast) (x y : Nat) :
    fastRelax cfg cur G f (false, x, y) = f := rfl

theorem sim_relax {cfg : Config} (hK : cfg.cols * cfg.rows ≤ 8192) {f : Fast} {g : Grid}
    (hG : Geom cfg g) (hS : Sim cfg f g) {cur : BoxPtr} (hc : InB cfg cur) {G : Nat}
    (hGd : (G : Int) = (g.boxes cur).distance + 1) (hGb : G + 1 < 16384)
    (h0 : 0 ≤ (g.boxes cur).distance)
    (hb : (g.boxes cur).distance + 1 + cfg.cols + cfg.rows ≤ INT_MAX)
    {n : BoxPtr} (hn : InB cfg n) :
    ∃ g1, (if (g.boxes n).isWall = false then relax cur g n else some g) = some g1 ∧
      Sim cfg (fastRelax cfg (addr cfg.rows cur) G f (true, n.1, n.2)) g1 ∧ Geom cfg g1 ∧
      (g1.boxes cur).distance = (g.boxes cur).distance := by
  have hcell := hS.cells n hn
  have haddr : n.1 * cfg.rows + n.2 = addr cfg.rows n := rfl
  unfold fastRelax
  simp only [cond_true, haddr]
  by_cases hw : (g.boxes n).isWall = false
  · rw [if_pos hw]
    have hw2 : ¬ tget f.tbl (addr cfg.rows n) % 2 = 1 := by
      intro h
      have := hcell.wall.mpr h
      rw [hw] at this
      exact Bool.noConfusion this
    have e1 : Nat.beq (tget f.tbl (addr cfg.rows n) % 2) 0 = true := by
      have : tget f.tbl (addr cfg.rows n) % 2 = 0 := by omega
      rw [this]; rfl
    rw [e1, Bool.true_and, relax_eq hG hn h0 hb]
    have hmax : INT_MAX = 2147483647 := rfl
    by_cases hlt : (g.boxes cur).distance + 1 < (g.boxes n).distance
    · rw [if_pos hlt]
      have e2 : (Nat.beq (tget f.tbl (addr cfg.rows n) / 8 % 16384) 0 ||
          Nat.blt (G + 1) (tget f.tbl (addr cfg.rows n) / 8 % 16384)) = true := by
        by_cases hz : tget f.tbl (addr cfg.rows n) / 8 % 16384 = 0
        · rw [hz]; rfl
        · have hd := hcell.dist
          unfold distOf at hd
          rw [if_neg hz] at hd
          have : G + 1 < tget f.tbl (addr cfg.rows n) / 8 % 16384 := by omega
          rw [Bool.or_eq_true]
          right
          rw [Nat.blt_eq]
          exact this
      rw [e2, cond_true]
      refine ⟨_, rfl, ?_, setCost_geom hG _ _ _ _, ?_⟩
      · refine ⟨?_, ?_, ?_, ?_, ?_, hS.running, hS.tracing, hS.pathBox⟩
        · intro p hp
          show Cell cfg _ (tget (tset f.tbl (addr cfg.rows n) _) (addr cfg.rows p))
          rw [cell_get_set hK _ hn hp, setCost_boxes]
          by_cases hpn : p = n
          · rw [if_pos hpn, if_pos hpn, ← hGd]
            exact cell_cost hcell hc hGb
          · rw [if_neg hpn, if_neg hpn]
            exact hS.cells p hp
        · show List.Perm (ins _ f.pq) (((_, n) :: g.pq).map (keyOf cfg))
          rw [List.map_cons]
          have hk : keyOf cfg ((g.boxes cur).distance + 1 + manhattan n (ptrOf cfg.endCoord), n)
              = (G + natManhattan n.1 n.2 (ptrOf cfg.endCoord).1 (ptrOf cfg.endCoord).2)
                * (cfg.cols * cfg.rows) + addr cfg.rows n := by
            unfold keyOf
            rw [← hGd, manhattan_nat]
            simp only
            rw [← Int.ofNat_add, Int.toNat_ofNat]
          rw [hk]
          exact (ins_perm _ _).trans (List.Perm.cons _ hS.pq)
        · exact ins_sorted _ _ hS.sorted
        · intro e he
          rw [setCost_pq] at he
          rcases List.mem_cons.mp he with h | h
          · subst h
            have := manhattan_nonneg n (ptrOf cfg.endCoord)
            show 0 ≤ (g.boxes cur).distance + 1 + manhattan n (ptrOf cfg.endCoord)
            omega
          · exact hS.nonneg e h
        · intro e he
          rw [setCost_pq] at he
          rcases List.mem_cons.mp he with h | h
          · subst h; exact hn
          · exact hS.inb e h
      · rw [setCost_boxes]
        split
        · rename_i h; subst h; exfalso; omega
        · rfl
    · rw [if_neg hlt]
      have e2 : (Nat.beq (tget f.tbl (addr cfg.rows n) / 8 % 16384) 0 ||
          Nat.blt (G + 1) (tget f.tbl (addr cfg.rows n) / 8 % 16384)) = false := by
        have hd := hcell.dist
        unfold distOf at hd
        by_cases hz : tget f.tbl (addr cfg.rows n) / 8 % 16384 = 0
        · rw [if_pos hz] at hd
          exfalso; omega
        · rw [if_neg hz] at hd
          have h1 : Nat.beq (tget f.tbl (addr cfg.rows n) / 8 % 16384) 0 = false := by
            cases h : Nat.beq (tget f.tbl (addr cfg.rows n) / 8 % 16384) 0
            · rfl
            · exact absurd (Nat.eq_of_beq_eq_true h) hz
          have h2 : Nat.blt (G + 1) (tget f.tbl (addr cfg.rows n) / 8 % 16384) = false := by
            cases h : Nat.blt (G + 1) (tget f.tbl (addr cfg.rows n) / 8 % 16384)
            · rfl
            · rw [Nat.blt_eq] at h
              exfalso; omega
          rw [h1, h2]; rfl
      rw [e2, cond_false]
      exact ⟨g, rfl, hS, hG, rfl⟩
  · rw [if_neg hw]
    have hw' : (g.boxes n).isWall = true := by
      cases h : (g.boxes n).isWall
      · exact absurd h hw
      · rfl
    have hw2 := hcell.wall.mp hw'
    have e1 : Nat.beq (tget f.tbl (addr cfg.rows n) % 2) 0 = false := by
      rw [hw2]; rfl
    rw [e1, Bool.false_and, cond_false]
    exact ⟨g, rfl, hS, hG, rfl⟩

theorem sim_candidates {cfg : Config} (hK : cfg.cols * cfg.rows ≤ 8192) {g0 : Grid}
    (hG0 : Geom cfg g0) {cur : BoxPtr} (hc : InB cfg cur) {G : Nat} (hGb : G + 1 < 16384) :
    ∀ (cs : List (Int × Int)) (ts : List (Bool × Nat × Nat)),
    List.Forall₂ (fun (c : Int × Int) (t : Bool × Nat × Nat) =>
      (t.1 = true ↔ 0 ≤ c.1 ∧ c.1 < (cfg.cols : Int) ∧ 0 ≤ c.2 ∧ c.2 < (cfg.rows : Int)) ∧
        (t.1 = true → c.1.toNat = t.2.1 ∧ c.2.toNat = t.2.2)) cs ts →
    ∀ (f : Fast) (g : Grid), Geom cfg g → Sim cfg f g →
    (G : Int) = (g.boxes cur).distance + 1 → 0 ≤ (g.boxes cur).distance →
    (g.boxes cur).distance + 1 + cfg.cols + cfg.rows ≤ INT_MAX →
    ∃ g', relaxAll cur
        ((cs.filter (fun c =>
          decide (0 ≤ c.1 ∧ c.1 < (g0.cols : Int) ∧ 0 ≤ c.2 ∧ c.2 < (g0.rows : Int)) &&
            !(g0.boxes (c.1.toNat, c.2.toNat)).isWall)).map
          (fun c => (c.1.toNat, c.2.toNat))) g = some g' ∧
      Sim cfg (ts.foldl (fastRelax cfg (addr cfg.rows cur) G) f) g'
  | _, _, List.Forall₂.nil, f, g, _, hS, _, _, _ => ⟨g, rfl, hS⟩
  | c :: cs, t :: ts, List.Forall₂.cons hct hrest, f, g, hG, hS, hGd, h0, hb => by
    obtain ⟨ok, nx, ny⟩ := t
    obtain ⟨hin, hto⟩ := hct
    simp only at hin hto
    rw [List.foldl_cons]
    cases ok with
    | false =>
      have hnin : ¬ (0 ≤ c.1 ∧ c.1 < (cfg.cols : Int) ∧ 0 ≤ c.2 ∧ c.2 < (cfg.rows : Int)) :=
        fun h => Bool.noConfusion (hin.mpr h)
      rw [fastRelax_skip, List.filter_cons_of_neg]
      · exact sim_candidates hK hG0 hc hGb cs ts hrest f g hG hS hGd h0 hb
      · rw [hG0.cols_eq, hG0.rows_eq]
        simp only [Bool.and_eq_true, decide_eq_true_eq, not_and]
        intro h
        exact absurd h hnin
    | true =>
      have hinb := hin.mp rfl
      obtain ⟨hx, hy⟩ := hto rfl
      have hn : InB cfg (nx, ny) := by
        unfold InB
        simp only
        omega
      obtain ⟨g1, h1, hS1, hG1, hd1⟩ := sim_relax hK hG hS hc hGd hGb h0 hb hn
      obtain ⟨g', h2, hS2⟩ := sim_candidates hK hG0 hc hGb cs ts hrest _ g1 hG1 hS1
        (by rw [hd1]; exact hGd) (by rw [hd1]; exact h0) (by rw [hd1]; exact hb)
      refine ⟨g', ?_, hS2⟩
      have hwall : (g.boxes (nx, ny)).isWall = (g0.boxes (nx, ny)).isWall := by
        have a := hG.wall_iff _ hn
        have b := hG0.wall_iff _ hn
        cases h : (g.boxes (nx, ny)).isWall <;> cases h' : (g0.boxes (nx, ny)).isWall
        · rfl
        · exact absurd (a.mpr (b.mp h')) (by rw [h]; exact Bool.noConfusion)
        · exact absurd (b.mpr (a.mp h)) (by rw [h']; exact Bool.noConfusion)
        · rfl
      by_cases hw : (g.boxes (nx, ny)).isWall = false
      · rw [if_pos hw] at h1
        rw [List.filter_cons_of_pos, List.map_cons]
        · simp only [hx, hy]
          unfold relaxAll
          rw [h1]
          exact h2
        · rw [hG0.cols_eq, hG0.rows_eq]
          simp only [Bool.and_eq_true, decide_eq_true_eq, hx, hy, ← hwall, hw, Bool.not_false,
            and_true]
          exact hinb
      · rw [if_neg hw] at h1
        cases h1
        rw [List.filter_cons_of_neg]
        · exact h2
        · simp only [Bool.and_eq_true, decide_eq_true_eq, hx, hy, ← hwall, not_and,
            Bool.not_eq_true', Bool.not_eq_false]
          intro _
          cases h : (g.boxes (nx, ny)).isWall
          · exact absurd h hw
          · rfl

theorem sim_top_key {cfg : Config} {f : Fast} {g : Grid} (hS : Sim cfg f g)
    (hrows : g.rows = cfg.rows) {k : Nat} {rest : List Nat} (hq : f.pq = k :: rest)
    {top : Entry} (ht : pqTop g.rows g.pq = some top) : keyOf cfg top = k := by
  have hperm := hS.pq
  rw [hq] at hperm
  have hsorted := hS.sorted
  rw [hq] at hsorted
  have htop := pqTop_mem ht
  have h1 : keyOf cfg top ∈ k :: rest := hperm.symm.subset (List.mem_map_of_mem _ htop)
  have hle : k ≤ keyOf cfg top := by
    rcases List.mem_cons.mp h1 with h | h
    · exact le_of_eq h.symm
    · exact List.rel_of_pairwise_cons hsorted h
  have h2 : k ∈ g.pq.map (keyOf cfg) := hperm.subset (List.mem_cons_self _ _)
  obtain ⟨e0, he0, hk0⟩ := List.mem_map.mp h2
  have hmin := pqTop_minimal ht e0 he0
  rw [hrows] at hmin
  have hnlt : ¬ keyOf cfg e0 < keyOf cfg top := fun h =>
    hmin (keyOf_lt (hS.nonneg e0 he0) (hS.nonneg top htop) (hS.inb e0 he0) (hS.inb top htop) h)
  omega

theorem sim_pop {cfg : Config} {f : Fast} {g : Grid} (hS : Sim cfg f g)
    {k : Nat} {rest : List Nat} (hq : f.pq = k :: rest) {top : Entry} (htop : top ∈ g.pq)
    (hk : keyOf cfg top = k) :
    List.Perm rest ((g.pq.erase top).map (keyOf cfg)) ∧ rest.Pairwise (· ≤ ·) ∧
      (∀ e ∈ g.pq.erase top, 0 ≤ e.1) ∧ (∀ e ∈ g.pq.erase top, InB cfg e.2) := by
  have hperm := hS.pq
  rw [hq] at hperm
  have hsorted := hS.sorted
  rw [hq] at hsorted
  refine ⟨?_, List.Pairwise.of_cons hsorted,
    fun e he => hS.nonneg e (List.mem_of_mem_erase he),
    fun e he => hS.inb e (List.mem_of_mem_erase he)⟩
  have h1 : List.Perm (g.pq.map (keyOf cfg)) ((top :: g.pq.erase top).map (keyOf cfg)) :=
    (entry_perm_cons_erase htop).map _
  rw [List.map_cons, hk] at h1
  exact (hperm.trans h1).cons_inv

theorem sim_searching_iff {cfg : Config} {f : Fast} {g : Grid} (hS : Sim cfg f g) :
    (f.running = true ∧ f.pq ≠ []) ↔ (g.algorithmRunning = true ∧ g.pq ≠ []) := by
  have hlen := hS.pq.length_eq
  rw [List.length_map] at hlen
  rw [hS.running]
  constructor
  · rintro ⟨h1, h2⟩
    refine ⟨h1, fun h => h2 ?_⟩
    rw [h] at hlen
    exact List.length_eq_zero.mp hlen
  · rintro ⟨h1, h2⟩
    refine ⟨h1, fun h => h2 ?_⟩
    rw [h] at hlen
    exact List.length_eq_zero.mp hlen.symm

theorem pathBox_inB {cfg : Config} {g : Grid} (hI : Inv cfg g) (hT : TraceInv cfg g)
    {pb : BoxPtr} (hp : g.pathBox = some pb) : InB cfg pb := by
  by_cases hr : g.algorithmRunning = true
  · have := (hT.searching hr).2.1
    rw [hp] at this
    exact Option.noConfusion this
  · have hr' : g.algorithmRunning = false := by
      cases h : g.algorithmRunning
      · rfl
      · exact absurd h hr
    obtain ⟨pb', hp', hw, _⟩ := hT.pathBox_ok hI hr'
    rw [hp] at hp'
    cases hp'
    exact hw.1

theorem sim_step {cfg : Config} (hK : cfg.cols * cfg.rows ≤ 8192) {f : Fast}
    {g : Grid} (hI : Inv cfg g) (hT : TraceInv cfg g) (hS : Sim cfg f g) :
    ∃ g', Step g = some g' ∧ Sim cfg (fastStep cfg f) g' := by
  have hG := hI.geom
  by_cases hs : g.algorithmRunning = true ∧ g.pq ≠ []
  · obtain ⟨hr, hq⟩ := hs
    obtain ⟨hfr, hfq⟩ := (sim_searching_iff hS).mpr ⟨hr, hq⟩
    obtain ⟨top, ht⟩ := pqTop_of_ne_nil g.rows hq
    have htop := pqTop_mem ht
    obtain ⟨k, rest, hkq⟩ : ∃ k rest, f.pq = k :: rest := by
      cases h : f.pq with
      | nil => exact absurd h hfq
      | cons k rest => exact ⟨k, rest, rfl⟩
    have hk := sim_top_key hS hI.rows_eq hkq ht
    have hti : InB cfg top.2 := hS.inb top htop
    have hka : k % (cfg.cols * cfg.rows) = addr cfg.rows top.2 := by
      rw [← hk]; exact keyOf_mod hti
    have hdec := addr_decode hti
    have hx : addr cfg.rows top.2 / cfg.rows = top.2.1 := congrArg Prod.fst hdec
    have hy : addr cfg.rows top.2 % cfg.rows = top.2.2 := congrArg Prod.snd hdec
    obtain ⟨hp1, hp2, hp3, hp4⟩ := sim_pop hS hkq htop hk
    have hcell := hS.cells _ hti
    rw [fastStep_searching cfg hfr hkq hka hx hy]
    by_cases hv : (g.boxes top.2).isVisited = true
    · have e1 : Nat.beq (tget f.tbl (addr cfg.rows top.2) / 2 % 2) 1 = true := by
        rw [hcell.visited.mp hv]; rfl
      rw [e1, cond_true]
      exact ⟨_, Step_stale hr ht hv,
        ⟨hS.cells, hp1, hp2, hp3, hp4, hr.symm, hS.tracing, hS.pathBox⟩⟩
    · have hv' : (g.boxes top.2).isVisited = false := by
        cases h : (g.boxes top.2).isVisited
        · rfl
        · exact absurd h hv
      have hvc : ¬ tget f.tbl (addr cfg.rows top.2) / 2 % 2 = 1 :=
        fun h => hv (hcell.visited.mpr h)
      have e1 : Nat.beq (tget f.tbl (addr cfg.rows top.2) / 2 % 2) 1 = false := by
        have : tget f.tbl (addr cfg.rows top.2) / 2 % 2 = 0 := by omega
        rw [this]; rfl
      rw [e1, cond_false]
      have hbx : ∀ p, InB cfg p →
          Cell cfg (Function.update g.boxes top.2 { g.boxes top.2 with isVisited := true } p)
            (tget (tset f.tbl (addr cfg.rows top.2) (tget f.tbl (addr cfg.rows top.2) + 2))
              (addr cfg.rows p)) := by
        intro p hp
        rw [cell_get_set hK _ hti hp, Function.update_apply]
        by_cases hpt : p = top.2
        · rw [if_pos hpt, if_pos hpt]
          exact cell_visit hcell hvc
        · rw [if_neg hpt, if_neg hpt]
          exact hS.cells p hp
      by_cases he : top.2 = ptrOf cfg.endCoord
      · have e2 : Nat.beq (addr cfg.rows top.2) (addr cfg.rows (ptrOf cfg.endCoord)) = true := by
          rw [he]; exact Nat.beq_refl _
        rw [e2, cond_true]
        refine ⟨_, Step_goal hG hr ht hv' he, ⟨hbx, hp1, hp2, hp3, hp4, rfl, rfl, ?_⟩⟩
        exact hcell.src
      · have e2 : Nat.beq (addr cfg.rows top.2) (addr cfg.rows (ptrOf cfg.endCoord)) = false := by
          cases h : Nat.beq (addr cfg.rows top.2) (addr cfg.rows (ptrOf cfg.endCoord))
          · rfl
          · exact absurd (addr_injective hti (ptrOf_inB hG.coord_end) (Nat.eq_of_beq_eq_true h)) he
        rw [e2, cond_false]
        have he' : ¬ some top.2 = some (ptrOf cfg.endCoord) := fun h => he (Option.some.inj h)
        rw [Step_searching hr hq ht, if_neg hv, hG.getBox_end, if_neg he']
        obtain ⟨hwk, hdisc, _⟩ := hI.pq_ok top htop
        obtain ⟨g2, hg2⟩ : ∃ g2 : Grid, g2 = { g with
            pq := g.pq.erase top,
            boxes := Function.update g.boxes top.2 { g.boxes top.2 with isVisited := true } } :=
          ⟨_, rfl⟩
        rw [← hg2]
        have hb2 : ∀ p, g2.boxes p =
            if p = top.2 then { g.boxes top.2 with isVisited := true } else g.boxes p := by
          intro p; rw [hg2]; simp only [Function.update_apply]
        have hd2 : ∀ p, (g2.boxes p).distance = (g.boxes p).distance := by
          intro p; rw [hb2]; split
          · rename_i h; rw [h]
          · rfl
        have hfr2 : SameFrame g g2 := by
          rw [hg2]; exact ⟨rfl, rfl, rfl, rfl, rfl, rfl, rfl, rfl⟩
        have hG2 : Geom cfg g2 := by
          refine ⟨hG.coord_end, hfr2.1.trans hG.cols_eq, hfr2.2.1.trans hG.rows_eq,
            hfr2.2.2.2.1.trans hG.end_eq, ?_, ?_⟩
          · intro p hp; rw [hb2]; split
            · rename_i h; subst h; exact hG.grid_xy _ hp
            · exact hG.grid_xy p hp
          · intro p hp; rw [hb2]; split
            · rename_i h; subst h; exact hG.wall_iff _ hp
            · exact hG.wall_iff p hp
        have hS2 : Sim cfg
            { tbl := tset f.tbl (addr cfg.rows top.2) (tget f.tbl (addr cfg.rows top.2) + 2),
              pq := rest, running := true, tracing := f.tracing, pathBox := f.pathBox } g2 := by
          rw [hg2]
          exact ⟨hbx, hp1, hp2, hp3, hp4, hr.symm, hS.tracing, hS.pathBox⟩
        have hbound := hI.dist_bound hdisc
        have hnn := hI.nonneg top.2
        have hdist := hcell.dist
        have hGd : ((tget f.tbl (addr cfg.rows top.2) / 8 % 16384 : Nat) : Int) =
            (g2.boxes top.2).distance + 1 := by
          rw [hd2, hdist]
          unfold distOf
          by_cases hz : tget f.tbl (addr cfg.rows top.2) / 8 % 16384 = 0
          · exfalso
            rw [hdist] at hbound
            unfold distOf at hbound
            rw [if_pos hz] at hbound
            have hmax : INT_MAX = 2147483647 := rfl
            have : ((cfg.cols : Int) * cfg.rows) ≤ 8192 := by exact_mod_cast hK
            omega
          · rw [if_neg hz]
            omega
        have hGb : tget f.tbl (addr cfg.rows top.2) / 8 % 16384 + 1 < 16384 := by
          have : ((cfg.cols : Int) * cfg.rows) ≤ 8192 := by exact_mod_cast hK
          rw [hd2] at hGd
          omega
        have hxy := hG2.grid_xy _ hti
        rw [GetNeighbors_eq, hxy.1, hxy.2]
        refine sim_candidates hK hG2 hti hGb _ _ ?_ _ g2 hG2 hS2 hGd
          (by rw [hd2]; exact hnn) (by rw [hd2]; exact hI.dist_lt_max hdisc)
        have hin := hti
        unfold InB at hin
        refine List.Forall₂.cons ⟨?_, ?_⟩ (List.Forall₂.cons ⟨?_, ?_⟩
          (List.Forall₂.cons ⟨?_, ?_⟩ (List.Forall₂.cons ⟨?_, ?_⟩ List.Forall₂.nil)))
        · simp only [Nat.ble_eq]; omega
        · intro _; simp only; omega
        · simp only [Nat.blt_eq]; omega
        · intro _; simp only; omega
        · simp only [Nat.ble_eq]; omega
        · intro _; simp only; omega
        · simp only [Nat.blt_eq]; omega
        · intro _; simp only; omega
  · have hfs : ¬ (f.running = true ∧ f.pq ≠ []) := fun h => hs ((sim_searching_iff hS).mp h)
    rw [fastStep_not_searching cfg hfs]
    have hsi : InB cfg (ptrOf cfg.startCoord) := hI.start_ok.1
    by_cases hc : ∃ pb, g.pathBox = some pb ∧ g.tracingPath = true ∧ (g.boxes pb).isStart = false
    · obtain ⟨pb, hp, hc1, hc2⟩ := hc
      have hpi : InB cfg pb := pathBox_inB hI hT hp
      have hsrc := hS.pathBox
      rw [hp] at hsrc
      unfold srcOf at hsrc
      have hnz : ¬ f.pathBox = 0 := by
        intro h
        rw [if_pos h] at hsrc
        exact Option.noConfusion hsrc
      rw [if_neg hnz] at hsrc
      have hpa : f.pathBox - 1 = addr cfg.rows pb := by
        rw [Option.some.inj hsrc, addr_ptrAt]
      have hne : pb ≠ ptrOf cfg.startCoord := by
        intro h
        have := (hI.start_iff pb hpi).mpr h
        rw [hc2] at this
        exact Bool.noConfusion this
      have e1 : (f.tracing && !(Nat.beq f.pathBox 0) &&
          !(Nat.beq (f.pathBox - 1) (addr cfg.rows (ptrOf cfg.startCoord)))) = true := by
        have a1 : Nat.beq f.pathBox 0 = false := by
          cases h : Nat.beq f.pathBox 0
          · rfl
          · exact absurd (Nat.eq_of_beq_eq_true h) hnz
        have a2 : Nat.beq (f.pathBox - 1) (addr cfg.rows (ptrOf cfg.startCoord)) = false := by
          cases h : Nat.beq (f.pathBox - 1) (addr cfg.rows (ptrOf cfg.startCoord))
          · rfl
          · exact absurd (addr_injective hpi hsi (hpa ▸ Nat.eq_of_beq_eq_true h)) hne
        rw [hS.tracing, hc1, a1, a2]; rfl
      rw [e1, cond_true, hpa]
      have hcell := hS.cells pb hpi
      refine ⟨_, Step_trace hs hp ⟨hc1, hc2⟩,
        ⟨?_, hS.pq, hS.sorted, hS.nonneg, hS.inb, hS.running, hS.tracing, ?_⟩⟩
      · intro p hpp
        show Cell cfg ((tracedState g pb).boxes p) (tget (tset f.tbl (addr cfg.rows pb) _)
          (addr cfg.rows p))
        unfold tracedState
        rw [cell_get_set hK _ hpi hpp]
        simp only [Function.update_apply]
        by_cases hpn : p = pb
        · rw [if_pos hpn, if_pos hpn]
          exact cell_mark hcell
        · rw [if_neg hpn, if_neg hpn]
          exact hS.cells p hpp
      · exact hcell.src
    · have hn : ∀ pb, g.pathBox = some pb →
          ¬ (g.tracingPath = true ∧ (g.boxes pb).isStart = false) :=
        fun pb hp h => hc ⟨pb, hp, h⟩
      have e1 : (f.tracing && !(Nat.beq f.pathBox 0) &&
          !(Nat.beq (f.pathBox - 1) (addr cfg.rows (ptrOf cfg.startCoord)))) = false := by
        cases h : (f.tracing && !(Nat.beq f.pathBox 0) &&
          !(Nat.beq (f.pathBox - 1) (addr cfg.rows (ptrOf cfg.startCoord))))
        · rfl
        · exfalso
          simp only [Bool.and_eq_true, Bool.not_eq_true', ] at h
          obtain ⟨⟨h1, h2⟩, h3⟩ := h
          have hnz : ¬ f.pathBox = 0 := by
            intro hz
            rw [hz] at h2
            exact Bool.noConfusion h2
          have hsrc := hS.pathBox
          unfold srcOf at hsrc
          rw [if_neg hnz] at hsrc
          have hpi := pathBox_inB hI hT hsrc
          have hne : ptrAt cfg (f.pathBox - 1) ≠ ptrOf cfg.startCoord := by
            intro heq
            have := congrArg (addr cfg.rows) heq
            rw [addr_ptrAt] at this
            rw [this, Nat.beq_refl] at h3
            exact Bool.noConfusion h3
          refine hn _ hsrc ⟨hS.tracing ▸ h1, ?_⟩
          cases hst : (g.boxes (ptrAt cfg (f.pathBox - 1))).isStart
          · rfl
          · exact absurd ((hI.start_iff _ hpi).mp hst) hne
      rw [e1, cond_false]
      exact ⟨_, Step_rest hs hn,
        ⟨hS.cells, hS.pq, hS.sorted, hS.nonneg, hS.inb, hS.running, rfl, hS.pathBox⟩⟩

theorem sim_walls {cfg : Config} (hK : cfg.cols * cfg.rows ≤ 8192) :
    ∀ (walls : List Coordinate) (t : Trie) (p : BoxPtr), InB cfg p →
      tget (walls.foldl
        (fun (t : Trie) (wall : Coordinate) =>
          if wall.x ≥ 0 ∧ wall.x < (cfg.cols : Int) ∧ wall.y ≥ 0 ∧ wall.y < (cfg.rows : Int) then
            tset t (addr cfg.rows (ptrOf wall)) 1
          else t) t) (addr cfg.rows p) =
        if ∃ w ∈ walls, CoordIn cfg.cols cfg.rows w ∧ ptrOf w = p then 1
        else tget t (addr cfg.rows p)
  | [], t, p, _ => by simp
  | w :: ws, t, p, hp => by
    rw [List.foldl_cons, sim_walls hK ws _ p hp]
    by_cases hrest : ∃ w' ∈ ws, CoordIn cfg.cols cfg.rows w' ∧ ptrOf w' = p
    · have : ∃ w' ∈ w :: ws, CoordIn cfg.cols cfg.rows w' ∧ ptrOf w' = p := by
        obtain ⟨w', h1, h2⟩ := hrest
        exact ⟨w', List.mem_cons_of_mem _ h1, h2⟩
      rw [if_pos hrest, if_pos this]
    · rw [if_neg hrest]
      by_cases hw : w.x ≥ 0 ∧ w.x < (cfg.cols : Int) ∧ w.y ≥ 0 ∧ w.y < (cfg.rows : Int)
      · rw [if_pos hw]
        have hin : InB cfg (ptrOf w) := ptrOf_inB (c := w) hw
        rw [cell_get_set hK _ hin hp]
        by_cases hpw : p = ptrOf w
        · have : ∃ w' ∈ w :: ws, CoordIn cfg.cols cfg.rows w' ∧ ptrOf w' = p :=
            ⟨w, List.mem_cons_self _ _, hw, hpw.symm⟩
          rw [if_pos hpw, if_pos this]
        · have : ¬ ∃ w' ∈ w :: ws, CoordIn cfg.cols cfg.rows w' ∧ ptrOf w' = p := by
            rintro ⟨w', h1, h2, h3⟩
            rcases List.mem_cons.mp h1 with h | h
            · subst h; exact hpw h3.symm
            · exact hrest ⟨w', h, h2, h3⟩
          rw [if_neg hpw, if_neg this]
      · rw [if_neg hw]
        have : ¬ ∃ w' ∈ w :: ws, CoordIn cfg.cols cfg.rows w' ∧ ptrOf w' = p := by
          rintro ⟨w', h1, h2, h3⟩
          rcases List.mem_cons.mp h1 with h | h
          · subst h; exact hw h2
          · exact hrest ⟨w', h, h2, h3⟩
        rw [if_neg this]

theorem sim_init {cfg : Config} (hv : Valid cfg) (hK : cfg.cols * cfg.rows ≤ 8192) :
    Sim cfg (fastInit cfg) (initGrid cfg) := by
  obtain ⟨hs, he, _, hsw, _⟩ := hv
  have hsi : InB cfg (ptrOf cfg.startCoord) := ptrOf_inB hs
  have hkey : keyOf cfg (0, ptrOf cfg.startCoord) = addr cfg.rows (ptrOf cfg.startCoord) := by
    simp [keyOf]
  refine ⟨?_, ?_, List.pairwise_singleton _ _, ?_, ?_, rfl, rfl, rfl⟩
  rotate_left
  · show List.Perm [addr cfg.rows (ptrOf cfg.startCoord)]
      [keyOf cfg (0, ptrOf cfg.startCoord)]
    rw [hkey]
  · intro e h
    simp only [initGrid, List.mem_singleton] at h
    rw [h]
  · intro e h
    simp only [initGrid, List.mem_singleton] at h
    rw [h]; exact hsi
  · intro p hp
    show Cell cfg ((initGrid cfg).boxes p)
      (tget (tset _ (addr cfg.rows (ptrOf cfg.startCoord)) 8) (addr cfg.rows p))
    rw [cell_get_set hK _ hsi hp]
    by_cases hps : p = ptrOf cfg.startCoord
    · rw [if_pos hps]
      have hnw : ¬ ∃ w ∈ cfg.walls, CoordIn cfg.cols cfg.rows w ∧ ptrOf w = p := by
        rintro ⟨w, h1, h2, h3⟩
        rw [hps] at h3
        have := ptrOf_injective h2 hs h3
        rw [this] at h1
        exact hsw h1
      refine ⟨?_, ?_, ?_, ?_, ?_⟩
      · simp only [initGrid, decide_eq_true_eq]
        constructor
        · intro h; exact absurd h hnw
        · intro h; omega
      · simp [initGrid]
      · simp [initGrid]
      · simp [initGrid, hps, distOf]
      · simp [initGrid, srcOf]
    · rw [if_neg hps, sim_walls hK cfg.walls Trie.empty p hp, tget_empty]
      by_cases hw : ∃ w ∈ cfg.walls, CoordIn cfg.cols cfg.rows w ∧ ptrOf w = p
      · rw [if_pos hw]
        refine ⟨?_, ?_, ?_, ?_, ?_⟩
        · simp only [initGrid, decide_eq_true_eq]
          constructor
          · intro _; trivial
          · intro _; exact hw
        · simp [initGrid]
        · simp [initGrid]
        · simp [initGrid, hps, distOf]
        · simp [initGrid, srcOf]
      · rw [if_neg hw]
        refine ⟨?_, ?_, ?_, ?_, ?_⟩
        · simp only [initGrid, decide_eq_true_eq]
          constructor
          · intro h; exact absurd h hw
          · intro h; omega
        · simp [initGrid]
        · simp [initGrid]
        · simp [initGrid, hps, distOf]
        · simp [initGrid, srcOf]

theorem sim_run {cfg : Config} (hv : Valid cfg) (hs : Small cfg)
    (hK : cfg.cols * cfg.rows ≤ 8192) :
    ∀ n, ∃ g, run cfg n = some g ∧ Inv cfg g ∧ TraceInv cfg g ∧ Sim cfg (fastRun cfg n) g
  | 0 => by
    obtain ⟨g, h1, hI, hT⟩ := run_inv hv hs 0
    have h0 := run_zero hv
    rw [h0] at h1
    cases h1
    exact ⟨_, h0, hI, hT, sim_init hv hK⟩
  | n + 1 => by
    obtain ⟨g, h1, hI, hT, hS⟩ := sim_run hv hs hK n
    obtain ⟨g', hstep, hS'⟩ := sim_step hK hI hT hS
    obtain ⟨g'', h2, hI', hT'⟩ := run_inv hv hs (n + 1)
    have h3 := run_succ h1 hstep
    rw [h3] at h2
    cases h2
    exact ⟨g', h3, hI', hT', hS'⟩

theorem sim_chain {cfg : Config} {f : Fast} {g : Grid} (hS : Sim cfg f g) :
    ∀ (l : List BoxPtr) (p : BoxPtr), InB cfg p → (∀ q ∈ l, InB cfg q) →
      chainOk cfg f.tbl p l = true → SourceChain g p l
  | [], p, hp, _, h => by
    unfold chainOk at h
    unfold SourceChain
    rw [(hS.cells p hp).src, Nat.eq_of_beq_eq_true h]
    rfl
  | s :: rest, p, hp, hl, h => by
    unfold chainOk at h
    rw [Bool.and_eq_true] at h
    unfold SourceChain
    have hsi : InB cfg s := hl s (List.mem_cons_self _ _)
    refine ⟨?_, sim_chain hS rest s hsi (fun q hq => hl q (List.mem_cons_of_mem _ hq)) h.2⟩
    rw [(hS.cells p hp).src, Nat.eq_of_beq_eq_true h.1]
    unfold srcOf
    rw [if_neg (Nat.succ_ne_zero _), Nat.add_sub_cancel, addr_decode hsi]

theorem mem_builtInPath (p : BoxPtr) :
    p ∈ builtInPath ↔
      (p.1 = 10 ∧ 11 ≤ p.2 ∧ p.2 ≤ 50) ∨ (p.2 = 50 ∧ 11 ≤ p.1 ∧ p.1 ≤ 29) := by
  unfold builtInPath
  simp only [List.mem_append, List.mem_map, List.mem_range]
  constructor
  · rintro (⟨i, hi, rfl⟩ | ⟨i, hi, rfl⟩)
    · exact Or.inr ⟨rfl, by show 11 ≤ 29 - i; omega, by show 29 - i ≤ 29; omega⟩
    · exact Or.inl ⟨rfl, by show 11 ≤ 50 - i; omega, by show 50 - i ≤ 50; omega⟩
  · rintro (⟨h1, h2, h3⟩ | ⟨h1, h2, h3⟩)
    · right
      refine ⟨50 - p.2, by omega, ?_⟩
      apply Prod.ext
      · exact h1.symm
      · show 50 - (50 - p.2) = p.2; omega
    · left
      refine ⟨29 - p.1, by omega, ?_⟩
      apply Prod.ext
      · show 29 - (29 - p.1) = p.1; omega
      · exact h1.symm

theorem initWalls_mem (c : Coordinate) :
    c ∈ programConfig.walls ↔ (c.x = 5 ∨ c.x = 15) ∧ 0 ≤ c.y ∧ c.y ≤ 29 := by
  have h1 : ∀ c ∈ InitWalls, (c.x = 5 ∨ c.x = 15) ∧ 0 ≤ c.y ∧ c.y ≤ 29 := by decide!
  have h2 : ∀ y ∈ List.range 30,
      (⟨5, (y : Nat)⟩ : Coordinate) ∈ InitWalls ∧ (⟨15, (y : Nat)⟩ : Coordinate) ∈ InitWalls := by
    decide!
  show c ∈ InitWalls ↔ _
  constructor
  · exact h1 c
  · rintro ⟨hx, hy0, hy1⟩
    obtain ⟨x, y⟩ := c
    simp only at hx hy0 hy1
    obtain ⟨k, rfl⟩ := Int.eq_ofNat_of_zero_le hy0
    have hk : k ∈ List.range 30 := by rw [List.mem_range]; omega
    rcases hx with hx | hx
    · subst hx; exact (h2 k hk).1
    · subst hx; exact (h2 k hk).2

theorem builtInCheck_eq : builtInCheck = true := by decide!

/-- C19: on the configuration of the source (96 × 54 cells, start (10,10), end (30,50), walls
at x ∈ {5, 15} with 0 ≤ y ≤ 29) and with the frontier ordered by priority and then by cell
address, the end cell is unvisited after each of the first 540 calls of `Step` and is visited
with distance 60 after the 541st; no state before the 601st call is Idle and the state after
the 601st call is; in that state the cells with `isPath` are exactly the 59 cells (10, y) for
11 ≤ y ≤ 50 and (x, 50) for 11 ≤ x ≤ 29. -/
theorem built_in_run :
    (programConfig.cols = 96 ∧ programConfig.rows = 54 ∧
      programConfig.startCoord = ⟨10, 10⟩ ∧ programConfig.endCoord = ⟨30, 50⟩ ∧
      ∀ c, c ∈ programConfig.walls ↔ (c.x = 5 ∨ c.x = 15) ∧ 0 ≤ c.y ∧ c.y ≤ 29) ∧
    (∀ j, j < 541 → ∃ g, run programConfig j = some g ∧ (g.boxes (30, 50)).isVisited = false) ∧
    (∃ g, run programConfig 541 = some g ∧ (g.boxes (30, 50)).isVisited = true ∧
      (g.boxes (30, 50)).distance = 60) ∧
    (∀ j, j < 601 → ∃ g, run programConfig j = some g ∧ ¬ Idle g) ∧
    (∃ g, run programConfig 601 = some g ∧ Idle g ∧
      ∀ p, (g.boxes p).isPath = true ↔ p ∈ builtInPath) ∧
    builtInPath.length = 59 ∧ builtInPath.Nodup ∧
    ∀ p : BoxPtr, p ∈ builtInPath ↔
      (p.1 = 10 ∧ 11 ≤ p.2 ∧ p.2 ≤ 50) ∨ (p.2 = 50 ∧ 11 ≤ p.1 ∧ p.1 ≤ 29) := by
  have hv : Valid programConfig := by decide
  have hs : Small programConfig := by decide
  have hK : programConfig.cols * programConfig.rows ≤ 8192 := by decide
  have he : InB programConfig (30, 50) := by decide
  have hc := builtInCheck_eq
  unfold builtInCheck at hc
  simp only [Bool.and_eq_true, Bool.not_eq_true'] at hc
  obtain ⟨⟨⟨⟨⟨⟨c1, c2⟩, c3⟩, c4⟩, c5⟩, c6⟩, c7⟩ := hc
  have c1 := Nat.eq_of_beq_eq_true c1
  have c2 := Nat.eq_of_beq_eq_true c2
  have c3 := Nat.eq_of_beq_eq_true c3
  obtain ⟨g540, r540, I540, _, S540⟩ := sim_run hv hs hK 540
  obtain ⟨g541, r541, _, _, S541⟩ := sim_run hv hs hK 541
  obtain ⟨g600, r600, _, _, S600⟩ := sim_run hv hs hK 600
  obtain ⟨g601, r601, I601, T601, S601⟩ := sim_run hv hs hK 601
  have v540 : (g540.boxes (30, 50)).isVisited = false := by
    cases h : (g540.boxes (30, 50)).isVisited
    · rfl
    · have := (S540.cells _ he).visited.mp h
      omega
  have v541 : (g541.boxes (30, 50)).isVisited = true := (S541.cells _ he).visited.mpr c2
  have d541 : (g541.boxes (30, 50)).distance = 60 := by
    rw [(S541.cells _ he).dist]
    unfold distOf
    rw [c3]
    rfl
  rw [S600.tracing] at c4
  rw [S601.tracing] at c5
  rw [S601.running] at c6
  have hchain : SourceChain g601 (30, 50) (builtInPath ++ [(10, 10)]) :=
    sim_chain S601 _ _ he (by decide) c7
  refine ⟨⟨rfl, rfl, rfl, rfl, initWalls_mem⟩, ?_, ⟨g541, r541, v541, d541⟩, ?_,
    ⟨g601, r601, ⟨c5, Or.inl c6⟩, ?_⟩, by decide, by decide, mem_builtInPath⟩
  · intro j hj
    obtain ⟨gj, rj, Ij, _⟩ := run_inv hv hs j
    refine ⟨gj, rj, ?_⟩
    cases hvis : (gj.boxes (30, 50)).isVisited
    · rfl
    · exfalso
      obtain ⟨gm, hm, hfin⟩ := StepN_visited_final (540 - j) gj Ij
      have h1 := run_add rj (540 - j)
      rw [show j + (540 - j) = 540 by omega, r540, hm] at h1
      cases h1
      have := (hfin (30, 50) hvis).1
      rw [v540] at this
      exact Bool.noConfusion this
  · intro j hj
    obtain ⟨gj, rj, _, _⟩ := run_inv hv hs j
    refine ⟨gj, rj, fun hidle => ?_⟩
    have h1 := run_idle_stays rj hidle (600 - j)
    rw [show j + (600 - j) = 600 by omega, r600] at h1
    cases h1
    have := hidle.1
    rw [c4] at this
    exact Bool.noConfusion this
  · obtain ⟨_, done, todo, hch, _, hpath, _, hidle, _⟩ := T601.found c6
    have htodo := hidle c5
    rw [htodo] at hch
    have heq := SourceChain.unique hch hchain
    have hdone : done = builtInPath := (List.append_inj' heq rfl).1
    intro p
    rw [hpath p, hdone]

/-- C3: starting from the constructed Grid (the configuration of the source), repeated calls
of `Step` reach the Idle phase after a finite number `n` of calls: the state after `n` calls
is Idle, no earlier state is, every later state is that same state, and `n` (which is 601) is
at most the number of cells `GRID_COLS * GRID_ROWS` plus the final distance of the end cell
(which is 60). -/
theorem termination_bound :
    ∃ n g, run programConfig n = some g ∧ Idle g ∧
      (∀ j, j < n → ∃ gj, run programConfig j = some gj ∧ ¬ Idle gj) ∧
      (∀ m, run programConfig (n + m) = some g) ∧
      (n : Int) ≤ (GRID_COLS : Int) * GRID_ROWS +
        (g.boxes (ptrOf programConfig.endCoord)).distance ∧
      n = 601 ∧ (g.boxes (ptrOf programConfig.endCoord)).distance = 60 := by
  have hv : Valid programConfig := by decide
  have hs : Small programConfig := by decide
  have hK : programConfig.cols * programConfig.rows ≤ 8192 := by decide
  have he : InB programConfig (30, 50) := by decide
  have hc := builtInCheck_eq
  unfold builtInCheck at hc
  simp only [Bool.and_eq_true, Bool.not_eq_true'] at hc
  obtain ⟨⟨⟨⟨⟨⟨_, c2⟩, c3⟩, c4⟩, c5⟩, c6⟩, _⟩ := hc
  have c2 := Nat.eq_of_beq_eq_true c2
  have c3 := Nat.eq_of_beq_eq_true c3
  obtain ⟨g541, r541, I541, _, S541⟩ := sim_run hv hs hK 541
  obtain ⟨g600, r600, _, _, S600⟩ := sim_run hv hs hK 600
  obtain ⟨g601, r601, _, _, S601⟩ := sim_run hv hs hK 601
  have v541 : (g541.boxes (30, 50)).isVisited = true := (S541.cells _ he).visited.mpr c2
  have d541 : (g541.boxes (30, 50)).distance = 60 := by
    rw [(S541.cells _ he).dist]
    unfold distOf
    rw [c3]
    rfl
  rw [S600.tracing] at c4
  rw [S601.tracing] at c5
  rw [S601.running] at c6
  have hidle : Idle g601 := ⟨c5, Or.inl c6⟩
  have d601 : (g601.boxes (ptrOf programConfig.endCoord)).distance = 60 := by
    obtain ⟨gm, hm, hfin⟩ := StepN_visited_final 60 g541 I541
    have h1 := run_add r541 60
    rw [show 541 + 60 = 601 by rfl, r601, hm] at h1
    cases h1
    show (g601.boxes (30, 50)).distance = 60
    rw [(hfin (30, 50) v541).2.1, d541]
  refine ⟨601, g601, r601, hidle, ?_, run_idle_stays r601 hidle, ?_, rfl, d601⟩
  · intro j hj
    obtain ⟨gj, rj, _, _⟩ := run_inv hv hs j
    refine ⟨gj, rj, fun hi => ?_⟩
    have h1 := run_idle_stays rj hi (600 - j)
    rw [show j + (600 - j) = 600 by omega, r600] at h1
    cases h1
    have := hi.1
    rw [c4] at this
    exact Bool.noConfusion this
  · rw [d601]
    decide

end PathViz
